import Mathlib

/-
Verification of the collage layout engine (`src/image-processor/src/layout.rs`,
`algorithm.rs`, `lib.rs`).

The slicing-tree layout is a petgraph `Graph<NodeLabel, ()>`.  We embed it as an
explicit list of node labels (positions are petgraph node indices) together with
the list of edges in insertion order.  petgraph lists the neighbors of a node in
reverse order of edge addition, and `Layout::children` takes the first neighbor
as the right child and the second as the left child; the embedding below
reproduces exactly that.  Floating point values (`f64`) are modelled as exact
rationals; `as u32` casts of the (non-negative, in-range) quantities appearing
here truncate toward zero, which is modelled by `Int.toNat ∘ Rat.floor`.
Random choices are passed in explicitly as oracle data, so that theorems
quantify over every possible behaviour of the random source.
-/

namespace Collage

/-- Model of `image::RgbImage`: pixel width and height plus an abstract pixel
payload, so that two images compare equal exactly when their dimensions and
contents agree (as `RgbImage`'s derived `PartialEq` does). -/
structure Img where
  width : Nat
  height : Nat
  pix : Nat := 0
deriving DecidableEq, Repr

inductive SliceDirection where
  | vertical
  | horizontal
deriving DecidableEq, Repr

inductive NodeLabel where
  | internal (d : SliceDirection)
  | leaf (img : Img)
deriving DecidableEq, Repr

def NodeLabel.isInternal : NodeLabel → Bool
  | .internal _ => true
  | .leaf _ => false

def NodeLabel.isLeaf : NodeLabel → Bool
  | .internal _ => false
  | .leaf _ => true

/-- `Dimensions` from layout.rs; width and height are `u32`. -/
structure Dimensions where
  width : Nat
  height : Nat
deriving DecidableEq, Repr

/-- `Dimensions::size`: `self.width * self.height` in `u32` arithmetic, which
wraps modulo `2^32` on overflow (release builds). -/
def Dimensions.size (d : Dimensions) : Nat := (d.width * d.height) % 2 ^ 32

def Img.dims (im : Img) : Dimensions := ⟨im.width, im.height⟩

/-- `LayoutBlueprint` from layout.rs. -/
structure LayoutBlueprint where
  graph_representation : List (String × List Nat)
  width : Nat
  height : Nat
deriving DecidableEq, Repr

/-- The petgraph `Graph<NodeLabel, ()>` backing a layout: node labels in index
order and edges in insertion order. -/
structure LayoutGraph where
  nodes : List NodeLabel
  edges : List (Nat × Nat)
deriving DecidableEq, Repr

namespace LayoutGraph

def nodeCount (g : LayoutGraph) : Nat := g.nodes.length

def label? (g : LayoutGraph) (i : Nat) : Option NodeLabel := g.nodes.get? i

/-- `Graph::add_node`; the new node receives index `g.nodeCount`. -/
def addNode (g : LayoutGraph) (l : NodeLabel) : LayoutGraph :=
  { g with nodes := g.nodes ++ [l] }

/-- `Graph::update_edge`: adds the edge only when it is not already present. -/
def updateEdge (g : LayoutGraph) (a b : Nat) : LayoutGraph :=
  if (a, b) ∈ g.edges then g else { g with edges := g.edges ++ [(a, b)] }

/-- Outgoing edges of `i`, in insertion order. -/
def outEdges (g : LayoutGraph) (i : Nat) : List (Nat × Nat) :=
  g.edges.filter (fun e => e.1 == i)

def outDeg (g : LayoutGraph) (i : Nat) : Nat := (g.outEdges i).length

/-- petgraph `neighbors`: outgoing neighbors in reverse order of edge
addition. -/
def neighbors (g : LayoutGraph) (i : Nat) : List Nat :=
  ((g.outEdges i).map Prod.snd).reverse

/-- `Layout::children`: the first neighbor (most recently added edge) is the
right child, the second is the left child. -/
def children? (g : LayoutGraph) (i : Nat) : Option (Nat × Nat) :=
  match g.neighbors i with
  | r :: l :: _ => some (l, r)
  | _ => none

/-- Sources of incoming edges of `i`, in insertion order. -/
def inSources (g : LayoutGraph) (i : Nat) : List Nat :=
  (g.edges.filter (fun e => e.2 == i)).map Prod.fst

def inDeg (g : LayoutGraph) (i : Nat) : Nat := (g.inSources i).length

/-- `Layout::parent_index`: first incoming neighbor, i.e. the source of the
most recently added incoming edge. -/
def parent? (g : LayoutGraph) (i : Nat) : Option Nat :=
  (g.inSources i).reverse.head?

def indices (g : LayoutGraph) : List Nat := List.range g.nodeCount

/-- `Layout::root_node`: the first node index without incoming edges (the
source `unwrap`s; the default `0` is never read on well-formed layouts). -/
def rootIdx (g : LayoutGraph) : Nat :=
  (g.indices.filter (fun i => (g.inSources i).isEmpty)).headD 0

/-- `Layout::leaf_nodes`: nodes without outgoing edges, in index order. -/
def leafIndices (g : LayoutGraph) : List Nat :=
  g.indices.filter (fun i => g.outDeg i == 0)

/-- `Layout::internal_nodes`: nodes with exactly two outgoing edges, in index
order. -/
def internalIndices (g : LayoutGraph) : List Nat :=
  g.indices.filter (fun i => g.outDeg i == 2)

/-- `Layout::indexes_of_nodes_with_less_than_two_children`. -/
def openIndices (g : LayoutGraph) : List Nat :=
  g.indices.filter (fun i =>
    ((g.label? i).map NodeLabel.isInternal).getD false && g.outDeg i < 2)

/-- `Graph::remove_edge` for the unique edge `(a, b)` (order-preserving erase;
per-node neighbor order in petgraph is unaffected by removals). -/
def removeEdge (g : LayoutGraph) (a b : Nat) : LayoutGraph :=
  { g with edges := g.edges.eraseP (fun e => e == (a, b)) }

/-- Children of `i` as a list (empty for childless nodes), used by the breadth
first traversal. -/
def childList (g : LayoutGraph) (i : Nat) : List Nat :=
  match g.children? i with
  | some (l, r) => [l, r]
  | none => []

/-- `LogicalBfs`: queue-based breadth-first traversal using `children?`.  The
source iterator has no fuel; on the tree-shaped graphs of this development the
fuel `nodeCount + 1` used below is never exhausted. -/
def bfsAux (g : LayoutGraph) : Nat → List Nat → List Nat
  | 0, _ => []
  | _ + 1, [] => []
  | fuel + 1, i :: q => i :: bfsAux g fuel (q ++ g.childList i)

def bfsFrom (g : LayoutGraph) (start : Nat) : List Nat :=
  bfsAux g (g.nodeCount + 1) [start]

end LayoutGraph

/-- `Layout` from layout.rs. -/
structure Layout where
  graph : LayoutGraph
  canvas_dimensions : Dimensions
deriving DecidableEq, Repr

/-- `Layout::logical_bfs_iter` (empty on an empty graph, else breadth-first
from the root). -/
def Layout.logicalBfs (L : Layout) : List Nat :=
  if L.graph.nodeCount == 0 then [] else L.graph.bfsFrom L.graph.rootIdx

/-- Outcome of a Rust computation that can `panic!` (or `unwrap`/`expect`). -/
inductive PanicOr (α : Type) where
  | panicked (msg : String)
  | ret (a : α)
deriving DecidableEq, Repr

/-! Blueprint codec. -/

def dirCode : SliceDirection → String
  | .vertical => "V"
  | .horizontal => "H"

/-- `Layout::subtree_to_blueprint`.  The source `unwrap`s children of internal
nodes and the position lookup; the defaults below are never read on
well-formed layouts. -/
def LayoutGraph.subtreeToBlueprint (g : LayoutGraph) (start : Nat) :
    List (String × List Nat) :=
  let bwni := (g.bfsFrom start).filterMap (fun i =>
    if ((g.label? i).map NodeLabel.isInternal).getD false then
      some (i, match g.children? i with
               | some (l, r) => [l, r]
               | none => [])
    else none)
  bwni.map (fun p =>
    (match g.label? p.1 with
     | some (.internal d) => dirCode d
     | _ => "V",
     p.2.filterMap (fun c =>
       if ((g.label? c).map NodeLabel.isInternal).getD false then
         some ((bwni.findIdx? (fun q => q.1 == c)).getD 0)
       else none)))

/-- `Layout::to_blueprint`. -/
def Layout.to_blueprint (L : Layout) : LayoutBlueprint :=
  { graph_representation := L.graph.subtreeToBlueprint L.graph.rootIdx
    width := L.canvas_dimensions.width
    height := L.canvas_dimensions.height }

/-- Direction-code parsing in `Layout::from_blueprint`. -/
def parseLabel (code : String) : Except String NodeLabel :=
  if code = "V" then .ok (.internal .vertical)
  else if code = "H" then .ok (.internal .horizontal)
  else .error "Unknown label in graph representation"

def parseLabels : List (String × List Nat) → Except String (List NodeLabel)
  | [] => .ok []
  | (c, _) :: rest =>
    match parseLabel c with
    | .error e => .error e
    | .ok l =>
      match parseLabels rest with
      | .error e => .error e
      | .ok ls => .ok (l :: ls)

/-- The leaf-filling `while` loop shared by `Layout::new`,
`Layout::from_blueprint`: while node `i` has fewer than two children, create a
leaf node for the next image and add an edge to it.  Each iteration consumes
one image, exactly as the source loop does, so recursion on the image list is
faithful. -/
def fillNode (g : LayoutGraph) (i : Nat) :
    List Img → Except String (LayoutGraph × List Img)
  | [] =>
    if g.outDeg i < 2 then .error "Ran out of images" else .ok (g, [])
  | im :: rest =>
    if g.outDeg i < 2 then
      fillNode ((g.addNode (.leaf im)).updateEdge i g.nodeCount) i rest
    else .ok (g, im :: rest)

/-- The outer `for` loop over nodes with fewer than two children. -/
def fillAll (g : LayoutGraph) :
    List Nat → List Img → Except String (LayoutGraph × List Img)
  | [], imgs => .ok (g, imgs)
  | i :: rest, imgs =>
    match fillNode g i imgs with
    | .error e => .error e
    | .ok (g', imgs') => fillAll g' rest imgs'

/-- Edge-addition loop of `Layout::from_blueprint`: for each internal node in
list order, `update_edge` to each listed child. -/
def addBlueprintEdges (g : LayoutGraph) (rep : List (String × List Nat)) :
    LayoutGraph :=
  rep.enum.foldl
    (fun g' pc => pc.2.2.foldl (fun g'' c => g''.updateEdge pc.1 c) g') g

/-- `Layout::from_blueprint`.  Unknown direction codes are an `Err`; a child
index outside the internal-node list makes the source index out of bounds
(a panic); running out of images while filling leaf slots is an `Err`.  Images
left over after all slots are filled are silently ignored by the source. -/
def Layout.from_blueprint (bp : LayoutBlueprint) (images : List Img) :
    PanicOr (Except String Layout) :=
  match parseLabels bp.graph_representation with
  | .error e => .ret (.error e)
  | .ok labels =>
    if bp.graph_representation.all (fun pc => pc.2.all (fun c => c < labels.length)) then
      let g2 := addBlueprintEdges ⟨labels, []⟩ bp.graph_representation
      match fillAll g2 g2.openIndices images with
      | .error e => .ret (.error e)
      | .ok (g3, _) => .ret (.ok ⟨g3, ⟨bp.width, bp.height⟩⟩)
    else .panicked "index out of bounds"

/-! Logical equality. -/

/-- The `(left label, right label)` pair read off by `Layout::logical_eq`
(`node_label` `unwrap`s; the default is never read on well-formed layouts). -/
def LayoutGraph.labelPair? (g : LayoutGraph) (i : Nat) :
    Option (NodeLabel × NodeLabel) :=
  (g.children? i).map (fun p =>
    ((g.label? p.1).getD (.internal .vertical),
     (g.label? p.2).getD (.internal .vertical)))

/-- `Layout::logical_eq` as a boolean: equal canvas, node and edge counts,
equal root labels, and equal ordered child-label pairs along the lockstep
breadth-first traversals.  (When the traversals have different lengths the
source hits `unreachable!`; that situation never arises once the count checks
have passed on well-formed layouts.) -/
def Layout.logical_eq (a b : Layout) : Bool :=
  let sa := a.logicalBfs
  let sb := b.logicalBfs
  a.canvas_dimensions == b.canvas_dimensions &&
  a.graph.nodeCount == b.graph.nodeCount &&
  a.graph.edges.length == b.graph.edges.length &&
  (match sa.head?, sb.head? with
   | some i, some j => a.graph.label? i == b.graph.label? j
   | _, _ => true) &&
  sa.length == sb.length &&
  (List.zip sa sb).all (fun p =>
    a.graph.labelPair? p.1 == b.graph.labelPair? p.2)

/-! Geometry: aspect ratios and node rectangles (`f64` modelled as `ℚ`). -/

/-- `as u32` of a non-negative in-range `f64`: truncation toward zero.  (The
cast saturates at the `u32` bounds for values outside them; those extremes are
outside the scope of the modelled claims.) -/
def ratToU32 (q : ℚ) : Nat := ⌊q⌋.toNat

/-- `LayoutNode::aspect_ratio`, recursing through `children?`.  The source
recursion is structural on the (finite) subtree; the fuel below is never
exhausted on well-formed layouts. -/
def LayoutGraph.aspectRat (g : LayoutGraph) : Nat → Nat → ℚ
  | 0, _ => 0
  | fuel + 1, i =>
    match g.label? i with
    | some (.leaf img) => (img.width : ℚ) / (img.height : ℚ)
    | some (.internal .vertical) =>
      match g.children? i with
      | some (l, r) => g.aspectRat fuel l + g.aspectRat fuel r
      | none => 0
    | some (.internal .horizontal) =>
      match g.children? i with
      | some (l, r) => 1 / (1 / g.aspectRat fuel l + 1 / g.aspectRat fuel r)
      | none => 0
    | none => 0

/-- `LayoutNode::dimensions`: top-down from the parent's rectangle, the root
using the canvas. -/
def LayoutGraph.nodeDims (g : LayoutGraph) (canvas : Dimensions) :
    Nat → Nat → Dimensions
  | 0, _ => ⟨0, 0⟩
  | fuel + 1, i =>
    let ar := g.aspectRat g.nodeCount i
    let pd := match g.parent? i with
      | some p => g.nodeDims canvas fuel p
      | none => canvas
    let w := min pd.width (ratToU32 (ar * (pd.height : ℚ)))
    ⟨w, ratToU32 ((w : ℚ) / ar)⟩

def Layout.aspectRatAt (L : Layout) (i : Nat) : ℚ :=
  L.graph.aspectRat L.graph.nodeCount i

def Layout.nodeDimsAt (L : Layout) (i : Nat) : Dimensions :=
  L.graph.nodeDims L.canvas_dimensions (L.graph.nodeCount + 1) i

/-! Cost (`Layout::cost`, `Layout::old_cost`, `FitnessCalc::fitness_of`). -/

/-- The original image of a leaf node (`leaf_node.image().unwrap()`). -/
def Layout.leafImage (L : Layout) (i : Nat) : Img :=
  match L.graph.label? i with
  | some (.leaf img) => img
  | _ => ⟨0, 0, 0⟩

/-- `Layout::scale_factor`. -/
def Layout.scale_factor (L : Layout) : ℚ :=
  (L.graph.leafIndices.map (fun i =>
    |((L.nodeDimsAt i).size : ℚ) - ((L.leafImage i).dims.size : ℚ)| /
      ((L.leafImage i).dims.size : ℚ))).sum

/-- `Layout::coverage_of_canvas_area`. -/
def Layout.coverage_of_canvas_area (L : Layout) : ℚ :=
  1 - (L.graph.leafIndices.map (fun i =>
    ((L.nodeDimsAt i).size : ℚ) / (L.canvas_dimensions.size : ℚ))).sum

/-- `Layout::cost`. -/
def Layout.cost (L : Layout) : ℚ :=
  (L.graph.leafIndices.length : ℚ) * L.scale_factor + L.coverage_of_canvas_area

/-- `Layout::old_cost`. -/
def Layout.old_cost (L : Layout) : ℚ :=
  L.scale_factor + (L.graph.leafIndices.length : ℚ) * L.coverage_of_canvas_area

/-- `FitnessCalc::fitness_of` (algorithm.rs): the fitness driving selection. -/
def FitnessCalc.fitness_of (L : Layout) : ℚ := L.cost

/-! Mutations. -/

/-- `Layout::randomize_width`: `width as i64 + Δ`, cast back with `as u32`
(an `i64 → u32` cast truncates, i.e. wraps modulo `2^32`). -/
def Layout.randomize_width (L : Layout) (delta : Int) : Layout :=
  { L with canvas_dimensions.width :=
      (((L.canvas_dimensions.width : Int) + delta) % (2 ^ 32 : Int)).toNat }

/-- `Layout::randomize_height`. -/
def Layout.randomize_height (L : Layout) (delta : Int) : Layout :=
  { L with canvas_dimensions.height :=
      (((L.canvas_dimensions.height : Int) + delta) % (2 ^ 32 : Int)).toNat }

/-- `Layout::randomize_dimensions_by_equal_factor`: both dimensions are scaled
by the drawn factor and truncated by the `f64 → u32` cast, with no lower
bound. -/
def Layout.randomize_dimensions_by_equal_factor (L : Layout) (factor : ℚ) :
    Layout :=
  { L with canvas_dimensions :=
      ⟨ratToU32 ((L.canvas_dimensions.width : ℚ) * factor),
       ratToU32 ((L.canvas_dimensions.height : ℚ) * factor)⟩ }

/-- `IteratorRandom::choose` on a list of indices: the oracle value selects a
member (the source `unwrap`s on an empty list; the default is never read on
the calls proved about below). -/
def chooseFrom (l : List Nat) (k : Nat) : Nat := (l.get? (k % l.length)).getD 0

/-- Swap the labels of two nodes (`index_twice_mut` followed by the two label
writes). -/
def LayoutGraph.swapLabels (g : LayoutGraph) (i j : Nat) : LayoutGraph :=
  let li := (g.label? i).getD (.internal .vertical)
  let lj := (g.label? j).getD (.internal .vertical)
  { g with nodes := (g.nodes.set i lj).set j li }

/-- The leaf branch of `Layout::swap_with_random_node`: choose another leaf
node with a different index and swap labels. -/
def Layout.swapLeafBranch (L : Layout) (pick : Nat) (i : Nat) : Layout :=
  let other := chooseFrom (L.graph.leafIndices.filter (fun j => j != i)) pick
  { L with graph := L.graph.swapLabels i other }

/-- `Layout::swap_with_random_node`.  On an internal node it looks for an
internal node with a different label; if none exists it falls back to the leaf
swap starting from a randomly chosen leaf (`pickInternal`, `pickFallbackLeaf`
and `pickLeaf` are the successive random choices). -/
def Layout.swap_with_random_node (L : Layout)
    (pickInternal pickFallbackLeaf pickLeaf : Nat) (i : Nat) : Layout :=
  match L.graph.label? i with
  | some (.internal _) =>
    let cands := L.graph.internalIndices.filter
      (fun j => L.graph.label? j != L.graph.label? i)
    if cands.isEmpty then
      let lf := chooseFrom L.graph.leafIndices pickFallbackLeaf
      L.swapLeafBranch pickLeaf lf
    else
      { L with graph := L.graph.swapLabels i (chooseFrom cands pickInternal) }
  | _ => L.swapLeafBranch pickLeaf i

/-- `Layout::swap_random_node_pair`: pick any node uniformly, then
`swap_with_random_node`. -/
def Layout.swap_random_node_pair (L : Layout)
    (pickNode pickInternal pickFallbackLeaf pickLeaf : Nat) : Layout :=
  L.swap_with_random_node pickInternal pickFallbackLeaf pickLeaf
    (chooseFrom L.graph.indices pickNode)

/-! Construction (`Layout::new`). -/

/-- Oracle data for the random choices of `Layout::new`: the sampled canvas
dimensions, the random permutation of the image slice, the random slice
direction of each internal node, and the random choice among the open internal
nodes at each growth step. -/
structure NewOracle where
  canvas : Dimensions
  shuffled : List Img
  dirs : Nat → SliceDirection
  picks : Nat → Nat

/-- The internal-node growth loop of `Layout::new`: starting from a root
internal node, repeatedly attach a fresh internal node below a randomly chosen
node with fewer than two children. -/
def newPhase1 (o : NewOracle) (steps : Nat) : LayoutGraph :=
  (List.range steps).foldl
    (fun g k =>
      let parent := chooseFrom g.openIndices (o.picks k)
      (g.addNode (.internal (o.dirs (k + 1)))).updateEdge parent g.nodeCount)
    ⟨[.internal (o.dirs 0)], []⟩

/-- `Layout::new`: panics on fewer than two images, else grows `N - 1`
internal nodes and fills every empty slot with the shuffled images (the
`expect "Ran out of images"` is a panic). -/
def Layout.new (images : List Img) (o : NewOracle) : PanicOr Layout :=
  if images.length < 2 then
    .panicked "Attempted to create a layout with less than two images"
  else
    let g1 := newPhase1 o (images.length - 2)
    match fillAll g1 g1.openIndices o.shuffled with
    | .error _ => .panicked "Ran out of images"
    | .ok (g2, _) => .ret ⟨g2, o.canvas⟩

/-- The leaf images of a layout, in logical breadth-first order — the
`images_of(L)` of the blueprint round-trip property. -/
def Layout.imagesOf (L : Layout) : List Img :=
  L.logicalBfs.filterMap (fun i =>
    match L.graph.label? i with
    | some (.leaf img) => some img
    | _ => none)

/-! The host dispatch of `generate_layout` (lib.rs). -/

/-- Outcome of the `generate_layout` dispatch in lib.rs.  `sliceBoundsPanic`
stands for the bounds assertion inside `images.split_at_mut(2)`, whose panic
message comes from `core::slice`, not from this crate. -/
inductive EntryOutcome where
  | search
  | twoImageFastPath
  | sliceBoundsPanic
deriving DecidableEq, Repr

/-- The dispatch at the top of `generate_layout` in lib.rs: more than two
images start the evolutionary search; otherwise
`else if let ([image1, image2], _) = images.split_at_mut(2)` evaluates
`split_at_mut(2)` first, which panics with the standard library's bounds
assertion when fewer than two images were received.  For two images the slice
pattern always matches, so the trailing
`panic!("Less than two images received")` of the `else` arm is dead code. -/
def generateLayoutDispatch (images : List Img) : EntryOutcome :=
  if images.length > 2 then .search
  else if images.length < 2 then .sliceBoundsPanic
  else .twoImageFastPath

/-! Crossover (`Layout::crossover_random_subtrees` and helpers). -/

/-- Leaf count of the subtree rooted at `i`, as counted by `Layout::subtrees`
with a breadth-first walk.  (The source uses petgraph's `Bfs`, which tracks
visited nodes; on the tree-shaped graphs of this development it visits exactly
the nodes the logical traversal visits.) -/
def LayoutGraph.subtreeLeafCount (g : LayoutGraph) (i : Nat) : Nat :=
  ((g.bfsFrom i).filter (fun j =>
    ((g.label? j).map NodeLabel.isLeaf).getD false)).length

/-- `Layout::subtrees`: internal nodes whose subtree has at least three
leaves, paired with their leaf count. -/
def Layout.subtrees (L : Layout) : List (Nat × Nat) :=
  L.graph.internalIndices.filterMap (fun i =>
    let c := L.graph.subtreeLeafCount i
    if 3 ≤ c then some (i, c) else none)

/-- `Layout::subtree_pairs`: the cartesian product of the eligible subtrees,
filtered by equal leaf count. -/
def Layout.subtree_pairs (L other : Layout) :
    List ((Nat × Nat) × (Nat × Nat)) :=
  (L.subtrees.flatMap (fun a => other.subtrees.map (fun b => (a, b)))).filter
    (fun p => p.1.2 == p.2.2)

/-- `Graph::filter_map` with all edge weights kept: nodes failing `keep` are
removed, the rest are renumbered compactly in index order, and the surviving
edges keep their relative order. -/
def renumber (keep : Nat → Bool) (i : Nat) : Nat :=
  ((List.range i).filter keep).length

def LayoutGraph.filterMapGraph (g : LayoutGraph) (keep : Nat → Bool) :
    LayoutGraph :=
  { nodes := (g.indices.filter keep).map
      (fun i => (g.label? i).getD (.internal .vertical))
    edges := (g.edges.filter (fun e => keep e.1 && keep e.2)).map
      (fun e => (renumber keep e.1, renumber keep e.2)) }

/-- `Layout::swap_order_of_children`: remove the two child edges and re-add
them in reversed order (the source unwraps the children; callers guarantee
two children are present). -/
def LayoutGraph.swap_order_of_children (g : LayoutGraph) (i : Nat) :
    LayoutGraph :=
  match g.children? i with
  | none => g
  | some (c0, c1) =>
    (((g.removeEdge i c1).removeEdge i c0).updateEdge i c1).updateEdge i c0

/-- The leaf re-attachment loop of `Layout::swap_subtree`: while node `i` has
fewer than two children, add an edge to the next collected leaf index (the
`expect "Ran out of leaf nodes"` is a panic).  Each iteration consumes one
leaf index, as in the source. -/
def fillNodeWith (g : LayoutGraph) (i : Nat) :
    List Nat → Except String (LayoutGraph × List Nat)
  | [] => if g.outDeg i < 2 then .error "Ran out of leaf nodes" else .ok (g, [])
  | lf :: rest =>
    if g.outDeg i < 2 then fillNodeWith (g.updateEdge i lf) i rest
    else .ok (g, lf :: rest)

def fillAllWith (g : LayoutGraph) :
    List Nat → List Nat → Except String (LayoutGraph × List Nat)
  | [], lfs => .ok (g, lfs)
  | i :: rest, lfs =>
    match fillNodeWith g i lfs with
    | .error e => .error e
    | .ok (g', lfs') => fillAllWith g' rest lfs'

/-- `Layout::swap_subtree`: reconstruct the donor subtree's internal skeleton
as fresh nodes, re-attach the receiver's original leaves (in breadth-first
order of the replaced subtree) into the skeleton's empty slots, connect the
skeleton root under the old parent, delete the orphaned internal nodes, and
swap the parent's child order when the replaced subtree was the left child. -/
def Layout.swap_subtree (L other : Layout) (selfIdx otherIdx : Nat) :
    PanicOr Layout :=
  let bp := other.graph.subtreeToBlueprint otherIdx
  let base := L.graph.nodeCount
  let g1 := bp.foldl (fun g p =>
    g.addNode (.internal (if p.1 == "H" then .horizontal else .vertical))) L.graph
  let g2 := bp.enum.foldl (fun g p =>
    p.2.2.foldl (fun g' c => g'.updateEdge (base + p.1) (base + c)) g) g1
  let opens := g2.openIndices
  let bfsOld := g2.bfsFrom selfIdx
  let leafIdcs := bfsOld.filter (fun i =>
    ((g2.label? i).map NodeLabel.isLeaf).getD false)
  let internalIdcs := bfsOld.filter (fun i =>
    ((g2.label? i).map NodeLabel.isInternal).getD false)
  match fillAllWith g2 opens leafIdcs with
  | .error e => .panicked e
  | .ok (g3, _) =>
    let parentIdx := g3.parent? selfIdx
    let side : Option Bool :=
      match parentIdx with
      | none => none
      | some p =>
        match g3.children? p with
        | none => none
        | some (c0, c1) =>
          if c0 == selfIdx then some true
          else if c1 == selfIdx then some false
          else none
    let g4 := match parentIdx with
      | some p => g3.updateEdge p base
      | none => g3
    let g5 := g4.filterMapGraph (fun i => !(internalIdcs.contains i))
    let g6 :=
      if side == some true then
        match parentIdx with
        | some p => g5.swap_order_of_children p
        | none => g5
      else g5
    .ret { L with graph := g6 }

/-- `Layout::crossover_subtrees`: splice the donor subtree into `self`, then
splice the snapshot of the original `self` subtree into `other`. -/
def Layout.crossover_subtrees (L other : Layout) (si oi : Nat) :
    PanicOr (Layout × Layout) :=
  match L.swap_subtree other si oi with
  | .panicked m => .panicked m
  | .ret L' =>
    match other.swap_subtree L oi si with
    | .panicked m => .panicked m
    | .ret other' => .ret (L', other')

/-- `Layout::crossover_random_subtrees`: choose an eligible pair uniformly at
random (a no-op when none exists). -/
def Layout.crossover_random_subtrees (L other : Layout) (pick : Nat) :
    PanicOr (Layout × Layout) :=
  let prs := L.subtree_pairs other
  match prs.get? (pick % prs.length) with
  | none => .ret (L, other)
  | some p => L.crossover_subtrees other p.1.1 p.2.1

/-!
Specification-side view of a well-formed layout: an index-carrying strict
binary tree spanning the graph.  `spansB g t` checks that every tree node's
index carries the right label, the exact out-degree, and `children?` pointers
matching the tree; well-formedness (`WFL`) additionally requires the tree
indices to enumerate all graph nodes without repetition and all edge endpoints
to be in range.
-/

inductive ITree where
  | leaf (idx : Nat) (img : Img)
  | node (idx : Nat) (d : SliceDirection) (l r : ITree)
deriving DecidableEq, Repr

namespace ITree

def idx : ITree → Nat
  | .leaf i _ => i
  | .node i _ _ _ => i

def labelOf : ITree → NodeLabel
  | .leaf _ img => .leaf img
  | .node _ d _ _ => .internal d

def size : ITree → Nat
  | .leaf _ _ => 1
  | .node _ _ l r => 1 + l.size + r.size

def childTrees : ITree → List ITree
  | .leaf _ _ => []
  | .node _ _ l r => [l, r]

def allNodes : ITree → List ITree
  | .leaf i img => [.leaf i img]
  | .node i d l r => .node i d l r :: (l.allNodes ++ r.allNodes)

def indexList (t : ITree) : List Nat := t.allNodes.map ITree.idx

def reindex (f : Nat → Nat) : ITree → ITree
  | .leaf i img => .leaf (f i) img
  | .node i d l r => .node (f i) d (l.reindex f) (r.reindex f)

/-- No internal node has a leaf left child together with an internal right
child.  Layouts built by `Layout::new` have this shape, and it is what makes
the blueprint round-trip restore the child order. -/
def goodOrder : ITree → Bool
  | .leaf _ _ => true
  | .node _ _ l r =>
    !(l.labelOf.isLeaf && r.labelOf.isInternal) && l.goodOrder && r.goodOrder

end ITree

/-- `spansB g t`: the graph realizes exactly the tree `t` at `t`'s indices. -/
def spansB (g : LayoutGraph) : ITree → Bool
  | .leaf i img => g.label? i == some (.leaf img) && g.outDeg i == 0
  | .node i d l r =>
    g.label? i == some (.internal d) && g.outDeg i == 2 &&
    g.children? i == some (l.idx, r.idx) && spansB g l && spansB g r

/-- Well-formed layout: its graph is spanned by the tree `t`, whose indices
enumerate every node exactly once, and every edge endpoint is a valid node
index. -/
def WFL (L : Layout) (t : ITree) : Prop :=
  spansB L.graph t = true ∧
  t.indexList.Perm (List.range L.graph.nodeCount) ∧
  ∀ e ∈ L.graph.edges, e.1 < L.graph.nodeCount ∧ e.2 < L.graph.nodeCount

/-- Total size of a queue of trees. -/
def qsize (q : List ITree) : Nat := (q.map ITree.size).sum

/-- Breadth-first traversal of a queue of trees (the specification-side mirror
of `LogicalBfs`). -/
def treeBfs : List ITree → List ITree
  | [] => []
  | t :: q => t :: treeBfs (q ++ t.childTrees)
termination_by q => qsize q
decreasing_by
  simp only [qsize, List.map_append, List.sum_append, List.map_cons, List.sum_cons]
  cases t <;> simp [ITree.childTrees, ITree.size] <;> omega

/-- Label of a node (`node_weight().unwrap()`; the default is never read on
well-formed layouts). -/
def LayoutGraph.labelAt (g : LayoutGraph) (i : Nat) : NodeLabel :=
  (g.label? i).getD (.internal .vertical)

/-- The labels of `leaf_nodes()`, in index order. -/
def Layout.leafLabels (L : Layout) : List NodeLabel :=
  L.graph.leafIndices.map L.graph.labelAt

/-- The leaf labels in logical breadth-first order. -/
def Layout.bfsLeafLabels (L : Layout) : List NodeLabel :=
  (L.logicalBfs.filter (fun i => (L.graph.labelAt i).isLeaf)).map
    L.graph.labelAt

/-- Number of empty leaf slots: over the nodes with fewer than two children,
the number of missing children. -/
def LayoutGraph.emptySlots (g : LayoutGraph) : Nat :=
  (g.openIndices.map (fun i => 2 - g.outDeg i)).sum

/-- The empty leaf slots of a blueprint's internal-node skeleton (after the
internal nodes and their edges have been created). -/
def blueprintSlots (bp : LayoutBlueprint) : Nat :=
  match parseLabels bp.graph_representation with
  | .error _ => 0
  | .ok labels =>
    (addBlueprintEdges ⟨labels, []⟩ bp.graph_representation).emptySlots

/-- Specification-side decoder: read the tree spanned at `i` off the graph
(used to extract the spanning tree of a freshly constructed layout). -/
def decode (g : LayoutGraph) : Nat → Nat → Option ITree
  | 0, _ => none
  | fuel + 1, i =>
    match g.label? i with
    | some (.leaf img) =>
      if g.outDeg i == 0 then some (.leaf i img) else none
    | some (.internal d) =>
      if g.outDeg i == 2 then
        match g.children? i with
        | some (l, r) =>
          match decode g fuel l, decode g fuel r with
          | some tl, some tr => some (.node i d tl tr)
          | _, _ => none
        | none => none
      else none
    | none => none

/-- The edges appended by the leaf-filling loop: for each node of `os` in
order, edges from it to the consecutive fresh leaf indices, one per missing
child. -/
def fillEdgesSpec (g : LayoutGraph) : List Nat → Nat → List (Nat × Nat)
  | [], _ => []
  | i :: rest, base =>
    (List.range (2 - g.outDeg i)).map (fun k => (i, base + k)) ++
      fillEdgesSpec g rest (base + (2 - g.outDeg i))

/-- The aspect-ratio recursion on the specification-side tree. -/
def arT : ITree → ℚ
  | .leaf _ img => (img.width : ℚ) / (img.height : ℚ)
  | .node _ .vertical l r => arT l + arT r
  | .node _ .horizontal l r => 1 / (1 / arT l + 1 / arT r)

/-- `AtDepth t d s`: the subtree `s` occurs at depth `d` in `t`. -/
inductive AtDepth (t : ITree) : Nat → ITree → Prop where
  | root : AtDepth t 0 t
  | step {d : Nat} {s c : ITree} :
      AtDepth t d s → c ∈ s.childTrees → AtDepth t (d + 1) c

/-- Concrete layouts for the swap-mutation analysis: a layout whose two
leaves hold the same image, a five-node layout whose internal nodes share a
direction but whose leaf images are pairwise distinct, and the latter's
spanning tree. -/
def dupLeafLayout : Layout :=
  { graph := ⟨[.internal .vertical, .leaf ⟨1, 1, 0⟩, .leaf ⟨1, 1, 0⟩],
      [(0, 1), (0, 2)]⟩,
    canvas_dimensions := ⟨2, 1⟩ }

def threeLeafLayout : Layout :=
  { graph := ⟨[.internal .vertical, .internal .vertical, .leaf ⟨1, 2, 0⟩,
      .leaf ⟨3, 4, 0⟩, .leaf ⟨5, 6, 0⟩],
      [(0, 1), (0, 2), (1, 3), (1, 4)]⟩,
    canvas_dimensions := ⟨10, 10⟩ }

def threeLeafTree : ITree :=
  .node 0 .vertical
    (.node 1 .vertical (.leaf 3 ⟨3, 4, 0⟩) (.leaf 4 ⟨5, 6, 0⟩))
    (.leaf 2 ⟨1, 2, 0⟩)

/-- The image carried by a leaf label. -/
def leafImg? : NodeLabel → Option Img
  | .leaf im => some im
  | .internal _ => none

/-- The multiset of leaf images of a layout, listed in node-index order: the
observable genome that crossover must preserve. -/
def Layout.leafImgs (L : Layout) : List Img :=
  L.graph.nodes.filterMap leafImg?

def twoLeafLayout : Layout :=
  { graph := ⟨[.internal .vertical, .leaf ⟨1, 2, 0⟩, .leaf ⟨3, 4, 0⟩],
      [(0, 1), (0, 2)]⟩
    canvas_dimensions := ⟨10, 10⟩ }

def twoLeafTree : ITree :=
  .node 0 .vertical (.leaf 1 ⟨1, 2, 0⟩) (.leaf 2 ⟨3, 4, 0⟩)


/-- Position of the first occurrence of `j` (the `position` lookups of the
blueprint codec, specialised to index lists). -/
def posOf : List Nat → Nat → Nat
  | [], _ => 0
  | x :: l, j => if x = j then 0 else posOf l j + 1

/-- Invariant of the internal-growth phase of `Layout::new`. -/
def Phase1Inv (g : LayoutGraph) : Prop :=
  (∀ l ∈ g.nodes, l.isInternal = true) ∧
  (∀ e ∈ g.edges, e.1 < e.2 ∧ e.2 < g.nodeCount) ∧
  ((g.edges.map Prod.snd).Pairwise (· < ·)) ∧
  (∀ i, g.outDeg i ≤ 2) ∧
  g.edges.length + 1 = g.nodeCount

/-- Shape of graphs produced by `Layout::new`: edges go from lower to higher
indices with strictly increasing targets along the edge list, there is one
edge less than there are nodes, internal labels sit below `k` with out-degree
two, leaf labels sit at `k` and above with out-degree zero. -/
def GoodGraph (g : LayoutGraph) (k : Nat) : Prop :=
  0 < g.nodeCount ∧ k ≤ g.nodeCount ∧
  (∀ e ∈ g.edges, e.1 < e.2 ∧ e.2 < g.nodeCount) ∧
  ((g.edges.map Prod.snd).Pairwise (· < ·)) ∧
  g.edges.length + 1 = g.nodeCount ∧
  (∀ i, i < g.nodeCount →
    if i < k then
      (∃ d, g.label? i = some (.internal d)) ∧ g.outDeg i = 2
    else
      (∃ im, g.label? i = some (.leaf im)) ∧ g.outDeg i = 0)

/-! Specification-side blueprint data: the breadth-first internal and leaf
node lists of a tree, the index relabelling of the reconstruction, and the
graph representation produced by `to_blueprint`. -/

def leafImgOf : ITree → Img
  | .leaf _ im => im
  | .node _ _ _ _ => ⟨0, 0, 0⟩

def intChildren (s : ITree) : List ITree :=
  s.childTrees.filter (fun c => c.labelOf.isInternal)

def leafChildren (s : ITree) : List ITree :=
  s.childTrees.filter (fun c => c.labelOf.isLeaf)

def bfsInternals (t : ITree) : List ITree :=
  (treeBfs [t]).filter (fun s => s.labelOf.isInternal)

def bfsLeaves (t : ITree) : List ITree :=
  (treeBfs [t]).filter (fun s => s.labelOf.isLeaf)

def piMap (t : ITree) (j : Nat) : Nat :=
  if j ∈ (bfsInternals t).map ITree.idx then
    posOf ((bfsInternals t).map ITree.idx) j
  else (bfsInternals t).length + posOf ((bfsLeaves t).map ITree.idx) j

def repSpec (t : ITree) : List (String × List Nat) :=
  (bfsInternals t).map (fun s =>
    (match s.labelOf with
     | .internal d => dirCode d
     | .leaf _ => "V",
     (intChildren s).map (fun c =>
       posOf ((bfsInternals t).map ITree.idx) c.idx)))

/-- The edge list and graph stages of the blueprint reconstruction: the edges
added from the internal-node representation, the graph before leaf filling,
and the final reconstructed graph. -/

def reconE1 (t : ITree) : List (Nat × Nat) :=
  ((repSpec t).enumFrom 0).flatMap (fun pc => pc.2.2.map (fun c => (pc.1, c)))

def reconG1 (t : ITree) : LayoutGraph :=
  ⟨(bfsInternals t).map ITree.labelOf, reconE1 t⟩

def reconGraph (t : ITree) : LayoutGraph :=
  ⟨(bfsInternals t).map ITree.labelOf ++ (bfsLeaves t).map ITree.labelOf,
   reconE1 t ++ fillEdgesSpec (reconG1 t)
     (List.range (bfsInternals t).length) (bfsInternals t).length⟩

/-- The graph reached inside `Layout::swap_subtree` after the donor subtree's
internal skeleton (blueprint `repSpec s2`) has been appended to the receiver's
graph and its internal edges added, both shifted by the old node count. -/
def spliceG2 (L : Layout) (s2 : ITree) : LayoutGraph :=
  ⟨L.graph.nodes ++ (repSpec s2).map (fun p => .internal
      (if p.1 == "H" then .horizontal else .vertical)),
   L.graph.edges ++ (reconE1 s2).map (fun e =>
      (L.graph.nodeCount + e.1, L.graph.nodeCount + e.2))⟩

/-! Infrastructure lemmas about trees, spanning, and traversal. -/

theorem ITree.size_pos (t : ITree) : 0 < t.size := by
  cases t <;> simp [ITree.size]

theorem ITree.qsize_childTrees (t : ITree) : qsize t.childTrees = t.size - 1 := by
  cases t <;> (simp [ITree.childTrees, ITree.size, qsize]; try omega)

theorem qsize_append (q r : List ITree) : qsize (q ++ r) = qsize q + qsize r := by
  simp [qsize]

theorem qsize_cons (t : ITree) (q : List ITree) :
    qsize (t :: q) = t.size + qsize q := by
  simp [qsize]

theorem ITree.mem_allNodes_self (t : ITree) : t ∈ t.allNodes := by
  cases t <;> simp [ITree.allNodes]

theorem ITree.allNodes_eq (t : ITree) :
    t.allNodes = t :: t.childTrees.flatMap ITree.allNodes := by
  cases t <;> simp [ITree.allNodes, ITree.childTrees]

theorem ITree.length_allNodes (t : ITree) : t.allNodes.length = t.size := by
  induction t with
  | leaf i img => simp [ITree.allNodes, ITree.size]
  | node i d l r ihl ihr => simp [ITree.allNodes, ITree.size, ihl, ihr]; omega

theorem ITree.size_le_of_mem_allNodes {s t : ITree} (h : s ∈ t.allNodes) :
    s.size ≤ t.size := by
  induction t with
  | leaf i img => simp [ITree.allNodes] at h; subst h; exact le_refl _
  | node i d l r ihl ihr =>
    simp only [ITree.allNodes, List.mem_cons, List.mem_append] at h
    rcases h with h | h | h
    · subst h; exact le_refl _
    · have := ihl h; simp [ITree.size]; omega
    · have := ihr h; simp [ITree.size]; omega

theorem ITree.child_mem_allNodes {s c t : ITree} (hs : s ∈ t.allNodes)
    (hc : c ∈ s.childTrees) : c ∈ t.allNodes := by
  induction t with
  | leaf i img =>
    simp [ITree.allNodes] at hs; subst hs; simp [ITree.childTrees] at hc
  | node i d l r ihl ihr =>
    simp only [ITree.allNodes, List.mem_cons, List.mem_append] at hs ⊢
    rcases hs with hs | hs | hs
    · subst hs
      simp only [ITree.childTrees, List.mem_cons, List.not_mem_nil] at hc
      rcases hc with hc | hc | hc
      · subst hc; exact Or.inr (Or.inl (ITree.mem_allNodes_self _))
      · subst hc; exact Or.inr (Or.inr (ITree.mem_allNodes_self _))
      · exact absurd hc (by simp)
    · exact Or.inr (Or.inl (ihl hs))
    · exact Or.inr (Or.inr (ihr hs))

theorem ITree.size_lt_of_child {s c : ITree} (hc : c ∈ s.childTrees) :
    c.size < s.size := by
  cases s with
  | leaf i img => simp [ITree.childTrees] at hc
  | node i d l r =>
    simp only [ITree.childTrees, List.mem_cons, List.not_mem_nil] at hc
    have := l.size_pos
    have := r.size_pos
    rcases hc with hc | hc | hc
    · subst hc; simp [ITree.size]; try omega
    · subst hc; simp [ITree.size]; try omega
    · exact hc.elim

theorem ITree.mem_allNodes_of_mem_allNodes {a s t : ITree}
    (hs : s ∈ t.allNodes) (ha : a ∈ s.allNodes) : a ∈ t.allNodes := by
  induction t with
  | leaf i img =>
    simp [ITree.allNodes] at hs; subst hs; exact ha
  | node i d l r ihl ihr =>
    simp only [ITree.allNodes, List.mem_cons, List.mem_append] at hs ⊢
    rcases hs with hs | hs | hs
    · subst hs
      simpa [ITree.allNodes] using ha
    · exact Or.inr (Or.inl (ihl hs))
    · exact Or.inr (Or.inr (ihr hs))

theorem treeBfs_nil : treeBfs [] = [] := by simp [treeBfs]

theorem treeBfs_cons (t : ITree) (q : List ITree) :
    treeBfs (t :: q) = t :: treeBfs (q ++ t.childTrees) := by
  simp [treeBfs]

theorem treeBfs_perm (q : List ITree) :
    (treeBfs q).Perm (q.flatMap ITree.allNodes) := by
  induction q using treeBfs.induct with
  | case1 => simp [treeBfs_nil]
  | case2 t q ih =>
    rw [treeBfs_cons]
    refine (List.Perm.cons t ih).trans ?_
    rw [List.flatMap_append, List.flatMap_cons, ITree.allNodes_eq]
    simp only [List.cons_append]
    exact List.Perm.cons t List.perm_append_comm

theorem length_flatMap_allNodes (q : List ITree) :
    (q.flatMap ITree.allNodes).length = qsize q := by
  induction q with
  | nil => simp [qsize]
  | cons t q ih =>
    simp only [List.flatMap_cons, List.length_append, ih, qsize_cons,
      ITree.length_allNodes]

theorem treeBfs_length (q : List ITree) : (treeBfs q).length = qsize q := by
  rw [(treeBfs_perm q).length_eq, length_flatMap_allNodes]

/-- The general grouping identity for breadth-first traversal: the `P`-nodes
of the traversal are the `P`-nodes of the initial queue followed by the
`P`-children of every traversed node, in traversal order. -/
theorem treeBfs_filter (P : ITree → Bool) (q : List ITree) :
    (treeBfs q).filter P =
      q.filter P ++ (treeBfs q).flatMap (fun s => s.childTrees.filter P) := by
  induction q using treeBfs.induct with
  | case1 => simp [treeBfs_nil]
  | case2 t q ih =>
    rw [treeBfs_cons]
    simp only [List.filter_cons, List.flatMap_cons]
    cases hP : P t <;>
      simp [hP, ih, List.filter_append, List.cons_append, List.append_assoc]

theorem ITree.labelOf_reindex (f : Nat → Nat) (t : ITree) :
    (t.reindex f).labelOf = t.labelOf := by
  cases t <;> simp [ITree.reindex, ITree.labelOf]

theorem ITree.idx_reindex (f : Nat → Nat) (t : ITree) :
    (t.reindex f).idx = f t.idx := by
  cases t <;> simp [ITree.reindex, ITree.idx]

theorem ITree.size_reindex (f : Nat → Nat) (t : ITree) :
    (t.reindex f).size = t.size := by
  induction t with
  | leaf i img => simp [ITree.reindex, ITree.size]
  | node i d l r ihl ihr => simp [ITree.reindex, ITree.size, ihl, ihr]

/-! Spanning lemmas. -/

theorem spans_leaf {g : LayoutGraph} {i : Nat} {img : Img}
    (h : spansB g (.leaf i img) = true) :
    g.label? i = some (.leaf img) ∧ g.outDeg i = 0 := by
  simpa [spansB] using h

theorem spans_node {g : LayoutGraph} {i : Nat} {d : SliceDirection} {l r : ITree}
    (h : spansB g (.node i d l r) = true) :
    g.label? i = some (.internal d) ∧ g.outDeg i = 2 ∧
      g.children? i = some (l.idx, r.idx) ∧
      spansB g l = true ∧ spansB g r = true := by
  simp only [spansB, Bool.and_eq_true, beq_iff_eq] at h
  exact ⟨h.1.1.1.1, h.1.1.1.2, h.1.1.2, h.1.2, h.2⟩

theorem spans_label {g : LayoutGraph} {t : ITree} (h : spansB g t = true) :
    g.label? t.idx = some t.labelOf := by
  cases t with
  | leaf i img => exact (spans_leaf h).1
  | node i d l r => exact (spans_node h).1

theorem spans_of_mem {g : LayoutGraph} {t s : ITree} (h : spansB g t = true)
    (hm : s ∈ t.allNodes) : spansB g s = true := by
  induction t with
  | leaf i img => simp [ITree.allNodes] at hm; subst hm; exact h
  | node i d l r ihl ihr =>
    simp only [ITree.allNodes, List.mem_cons, List.mem_append] at hm
    obtain ⟨-, -, -, hl, hr⟩ := spans_node h
    rcases hm with hm | hm | hm
    · subst hm; exact h
    · exact ihl hl hm
    · exact ihr hr hm

theorem outEdges_nil_of_outDeg_zero {g : LayoutGraph} {i : Nat}
    (h : g.outDeg i = 0) : g.outEdges i = [] :=
  List.length_eq_zero.mp h

theorem children_none_of_outDeg_zero {g : LayoutGraph} {i : Nat}
    (h : g.outDeg i = 0) : g.children? i = none := by
  simp [LayoutGraph.children?, LayoutGraph.neighbors,
    outEdges_nil_of_outDeg_zero h]

theorem childList_of_spans {g : LayoutGraph} {t : ITree}
    (h : spansB g t = true) :
    g.childList t.idx = t.childTrees.map ITree.idx := by
  cases t with
  | leaf i img =>
    obtain ⟨-, h0⟩ := spans_leaf h
    simp [LayoutGraph.childList, ITree.idx, children_none_of_outDeg_zero h0,
      ITree.childTrees]
  | node i d l r =>
    obtain ⟨-, -, hc, -, -⟩ := spans_node h
    simp [LayoutGraph.childList, hc, ITree.childTrees, ITree.idx]

/-- A spanned graph's breadth-first traversal is the tree traversal, provided
the fuel covers the total size. -/
theorem bfsAux_agree (g : LayoutGraph) :
    ∀ (q : List ITree) (fuel : Nat), (∀ t ∈ q, spansB g t = true) →
      qsize q ≤ fuel →
      g.bfsAux fuel (q.map ITree.idx) = (treeBfs q).map ITree.idx := by
  intro q
  induction q using treeBfs.induct with
  | case1 =>
    intro fuel _ _
    cases fuel <;> simp [LayoutGraph.bfsAux, treeBfs_nil]
  | case2 t q ih =>
    intro fuel hs hf
    have hqs : qsize (t :: q) = t.size + qsize q := qsize_cons t q
    have hpos := t.size_pos
    obtain ⟨f, rfl⟩ : ∃ f, fuel = f + 1 := by
      cases fuel with
      | zero => omega
      | succ f => exact ⟨f, rfl⟩
    rw [treeBfs_cons]
    simp only [List.map_cons, LayoutGraph.bfsAux]
    congr 1
    have hct : g.childList t.idx = t.childTrees.map ITree.idx :=
      childList_of_spans (hs t (by simp))
    rw [hct, ← List.map_append]
    refine ih f ?_ ?_
    · intro s hsm
      rcases List.mem_append.mp hsm with hsm | hsm
      · exact hs s (by simp [hsm])
      · have hsp := hs t (by simp)
        cases t with
        | leaf j img => simp [ITree.childTrees] at hsm
        | node j d l r =>
          obtain ⟨-, -, -, hl, hr⟩ := spans_node hsp
          simp only [ITree.childTrees, List.mem_cons, List.not_mem_nil] at hsm
          rcases hsm with hsm | hsm | hsm
          · subst hsm; exact hl
          · subst hsm; exact hr
          · exact absurd hsm (by simp)
    · rw [qsize_append, t.qsize_childTrees]
      omega

/-! Consequences of well-formedness. -/

theorem WFL.nodup {L : Layout} {t : ITree} (hw : WFL L t) :
    t.indexList.Nodup :=
  hw.2.1.nodup_iff.mpr (List.nodup_range _)

theorem mem_indexList_of_mem_allNodes {s t : ITree} (hs : s ∈ t.allNodes) :
    s.idx ∈ t.indexList :=
  List.mem_map_of_mem ITree.idx hs

theorem WFL.mem_indexList_iff {L : Layout} {t : ITree} (hw : WFL L t)
    {j : Nat} : j ∈ t.indexList ↔ j < L.graph.nodeCount := by
  rw [hw.2.1.mem_iff, List.mem_range]

theorem WFL.idx_lt {L : Layout} {t : ITree} (hw : WFL L t) {s : ITree}
    (hs : s ∈ t.allNodes) : s.idx < L.graph.nodeCount :=
  hw.mem_indexList_iff.mp (mem_indexList_of_mem_allNodes hs)

theorem idx_inj_of_nodup {t : ITree} (hnd : t.indexList.Nodup) {s₁ s₂ : ITree}
    (h₁ : s₁ ∈ t.allNodes) (h₂ : s₂ ∈ t.allNodes) (h : s₁.idx = s₂.idx) :
    s₁ = s₂ :=
  List.inj_on_of_nodup_map hnd h₁ h₂ h

theorem WFL.exists_node_of_lt {L : Layout} {t : ITree} (hw : WFL L t)
    {j : Nat} (hj : j < L.graph.nodeCount) :
    ∃ s ∈ t.allNodes, s.idx = j := by
  have := hw.mem_indexList_iff.mpr hj
  simpa [ITree.indexList, List.mem_map, eq_comm] using this

theorem edge_mem_outEdges {g : LayoutGraph} {a b : Nat}
    (h : (a, b) ∈ g.edges) : (a, b) ∈ g.outEdges a :=
  List.mem_filter.mpr ⟨h, by simp⟩

theorem outDeg_pos_of_edge {g : LayoutGraph} {a b : Nat}
    (h : (a, b) ∈ g.edges) : 0 < g.outDeg a :=
  List.length_pos.mpr (List.ne_nil_of_mem (edge_mem_outEdges h))

theorem outEdges_of_spans_node {g : LayoutGraph} {i : Nat}
    {d : SliceDirection} {l r : ITree}
    (h : spansB g (.node i d l r) = true) :
    g.outEdges i = [(i, l.idx), (i, r.idx)] := by
  obtain ⟨-, h2, hc, -, -⟩ := spans_node h
  obtain ⟨e1, e2, he⟩ := List.length_eq_two.mp h2
  have hm1 : e1 ∈ g.outEdges i := by rw [he]; simp
  have hm2 : e2 ∈ g.outEdges i := by rw [he]; simp
  have hf1 : e1.1 = i := by
    have := List.of_mem_filter hm1
    simpa using this
  have hf2 : e2.1 = i := by
    have := List.of_mem_filter hm2
    simpa using this
  have hch : g.children? i = some (e1.2, e2.2) := by
    simp [LayoutGraph.children?, LayoutGraph.neighbors, he]
  rw [hch] at hc
  have h12 : e1.2 = l.idx ∧ e2.2 = r.idx := by
    constructor <;> · injection hc with hc'; simp_all
  rw [he]
  have : e1 = (i, l.idx) := Prod.ext hf1 h12.1
  have : e2 = (i, r.idx) := Prod.ext hf2 h12.2
  simp_all

/-- Every graph edge of a well-formed layout is a tree edge. -/
theorem WFL.edge_cases {L : Layout} {t : ITree} (hw : WFL L t) {a b : Nat}
    (h : (a, b) ∈ L.graph.edges) :
    ∃ i d l r, ITree.node i d l r ∈ t.allNodes ∧ a = i ∧
      (b = (l : ITree).idx ∨ b = (r : ITree).idx) := by
  obtain ⟨s, hs, rfl⟩ := hw.exists_node_of_lt (hw.2.2 _ h).1
  cases s with
  | leaf j img =>
    obtain ⟨-, h0⟩ := spans_leaf (spans_of_mem hw.1 hs)
    exact absurd (outDeg_pos_of_edge h) (by simp [ITree.idx] at h0 ⊢; omega)
  | node j d l r =>
    have hsp := spans_of_mem hw.1 hs
    have hoe := outEdges_of_spans_node hsp
    have hmem := edge_mem_outEdges h
    simp only [ITree.idx] at hmem hoe ⊢
    rw [hoe] at hmem
    simp only [List.mem_cons, List.not_mem_nil, or_false] at hmem
    rcases hmem with hm | hm
    · exact ⟨j, d, l, r, hs, rfl, Or.inl (by injection hm with _ h2)⟩
    · exact ⟨j, d, l, r, hs, rfl, Or.inr (by injection hm with _ h2)⟩

theorem indexList_node (i : Nat) (d : SliceDirection) (l r : ITree) :
    (ITree.node i d l r).indexList = i :: (l.indexList ++ r.indexList) := by
  simp [ITree.indexList, ITree.allNodes, ITree.idx]

/-- In a tree with no repeated indices, a node index determines its parent and
its position among the children. -/
theorem child_parent_unique {t : ITree} (hnd : t.indexList.Nodup) :
    ∀ s₁ ∈ t.allNodes, ∀ s₂ ∈ t.allNodes, ∀ c₁ ∈ s₁.childTrees,
      ∀ c₂ ∈ s₂.childTrees, c₁.idx = c₂.idx → s₁ = s₂ ∧ c₁ = c₂ := by
  induction t with
  | leaf i img =>
    intro s₁ hs₁ s₂ hs₂ c₁ hc₁ c₂ hc₂ hcc
    simp [ITree.allNodes] at hs₁
    subst hs₁
    simp [ITree.childTrees] at hc₁
  | node i d l r ihl ihr =>
    intro s₁ hs₁ s₂ hs₂ c₁ hc₁ c₂ hc₂ hcc
    rw [indexList_node, List.nodup_cons, List.nodup_append] at hnd
    have hndl : l.indexList.Nodup := hnd.2.1
    have hndr : r.indexList.Nodup := hnd.2.2.1
    have hdisj : ∀ x, x ∈ l.indexList → x ∈ r.indexList → False :=
      fun x hx hy => hnd.2.2.2 hx hy
    have hLR : ∀ u ∈ l.allNodes, ∀ v ∈ r.allNodes, u.idx = v.idx → False := by
      intro u hu v hv huv
      exact hdisj u.idx (mem_indexList_of_mem_allNodes hu)
        (huv ▸ mem_indexList_of_mem_allNodes hv)
    have top_side : ∀ u, (u ∈ l.allNodes ∨ u ∈ r.allNodes) →
        ∀ cu ∈ u.childTrees, ∀ cr ∈ (ITree.node i d l r).childTrees,
        cr.idx = cu.idx → False := by
      intro u hu cu hcu cr hcr h
      simp only [ITree.childTrees, List.mem_cons, List.not_mem_nil,
        or_false] at hcr
      rcases hu with hu | hu
      · have hcm : cu ∈ l.allNodes := ITree.child_mem_allNodes hu hcu
        rcases hcr with hcr | hcr
        · rw [hcr] at h
          have heq : cu = l :=
            idx_inj_of_nodup hndl hcm l.mem_allNodes_self h.symm
          have h1 : cu.size < u.size := ITree.size_lt_of_child hcu
          have h2 : u.size ≤ l.size := ITree.size_le_of_mem_allNodes hu
          rw [heq] at h1
          omega
        · rw [hcr] at h
          exact hLR cu hcm r r.mem_allNodes_self h.symm
      · have hcm : cu ∈ r.allNodes := ITree.child_mem_allNodes hu hcu
        rcases hcr with hcr | hcr
        · rw [hcr] at h
          exact hLR l l.mem_allNodes_self cu hcm h
        · rw [hcr] at h
          have heq : cu = r :=
            idx_inj_of_nodup hndr hcm r.mem_allNodes_self h.symm
          have h1 : cu.size < u.size := ITree.size_lt_of_child hcu
          have h2 : u.size ≤ r.size := ITree.size_le_of_mem_allNodes hu
          rw [heq] at h1
          omega
    simp only [ITree.allNodes, List.mem_cons, List.mem_append] at hs₁ hs₂
    rcases hs₁ with rfl | hs₁ | hs₁ <;> rcases hs₂ with rfl | hs₂ | hs₂
    · -- both are the root
      refine ⟨rfl, ?_⟩
      simp only [ITree.childTrees, List.mem_cons, List.not_mem_nil,
        or_false] at hc₁ hc₂
      rcases hc₁ with hc₁ | hc₁ <;> rcases hc₂ with hc₂ | hc₂
      · rw [hc₁, hc₂]
      · rw [hc₁, hc₂] at hcc
        exact (hLR l l.mem_allNodes_self r r.mem_allNodes_self hcc).elim
      · rw [hc₁, hc₂] at hcc
        exact (hLR l l.mem_allNodes_self r r.mem_allNodes_self hcc.symm).elim
      · rw [hc₁, hc₂]
    · exact absurd hcc (fun h => top_side s₂ (Or.inl hs₂) c₂ hc₂ c₁ hc₁ h)
    · exact absurd hcc (fun h => top_side s₂ (Or.inr hs₂) c₂ hc₂ c₁ hc₁ h)
    · exact absurd hcc (fun h => top_side s₁ (Or.inl hs₁) c₁ hc₁ c₂ hc₂ h.symm)
    · exact ihl hndl s₁ hs₁ s₂ hs₂ c₁ hc₁ c₂ hc₂ hcc
    · exact absurd hcc (fun h => hLR c₁
        (ITree.child_mem_allNodes hs₁ hc₁) c₂
        (ITree.child_mem_allNodes hs₂ hc₂) h)
    · exact absurd hcc (fun h => top_side s₁ (Or.inr hs₁) c₁ hc₁ c₂ hc₂ h.symm)
    · exact absurd hcc (fun h => hLR c₂
        (ITree.child_mem_allNodes hs₂ hc₂) c₁
        (ITree.child_mem_allNodes hs₁ hc₁) h.symm)
    · exact ihr hndr s₁ hs₁ s₂ hs₂ c₁ hc₁ c₂ hc₂ hcc

theorem head?_reverse_all_eq {l : List Nat} {i : Nat} (hne : l ≠ [])
    (hall : ∀ x ∈ l, x = i) : l.reverse.head? = some i := by
  cases hrev : l.reverse with
  | nil => exact absurd (by simpa using congrArg List.reverse hrev) hne
  | cons x xs =>
    have hx : x ∈ l := by
      have h1 : x ∈ l.reverse := by rw [hrev]; simp
      simpa using h1
    simp [hall x hx]

theorem WFL.parent_eq {L : Layout} {t : ITree} (hw : WFL L t) {i : Nat}
    {d : SliceDirection} {l r : ITree}
    (hm : ITree.node i d l r ∈ t.allNodes) {c : ITree}
    (hc : c ∈ (ITree.node i d l r).childTrees) :
    L.graph.parent? c.idx = some i := by
  have hsp := spans_of_mem hw.1 hm
  have hoe := outEdges_of_spans_node hsp
  have hedge : (i, c.idx) ∈ L.graph.edges := by
    have hmem : (i, c.idx) ∈ L.graph.outEdges i := by
      rw [hoe]
      simp only [ITree.childTrees, List.mem_cons, List.not_mem_nil,
        or_false] at hc
      rcases hc with hc | hc <;> rw [hc] <;> simp
    exact List.mem_of_mem_filter hmem
  have hall : ∀ x ∈ L.graph.inSources c.idx, x = i := by
    intro x hx
    simp only [LayoutGraph.inSources, List.mem_map, List.mem_filter] at hx
    obtain ⟨⟨a, b⟩, ⟨hab, hb⟩, rfl⟩ := hx
    have hb2 : b = c.idx := by simpa using hb
    subst hb2
    obtain ⟨i2, d2, l2, r2, hm2, rfl, hor⟩ := hw.edge_cases hab
    rcases hor with hbc | hbc
    · have huniq := child_parent_unique hw.nodup _ hm _ hm2 c hc l2
        (by simp [ITree.childTrees]) hbc
      have heq := huniq.1
      injection heq with h1 h2 h3 h4
      exact h1.symm
    · have huniq := child_parent_unique hw.nodup _ hm _ hm2 c hc r2
        (by simp [ITree.childTrees]) hbc
      have heq := huniq.1
      injection heq with h1 h2 h3 h4
      exact h1.symm
  have hne : L.graph.inSources c.idx ≠ [] := by
    intro hnil
    have hmem : i ∈ L.graph.inSources c.idx :=
      List.mem_map_of_mem _ (List.mem_filter.mpr ⟨hedge, by simp⟩)
    simp [hnil] at hmem
  exact head?_reverse_all_eq hne hall

theorem not_edge_to_root {L : Layout} {t : ITree} (hw : WFL L t) {a : Nat} :
    (a, t.idx) ∉ L.graph.edges := by
  intro h
  obtain ⟨i2, d2, l2, r2, hm2, rfl, hor⟩ := hw.edge_cases h
  rcases hor with hb | hb
  · have hmem : l2 ∈ t.allNodes :=
      ITree.child_mem_allNodes hm2 (by simp [ITree.childTrees])
    have heq : l2 = t :=
      idx_inj_of_nodup hw.nodup hmem t.mem_allNodes_self hb.symm
    have h1 : l2.size < (ITree.node a d2 l2 r2).size :=
      ITree.size_lt_of_child (by simp [ITree.childTrees])
    have h2 : (ITree.node a d2 l2 r2).size ≤ t.size :=
      ITree.size_le_of_mem_allNodes hm2
    have hsize : l2.size = t.size := by rw [heq]
    omega
  · have hmem : r2 ∈ t.allNodes :=
      ITree.child_mem_allNodes hm2 (by simp [ITree.childTrees])
    have heq : r2 = t :=
      idx_inj_of_nodup hw.nodup hmem t.mem_allNodes_self hb.symm
    have h1 : r2.size < (ITree.node a d2 l2 r2).size :=
      ITree.size_lt_of_child (by simp [ITree.childTrees])
    have h2 : (ITree.node a d2 l2 r2).size ≤ t.size :=
      ITree.size_le_of_mem_allNodes hm2
    have hsize : r2.size = t.size := by rw [heq]
    omega

theorem WFL.inSources_root {L : Layout} {t : ITree} (hw : WFL L t) :
    L.graph.inSources t.idx = [] := by
  rw [LayoutGraph.inSources]
  have h : L.graph.edges.filter (fun e => e.2 == t.idx) = [] := by
    rw [List.filter_eq_nil]
    intro e he hbe
    have he2 : e.2 = t.idx := by simpa using hbe
    have : (e.1, t.idx) ∈ L.graph.edges := by
      rw [← he2]
      exact he
    exact not_edge_to_root hw this
  rw [h]
  rfl

theorem mem_child_of_ne_root {s t : ITree} (hs : s ∈ t.allNodes)
    (hne : s ≠ t) : ∃ p ∈ t.allNodes, s ∈ p.childTrees := by
  induction t with
  | leaf i img =>
    simp [ITree.allNodes] at hs
    exact absurd hs hne
  | node i d l r ihl ihr =>
    simp only [ITree.allNodes, List.mem_cons, List.mem_append] at hs
    rcases hs with rfl | hs | hs
    · exact absurd rfl hne
    · by_cases hsl : s = l
      · exact ⟨ITree.node i d l r, ITree.mem_allNodes_self _,
          by rw [hsl]; simp [ITree.childTrees]⟩
      · obtain ⟨p, hp, hpc⟩ := ihl hs hsl
        refine ⟨p, ?_, hpc⟩
        simp only [ITree.allNodes, List.mem_cons, List.mem_append]
        exact Or.inr (Or.inl hp)
    · by_cases hsr : s = r
      · exact ⟨ITree.node i d l r, ITree.mem_allNodes_self _,
          by rw [hsr]; simp [ITree.childTrees]⟩
      · obtain ⟨p, hp, hpc⟩ := ihr hs hsr
        refine ⟨p, ?_, hpc⟩
        simp only [ITree.allNodes, List.mem_cons, List.mem_append]
        exact Or.inr (Or.inr hp)

theorem WFL.inSources_ne_nil {L : Layout} {t : ITree} (hw : WFL L t)
    {j : Nat} (hj : j < L.graph.nodeCount) (hne : j ≠ t.idx) :
    L.graph.inSources j ≠ [] := by
  obtain ⟨s, hs, rfl⟩ := hw.exists_node_of_lt hj
  have hst : s ≠ t := fun h => hne (by rw [h])
  obtain ⟨p, hp, hpc⟩ := mem_child_of_ne_root hs hst
  cases p with
  | leaf a b => simp [ITree.childTrees] at hpc
  | node a d2 l2 r2 =>
    have hoe := outEdges_of_spans_node (spans_of_mem hw.1 hp)
    have hedge : (a, s.idx) ∈ L.graph.edges := by
      have hmem : (a, s.idx) ∈ L.graph.outEdges a := by
        rw [hoe]
        simp only [ITree.childTrees, List.mem_cons, List.not_mem_nil,
          or_false] at hpc
        rcases hpc with h | h <;> rw [h] <;> simp
      exact List.mem_of_mem_filter hmem
    intro hnil
    have hmem : a ∈ L.graph.inSources s.idx :=
      List.mem_map_of_mem _ (List.mem_filter.mpr ⟨hedge, by simp⟩)
    simp [hnil] at hmem

theorem range_filter_beq {n i : Nat} (hi : i < n) :
    (List.range n).filter (fun j => j == i) = [i] := by
  induction n with
  | zero => omega
  | succ n ih =>
    rw [List.range_succ, List.filter_append]
    by_cases h : i < n
    · rw [ih h]
      have hne : (n == i) = false := by
        simp only [beq_eq_false_iff_ne, ne_eq]
        omega
      simp [hne]
    · have hin : i = n := by omega
      subst hin
      have hempty : (List.range i).filter (fun j => j == i) = [] := by
        rw [List.filter_eq_nil]
        intro a ha hbe
        rw [List.mem_range] at ha
        have : a = i := by simpa using hbe
        omega
      simp [hempty]

theorem WFL.size_eq {L : Layout} {t : ITree} (hw : WFL L t) :
    t.size = L.graph.nodeCount := by
  have h := hw.2.1.length_eq
  simpa [ITree.indexList, ITree.length_allNodes] using h

theorem WFL.rootIdx_eq {L : Layout} {t : ITree} (hw : WFL L t) :
    L.graph.rootIdx = t.idx := by
  have hlt : t.idx < L.graph.nodeCount := hw.idx_lt t.mem_allNodes_self
  rw [LayoutGraph.rootIdx]
  have hcongr :
      L.graph.indices.filter (fun i => (L.graph.inSources i).isEmpty) =
        L.graph.indices.filter (fun j => j == t.idx) := by
    apply List.filter_congr
    intro j hj
    rw [LayoutGraph.indices, List.mem_range] at hj
    by_cases h : j = t.idx
    · subst h
      rw [hw.inSources_root]
      simp
    · have hne := hw.inSources_ne_nil hj h
      have h1 : (L.graph.inSources j).isEmpty = false := by
        cases hcase : L.graph.inSources j with
        | nil => exact absurd hcase hne
        | cons x xs => rfl
      have h2 : (j == t.idx) = false := by
        simp only [beq_eq_false_iff_ne, ne_eq]
        exact h
      rw [h1, h2]
  rw [hcongr, LayoutGraph.indices, range_filter_beq hlt]
  rfl

theorem WFL.bfs_eq {L : Layout} {t : ITree} (hw : WFL L t) :
    L.graph.bfsFrom t.idx = (treeBfs [t]).map ITree.idx := by
  have hmap : ([t].map ITree.idx) = [t.idx] := rfl
  rw [LayoutGraph.bfsFrom, ← hmap]
  apply bfsAux_agree
  · intro s hs
    simp at hs
    subst hs
    exact hw.1
  · have h1 : qsize [t] = t.size := by simp [qsize]
    have h2 := hw.size_eq
    omega

theorem WFL.logicalBfs_eq {L : Layout} {t : ITree} (hw : WFL L t) :
    L.logicalBfs = (treeBfs [t]).map ITree.idx := by
  rw [Layout.logicalBfs]
  have hn : (L.graph.nodeCount == 0) = false := by
    have h1 := hw.size_eq
    have h2 := t.size_pos
    simp only [beq_eq_false_iff_ne, ne_eq]
    omega
  rw [hn, if_neg (by simp), hw.rootIdx_eq, hw.bfs_eq]

theorem WFL.labelAt_eq {L : Layout} {t : ITree} (hw : WFL L t) {s : ITree}
    (hs : s ∈ t.allNodes) : L.graph.labelAt s.idx = s.labelOf := by
  rw [LayoutGraph.labelAt, spans_label (spans_of_mem hw.1 hs)]
  rfl

theorem WFL.outDeg_leaf_iff {L : Layout} {t : ITree} (hw : WFL L t)
    {s : ITree} (hs : s ∈ t.allNodes) :
    L.graph.outDeg s.idx = 0 ↔ s.labelOf.isLeaf = true := by
  cases s with
  | leaf i img =>
    simp [(spans_leaf (spans_of_mem hw.1 hs)).2, ITree.labelOf,
      NodeLabel.isLeaf, ITree.idx]
  | node i d l r =>
    obtain ⟨-, h2, -, -, -⟩ := spans_node (spans_of_mem hw.1 hs)
    simp [h2, ITree.labelOf, NodeLabel.isLeaf, ITree.idx]

theorem WFL.leafIndices_perm {L : Layout} {t : ITree} (hw : WFL L t) :
    L.graph.leafIndices.Perm
      ((t.allNodes.filter (fun s => s.labelOf.isLeaf)).map ITree.idx) := by
  have hnd1 : L.graph.leafIndices.Nodup :=
    (List.nodup_range _).filter _
  have hnd2 : ((t.allNodes.filter (fun s => s.labelOf.isLeaf)).map
      ITree.idx).Nodup :=
    hw.nodup.sublist ((t.allNodes.filter_sublist).map ITree.idx)
  rw [List.perm_ext_iff_of_nodup hnd1 hnd2]
  intro j
  simp only [LayoutGraph.leafIndices, LayoutGraph.indices, List.mem_filter,
    List.mem_range, List.mem_map, beq_iff_eq]
  constructor
  · rintro ⟨hj, hdeg⟩
    obtain ⟨s, hs, rfl⟩ := hw.exists_node_of_lt hj
    exact ⟨s, ⟨hs, (hw.outDeg_leaf_iff hs).mp hdeg⟩, rfl⟩
  · rintro ⟨s, ⟨hs, hleaf⟩, rfl⟩
    exact ⟨hw.idx_lt hs, (hw.outDeg_leaf_iff hs).mpr hleaf⟩

theorem WFL.leafLabels_perm {L : Layout} {t : ITree} (hw : WFL L t) :
    L.leafLabels.Perm
      ((t.allNodes.filter (fun s => s.labelOf.isLeaf)).map ITree.labelOf) := by
  have h := hw.leafIndices_perm.map L.graph.labelAt
  refine h.trans (List.Perm.of_eq ?_)
  rw [List.map_map]
  apply List.map_congr_left
  intro s hs
  exact hw.labelAt_eq (List.mem_filter.mp hs).1

/-! Aspect ratios and dimensions on well-formed layouts. -/

theorem ITree.idx_leaf (i : Nat) (img : Img) : (ITree.leaf i img).idx = i := rfl

theorem ITree.idx_node (i : Nat) (d : SliceDirection) (l r : ITree) :
    (ITree.node i d l r).idx = i := rfl

theorem aspectRat_spec {g : LayoutGraph} :
    ∀ (t : ITree), spansB g t = true → ∀ fuel, t.size ≤ fuel →
      g.aspectRat fuel t.idx = arT t := by
  intro t
  induction t with
  | leaf i img =>
    intro h fuel hf
    obtain ⟨h1, -⟩ := spans_leaf h
    have hpos := (ITree.leaf i img).size_pos
    obtain ⟨f, rfl⟩ : ∃ f, fuel = f + 1 := by
      cases fuel with
      | zero => omega
      | succ f => exact ⟨f, rfl⟩
    simp only [ITree.idx_leaf, LayoutGraph.aspectRat, h1, arT]
  | node i d l r ihl ihr =>
    intro h fuel hf
    obtain ⟨h1, -, hc, hl, hr⟩ := spans_node h
    have hpos := (ITree.node i d l r).size_pos
    obtain ⟨f, rfl⟩ : ∃ f, fuel = f + 1 := by
      cases fuel with
      | zero => omega
      | succ f => exact ⟨f, rfl⟩
    have hsz : 1 + l.size + r.size ≤ f + 1 := by
      simpa [ITree.size] using hf
    have hfl : l.size ≤ f := by omega
    have hfr : r.size ≤ f := by omega
    cases d with
    | vertical =>
      simp only [ITree.idx_node, LayoutGraph.aspectRat, h1, hc, arT,
        ihl hl f hfl, ihr hr f hfr]
    | horizontal =>
      simp only [ITree.idx_node, LayoutGraph.aspectRat, h1, hc, arT,
        ihl hl f hfl, ihr hr f hfr]

theorem AtDepth.mem {t s : ITree} {d : Nat} (h : AtDepth t d s) :
    s ∈ t.allNodes := by
  induction h with
  | root => exact t.mem_allNodes_self
  | step h2 hc ih => exact ITree.child_mem_allNodes ih hc

theorem AtDepth.size_le {t s : ITree} {d : Nat} (h : AtDepth t d s) :
    d + s.size ≤ t.size := by
  induction h with
  | root => simp
  | step h2 hc ih =>
    have := ITree.size_lt_of_child hc
    omega

theorem AtDepth.lift {p c s : ITree} {d : Nat} (h : AtDepth c d s)
    (hc : c ∈ p.childTrees) : AtDepth p (d + 1) s := by
  induction h with
  | root => exact AtDepth.step AtDepth.root hc
  | step h2 hc2 ih => exact AtDepth.step ih hc2

theorem exists_atDepth {t s : ITree} (hs : s ∈ t.allNodes) :
    ∃ d, AtDepth t d s := by
  induction t with
  | leaf i img =>
    simp [ITree.allNodes] at hs
    subst hs
    exact ⟨0, AtDepth.root⟩
  | node i d l r ihl ihr =>
    simp only [ITree.allNodes, List.mem_cons, List.mem_append] at hs
    rcases hs with rfl | hs | hs
    · exact ⟨0, AtDepth.root⟩
    · obtain ⟨dep, hd⟩ := ihl hs
      exact ⟨dep + 1, hd.lift (by simp [ITree.childTrees])⟩
    · obtain ⟨dep, hd⟩ := ihr hs
      exact ⟨dep + 1, hd.lift (by simp [ITree.childTrees])⟩

theorem WFL.parent_root {L : Layout} {t : ITree} (hw : WFL L t) :
    L.graph.parent? t.idx = none := by
  rw [LayoutGraph.parent?, hw.inSources_root]
  rfl

theorem nodeDims_stable {L : Layout} {t : ITree} (hw : WFL L t) {s : ITree}
    {dep : Nat} (hd : AtDepth t dep s) :
    ∀ f1 f2, dep + 1 ≤ f1 → dep + 1 ≤ f2 →
      L.graph.nodeDims L.canvas_dimensions f1 s.idx =
        L.graph.nodeDims L.canvas_dimensions f2 s.idx := by
  induction hd with
  | root =>
    intro f1 f2 h1 h2
    obtain ⟨g1, rfl⟩ : ∃ g1, f1 = g1 + 1 := ⟨f1 - 1, by omega⟩
    obtain ⟨g2, rfl⟩ : ∃ g2, f2 = g2 + 1 := ⟨f2 - 1, by omega⟩
    simp only [LayoutGraph.nodeDims, hw.parent_root]
  | @step dep2 s2 c2 hd2 hc ih =>
    intro f1 f2 h1 h2
    obtain ⟨g1, rfl⟩ : ∃ g1, f1 = g1 + 1 := ⟨f1 - 1, by omega⟩
    obtain ⟨g2, rfl⟩ : ∃ g2, f2 = g2 + 1 := ⟨f2 - 1, by omega⟩
    cases s2 with
    | leaf a b => simp [ITree.childTrees] at hc
    | node a d2 l2 r2 =>
      have hp : L.graph.parent? c2.idx = some a := hw.parent_eq hd2.mem hc
      have ihspec := ih g1 g2 (by omega) (by omega)
      simp only [ITree.idx] at ihspec
      simp only [LayoutGraph.nodeDims, hp, ihspec]

theorem nodeDims_succ_none {g : LayoutGraph} {canvas : Dimensions}
    {fuel i : Nat} (h : g.parent? i = none) :
    g.nodeDims canvas (fuel + 1) i =
      ⟨min canvas.width
         (ratToU32 (g.aspectRat g.nodeCount i * (canvas.height : ℚ))),
       ratToU32
         (((min canvas.width
            (ratToU32 (g.aspectRat g.nodeCount i * (canvas.height : ℚ))) : Nat) : ℚ) /
          g.aspectRat g.nodeCount i)⟩ := by
  simp only [LayoutGraph.nodeDims, h]

theorem nodeDims_succ_some {g : LayoutGraph} {canvas : Dimensions}
    {fuel i p : Nat} (h : g.parent? i = some p) :
    g.nodeDims canvas (fuel + 1) i =
      ⟨min (g.nodeDims canvas fuel p).width
         (ratToU32 (g.aspectRat g.nodeCount i *
           ((g.nodeDims canvas fuel p).height : ℚ))),
       ratToU32
         (((min (g.nodeDims canvas fuel p).width
            (ratToU32 (g.aspectRat g.nodeCount i *
              ((g.nodeDims canvas fuel p).height : ℚ))) : Nat) : ℚ) /
          g.aspectRat g.nodeCount i)⟩ := by
  simp only [LayoutGraph.nodeDims, h]

/-! Characterization of the leaf-filling loops. -/

theorem nodes_updateEdge (g : LayoutGraph) (a b : Nat) :
    (g.updateEdge a b).nodes = g.nodes := by
  rw [LayoutGraph.updateEdge]
  split <;> rfl

theorem edges_updateEdge_notMem {g : LayoutGraph} {a b : Nat}
    (h : (a, b) ∉ g.edges) :
    (g.updateEdge a b).edges = g.edges ++ [(a, b)] := by
  rw [LayoutGraph.updateEdge, if_neg h]

theorem filter_block_ne {i j nc s : Nat} (hne : j ≠ i) :
    ((List.range s).map (fun k => (i, nc + k))).filter
      (fun e => e.1 == j) = [] := by
  rw [List.filter_eq_nil]
  intro a ha
  simp only [List.mem_map, List.mem_range] at ha
  obtain ⟨k, -, rfl⟩ := ha
  simp
  omega

theorem fillNode_spec :
    ∀ (imgs : List Img) (g : LayoutGraph) (i : Nat),
      (∀ e ∈ g.edges, e.2 < g.nodeCount) →
      ((2 - g.outDeg i ≤ imgs.length →
        fillNode g i imgs = .ok
          (⟨g.nodes ++ (imgs.take (2 - g.outDeg i)).map NodeLabel.leaf,
            g.edges ++ (List.range (2 - g.outDeg i)).map
              (fun k => (i, g.nodeCount + k))⟩,
           imgs.drop (2 - g.outDeg i))) ∧
      (imgs.length < 2 - g.outDeg i → ∃ e, fillNode g i imgs = .error e)) := by
  intro imgs
  induction imgs with
  | nil =>
    intro g i hb
    constructor
    · intro hle
      have hz : 2 - g.outDeg i = 0 := by simpa using hle
      have hnl : ¬ (g.outDeg i < 2) := by omega
      rw [fillNode, if_neg hnl]
      simp [hz]
    · intro hlt
      have hl2 : g.outDeg i < 2 := by omega
      rw [fillNode, if_pos hl2]
      exact ⟨_, rfl⟩
  | cons im rest ih =>
    intro g i hb
    by_cases hd : g.outDeg i < 2
    · have hnotmem : (i, g.nodeCount) ∉ g.edges := by
        intro hmem
        have h2 := hb _ hmem
        simp at h2
      have hnotmem1 : (i, g.nodeCount) ∉ (g.addNode (.leaf im)).edges :=
        hnotmem
      have hg1nodes :
          ((g.addNode (.leaf im)).updateEdge i g.nodeCount).nodes =
            g.nodes ++ [.leaf im] := by
        rw [nodes_updateEdge]
        rfl
      have hg1edges :
          ((g.addNode (.leaf im)).updateEdge i g.nodeCount).edges =
            g.edges ++ [(i, g.nodeCount)] :=
        edges_updateEdge_notMem hnotmem1
      have hg1count :
          ((g.addNode (.leaf im)).updateEdge i g.nodeCount).nodeCount =
            g.nodeCount + 1 := by
        rw [LayoutGraph.nodeCount, hg1nodes]
        simp [LayoutGraph.nodeCount]
      have hout1 :
          ((g.addNode (.leaf im)).updateEdge i g.nodeCount).outDeg i =
            g.outDeg i + 1 := by
        simp [LayoutGraph.outDeg, LayoutGraph.outEdges, hg1edges,
          List.filter_append]
      have hb1 : ∀ e ∈ ((g.addNode (.leaf im)).updateEdge i g.nodeCount).edges,
          e.2 < ((g.addNode (.leaf im)).updateEdge i g.nodeCount).nodeCount := by
        rw [hg1edges, hg1count]
        intro e he
        rcases List.mem_append.mp he with he | he
        · have := hb _ he
          omega
        · simp at he
          subst he
          simp
      obtain ⟨sm, hs⟩ : ∃ sm, 2 - g.outDeg i = sm + 1 :=
        ⟨2 - g.outDeg i - 1, by omega⟩
      have hs1 : 2 - ((g.addNode (.leaf im)).updateEdge i g.nodeCount).outDeg i
          = sm := by omega
      obtain ⟨ihok, iherr⟩ :=
        ih ((g.addNode (.leaf im)).updateEdge i g.nodeCount) i hb1
      rw [fillNode, if_pos hd]
      constructor
      · intro hle
        have hle1 :
            2 - ((g.addNode (.leaf im)).updateEdge i g.nodeCount).outDeg i ≤
              rest.length := by
          simp only [List.length_cons] at hle
          omega
        rw [ihok hle1, hs1, hs]
        have hnodes : (g.nodes ++ [NodeLabel.leaf im]) ++
            (rest.take sm).map NodeLabel.leaf =
            g.nodes ++ (((im :: rest).take (sm + 1)).map NodeLabel.leaf) := by
          rw [List.take_succ_cons]
          simp
        have hedges : (g.edges ++ [(i, g.nodeCount)]) ++
            (List.range sm).map (fun k => (i, (g.nodeCount + 1) + k)) =
            g.edges ++ (List.range (sm + 1)).map
              (fun k => (i, g.nodeCount + k)) := by
          rw [List.range_succ_eq_map]
          simp only [List.map_cons, List.map_map, List.append_assoc,
            List.cons_append, List.nil_append, Nat.add_zero]
          congr 2
          apply List.map_congr_left
          intro a _
          simp [Function.comp]
          omega
        rw [hg1nodes, hg1edges, hg1count, hnodes, hedges]
        rfl
      · intro hlt
        have hlt1 : rest.length <
            2 - ((g.addNode (.leaf im)).updateEdge i g.nodeCount).outDeg i := by
          simp only [List.length_cons] at hlt
          omega
        exact iherr hlt1
    · have hz : 2 - g.outDeg i = 0 := by omega
      rw [fillNode, if_neg hd]
      constructor
      · intro _
        simp [hz]
      · intro hlt
        omega

theorem fillEdgesSpec_congr {g1 g2 : LayoutGraph} :
    ∀ (os : List Nat) (b : Nat), (∀ i ∈ os, g1.outDeg i = g2.outDeg i) →
      fillEdgesSpec g1 os b = fillEdgesSpec g2 os b := by
  intro os
  induction os with
  | nil => intro b h; rfl
  | cons i rest ih =>
    intro b h
    rw [fillEdgesSpec, fillEdgesSpec, h i (by simp),
      ih _ (fun j hj => h j (by simp [hj]))]

theorem fillAll_spec :
    ∀ (os : List Nat) (g : LayoutGraph) (imgs : List Img),
      (∀ e ∈ g.edges, e.2 < g.nodeCount) → os.Nodup →
      (((os.map (fun i => 2 - g.outDeg i)).sum ≤ imgs.length →
        fillAll g os imgs = .ok
          (⟨g.nodes ++
              (imgs.take ((os.map (fun i => 2 - g.outDeg i)).sum)).map
                NodeLabel.leaf,
            g.edges ++ fillEdgesSpec g os g.nodeCount⟩,
           imgs.drop ((os.map (fun i => 2 - g.outDeg i)).sum))) ∧
      (imgs.length < (os.map (fun i => 2 - g.outDeg i)).sum →
        ∃ e, fillAll g os imgs = .error e)) := by
  intro os
  induction os with
  | nil =>
    intro g imgs hb hnd
    constructor
    · intro hle
      simp [fillAll, fillEdgesSpec]
    · intro hlt
      simp at hlt
  | cons i rest ih =>
    intro g imgs hb hnd
    obtain ⟨hfnok, hfnerr⟩ := fillNode_spec imgs g i hb
    have hirest : i ∉ rest := (List.nodup_cons.mp hnd).1
    have hndrest : rest.Nodup := (List.nodup_cons.mp hnd).2
    by_cases hle1 : 2 - g.outDeg i ≤ imgs.length
    · -- the first node fills successfully
      have hfoeq := hfnok hle1
      have hg1nodes :
          (⟨g.nodes ++ (imgs.take (2 - g.outDeg i)).map NodeLabel.leaf,
            g.edges ++ (List.range (2 - g.outDeg i)).map
              (fun k => (i, g.nodeCount + k))⟩ : LayoutGraph).nodeCount =
            g.nodeCount + (2 - g.outDeg i) := by
        simp [LayoutGraph.nodeCount, List.length_take]
        omega
      have hb1 : ∀ e ∈ (⟨g.nodes ++ (imgs.take (2 - g.outDeg i)).map
            NodeLabel.leaf,
            g.edges ++ (List.range (2 - g.outDeg i)).map
              (fun k => (i, g.nodeCount + k))⟩ : LayoutGraph).edges,
          e.2 < (⟨g.nodes ++ (imgs.take (2 - g.outDeg i)).map NodeLabel.leaf,
            g.edges ++ (List.range (2 - g.outDeg i)).map
              (fun k => (i, g.nodeCount + k))⟩ : LayoutGraph).nodeCount := by
        rw [hg1nodes]
        intro e he
        rcases List.mem_append.mp he with he | he
        · have := hb _ he
          omega
        · simp only [List.mem_map, List.mem_range] at he
          obtain ⟨k, hk, rfl⟩ := he
          simp
          omega
      have houeq : ∀ j ∈ rest,
          (⟨g.nodes ++ (imgs.take (2 - g.outDeg i)).map NodeLabel.leaf,
            g.edges ++ (List.range (2 - g.outDeg i)).map
              (fun k => (i, g.nodeCount + k))⟩ : LayoutGraph).outDeg j =
            g.outDeg j := by
        intro j hj
        have hji : j ≠ i := fun h => hirest (h ▸ hj)
        simp only [LayoutGraph.outDeg, LayoutGraph.outEdges,
          List.filter_append, List.length_append]
        rw [filter_block_ne hji]
        simp
      obtain ⟨ihok, iherr⟩ := ih
        ⟨g.nodes ++ (imgs.take (2 - g.outDeg i)).map NodeLabel.leaf,
         g.edges ++ (List.range (2 - g.outDeg i)).map
           (fun k => (i, g.nodeCount + k))⟩
        (imgs.drop (2 - g.outDeg i)) hb1 hndrest
      have hsum1 : ((rest.map (fun j =>
          2 - (⟨g.nodes ++ (imgs.take (2 - g.outDeg i)).map NodeLabel.leaf,
            g.edges ++ (List.range (2 - g.outDeg i)).map
              (fun k => (i, g.nodeCount + k))⟩ : LayoutGraph).outDeg j)).sum) =
          (rest.map (fun j => 2 - g.outDeg j)).sum := by
        congr 1
        apply List.map_congr_left
        intro j hj
        rw [houeq j hj]
      constructor
      · intro hle
        simp only [List.map_cons, List.sum_cons] at hle
        have hlerest : (rest.map (fun j => 2 - g.outDeg j)).sum ≤
            (imgs.drop (2 - g.outDeg i)).length := by
          rw [List.length_drop]
          omega
        simp only [fillAll, hfoeq]
        rw [ihok (by rw [hsum1]; exact hlerest)]
        rw [hsum1, hg1nodes]
        have hnodes : (g.nodes ++ (imgs.take (2 - g.outDeg i)).map
            NodeLabel.leaf) ++
            (((imgs.drop (2 - g.outDeg i)).take
              ((rest.map (fun j => 2 - g.outDeg j)).sum)).map NodeLabel.leaf) =
            g.nodes ++ ((imgs.take ((2 - g.outDeg i) +
              (rest.map (fun j => 2 - g.outDeg j)).sum)).map NodeLabel.leaf) := by
          rw [List.take_add]
          simp
        have hedges : (g.edges ++ (List.range (2 - g.outDeg i)).map
            (fun k => (i, g.nodeCount + k))) ++
            fillEdgesSpec
              ⟨g.nodes ++ (imgs.take (2 - g.outDeg i)).map NodeLabel.leaf,
               g.edges ++ (List.range (2 - g.outDeg i)).map
                 (fun k => (i, g.nodeCount + k))⟩
              rest (g.nodeCount + (2 - g.outDeg i)) =
            g.edges ++ fillEdgesSpec g (i :: rest) g.nodeCount := by
          rw [fillEdgesSpec_congr rest _ houeq]
          rw [fillEdgesSpec]
          simp [List.append_assoc]
        rw [hnodes, hedges]
        have hdrop : (imgs.drop (2 - g.outDeg i)).drop
            ((rest.map (fun j => 2 - g.outDeg j)).sum) =
            imgs.drop (((i :: rest).map (fun j => 2 - g.outDeg j)).sum) := by
          rw [List.drop_drop]
          simp only [List.map_cons, List.sum_cons]
        rw [hdrop]
        simp
      · intro hlt
        simp only [List.map_cons, List.sum_cons] at hlt
        have hltrest : (imgs.drop (2 - g.outDeg i)).length <
            (rest.map (fun j => 2 - g.outDeg j)).sum := by
          rw [List.length_drop]
          omega
        obtain ⟨e, he⟩ := iherr (by rw [hsum1]; exact hltrest)
        refine ⟨e, ?_⟩
        simp only [fillAll, hfoeq, he]
    · -- the first node already runs out of images
      obtain ⟨e, he⟩ := hfnerr (by omega)
      have hlt2 : imgs.length < ((i :: rest).map
          (fun j => 2 - g.outDeg j)).sum := by
        simp only [List.map_cons, List.sum_cons]
        omega
      constructor
      · intro hle
        omega
      · intro _
        refine ⟨e, ?_⟩
        simp only [fillAll, he]

/-! The internal-node graph built by `from_blueprint`. -/

theorem parseLabels_length :
    ∀ {rep : List (String × List Nat)} {labels : List NodeLabel},
      parseLabels rep = .ok labels → labels.length = rep.length := by
  intro rep
  induction rep with
  | nil =>
    intro labels h
    simp only [parseLabels] at h
    injection h with h
    rw [← h]
    rfl
  | cons p rest ih =>
    intro labels h
    obtain ⟨c, cs⟩ := p
    simp only [parseLabels] at h
    cases hc : parseLabel c with
    | error e => rw [hc] at h; exact absurd h (by simp)
    | ok l =>
      rw [hc] at h
      cases hr : parseLabels rest with
      | error e => rw [hr] at h; exact absurd h (by simp)
      | ok ls =>
        rw [hr] at h
        injection h with h
        rw [← h]
        simp [ih hr]

theorem parseLabel_internal {c : String} {l : NodeLabel}
    (h : parseLabel c = .ok l) : l.isInternal = true := by
  rw [parseLabel] at h
  split at h
  · injection h with h
    rw [← h]
    rfl
  · split at h
    · injection h with h
      rw [← h]
      rfl
    · exact absurd h (by simp)

theorem parseLabels_internal :
    ∀ {rep : List (String × List Nat)} {labels : List NodeLabel},
      parseLabels rep = .ok labels → ∀ l ∈ labels, l.isInternal = true := by
  intro rep
  induction rep with
  | nil =>
    intro labels h
    simp only [parseLabels] at h
    injection h with h
    rw [← h]
    simp
  | cons p rest ih =>
    intro labels h
    obtain ⟨c, cs⟩ := p
    simp only [parseLabels] at h
    cases hc : parseLabel c with
    | error e => rw [hc] at h; exact absurd h (by simp)
    | ok l =>
      rw [hc] at h
      cases hr : parseLabels rest with
      | error e => rw [hr] at h; exact absurd h (by simp)
      | ok ls =>
        rw [hr] at h
        injection h with h
        rw [← h]
        intro x hx
        rcases List.mem_cons.mp hx with rfl | hx
        · exact parseLabel_internal hc
        · exact ih hr x hx

theorem foldl_updateEdge_nodes_inner :
    ∀ (cs : List Nat) (g : LayoutGraph) (p : Nat),
      (cs.foldl (fun g2 c => g2.updateEdge p c) g).nodes = g.nodes := by
  intro cs
  induction cs with
  | nil => intro g p; rfl
  | cons c rest ih =>
    intro g p
    rw [List.foldl_cons, ih, nodes_updateEdge]

theorem addBlueprintEdges_nodes (g : LayoutGraph)
    (rep : List (String × List Nat)) :
    (addBlueprintEdges g rep).nodes = g.nodes := by
  rw [addBlueprintEdges]
  generalize rep.enum = ps
  induction ps generalizing g with
  | nil => rfl
  | cons p rest ih =>
    rw [List.foldl_cons, ih, foldl_updateEdge_nodes_inner]

theorem updateEdge_edges_cases {g : LayoutGraph} {a b : Nat} :
    ∀ e ∈ (g.updateEdge a b).edges, e ∈ g.edges ∨ e = (a, b) := by
  intro e he
  rw [LayoutGraph.updateEdge] at he
  split at he
  · exact Or.inl he
  · rcases List.mem_append.mp he with he | he
    · exact Or.inl he
    · simp at he
      exact Or.inr he

theorem foldl_updateEdge_bound_inner (P : Nat × Nat → Prop) :
    ∀ (cs : List Nat) (g : LayoutGraph) (p : Nat),
      (∀ e ∈ g.edges, P e) → (∀ c ∈ cs, P (p, c)) →
      ∀ e ∈ (cs.foldl (fun g2 c => g2.updateEdge p c) g).edges, P e := by
  intro cs
  induction cs with
  | nil => intro g p hg _ e he; exact hg e he
  | cons c rest ih =>
    intro g p hg hc e he
    rw [List.foldl_cons] at he
    refine ih _ p ?_ (fun x hx => hc x (by simp [hx])) e he
    intro x hx
    rcases updateEdge_edges_cases x hx with hx | hx
    · exact hg x hx
    · rw [hx]
      exact hc c (by simp)

theorem addBlueprintEdges_bound (P : Nat × Nat → Prop)
    (rep : List (String × List Nat)) (g : LayoutGraph)
    (hg : ∀ e ∈ g.edges, P e)
    (hp : ∀ pc ∈ rep.enum, ∀ c ∈ pc.2.2, P (pc.1, c)) :
    ∀ e ∈ (addBlueprintEdges g rep).edges, P e := by
  rw [addBlueprintEdges]
  have h : ∀ (ps : List (Nat × (String × List Nat))) (g2 : LayoutGraph),
      (∀ e ∈ g2.edges, P e) → (∀ pc ∈ ps, ∀ c ∈ pc.2.2, P (pc.1, c)) →
      ∀ e ∈ (ps.foldl (fun g3 pc =>
        pc.2.2.foldl (fun g4 c => g4.updateEdge pc.1 c) g3) g2).edges, P e := by
    intro ps
    induction ps with
    | nil => intro g2 hg2 _ e he; exact hg2 e he
    | cons pc rest ih =>
      intro g2 hg2 hps e he
      rw [List.foldl_cons] at he
      refine ih _ ?_ (fun q hq => hps q (by simp [hq])) e he
      exact foldl_updateEdge_bound_inner P pc.2.2 g2 pc.1 hg2
        (hps pc (by simp))
  exact h rep.enum g hg hp

theorem snd_mem_of_mem_enum {α : Type} {l : List α} {p : Nat × α}
    (h : p ∈ l.enum) : p.2 ∈ l := by
  rw [List.enum_eq_zip_range] at h
  exact (List.of_mem_zip h).2

theorem from_blueprint_reduce (bp : LayoutBlueprint) (images : List Img)
    (labels : List NodeLabel)
    (hparse : parseLabels bp.graph_representation = .ok labels)
    (hall : bp.graph_representation.all
      (fun pc => pc.2.all (fun c => c < labels.length)) = true) :
    Layout.from_blueprint bp images =
      match fillAll (addBlueprintEdges ⟨labels, []⟩ bp.graph_representation)
        (addBlueprintEdges ⟨labels, []⟩ bp.graph_representation).openIndices
        images with
      | .error e => .ret (.error e)
      | .ok (g3, _) => .ret (.ok ⟨g3, ⟨bp.width, bp.height⟩⟩) := by
  simp only [Layout.from_blueprint, hparse]
  rw [if_pos hall]

/-! Label swaps and the fallback branch of the swap mutation. -/

theorem chooseFrom_mem {l : List Nat} (h : l ≠ []) (k : Nat) :
    chooseFrom l k ∈ l := by
  have hlen : k % l.length < l.length :=
    Nat.mod_lt _ (List.length_pos.mpr h)
  rw [chooseFrom, List.get?_eq_getElem?, List.getElem?_eq_getElem hlen]
  exact List.getElem_mem hlen

theorem chooseFrom_singleton (x k : Nat) : chooseFrom [x] k = x := by
  simp [chooseFrom, Nat.mod_one]

theorem edges_swapLabels (g : LayoutGraph) (a b : Nat) :
    (g.swapLabels a b).edges = g.edges := rfl

theorem nodeCount_swapLabels (g : LayoutGraph) (a b : Nat) :
    (g.swapLabels a b).nodeCount = g.nodeCount := by
  simp [LayoutGraph.swapLabels, LayoutGraph.nodeCount]

theorem bfsAux_of_edges_eq {g1 g2 : LayoutGraph} (h : g1.edges = g2.edges) :
    ∀ fuel q, g1.bfsAux fuel q = g2.bfsAux fuel q := by
  intro fuel
  induction fuel with
  | zero => intro q; rfl
  | succ f ih =>
    intro q
    cases q with
    | nil => rfl
    | cons i rest =>
      have hcl : g1.childList i = g2.childList i := by
        simp [LayoutGraph.childList, LayoutGraph.children?,
          LayoutGraph.neighbors, LayoutGraph.outEdges, h]
      simp only [LayoutGraph.bfsAux]
      rw [hcl, ih]

theorem rootIdx_of_edges_eq {g1 g2 : LayoutGraph} (he : g1.edges = g2.edges)
    (hn : g1.nodeCount = g2.nodeCount) : g1.rootIdx = g2.rootIdx := by
  simp [LayoutGraph.rootIdx, LayoutGraph.indices, LayoutGraph.inSources, he, hn]

theorem logicalBfs_swapLabels (L : Layout) (a b : Nat) :
    ({ L with graph := L.graph.swapLabels a b } : Layout).logicalBfs =
      L.logicalBfs := by
  have he := edges_swapLabels L.graph a b
  have hn := nodeCount_swapLabels L.graph a b
  have hroot := rootIdx_of_edges_eq he hn
  have hbfs := bfsAux_of_edges_eq he
  simp only [Layout.logicalBfs, LayoutGraph.bfsFrom, hn, hroot, hbfs]

theorem labelAt_swapLabels_left {g : LayoutGraph} {a b : Nat}
    (ha : a < g.nodeCount) (hab : a ≠ b) :
    (g.swapLabels a b).labelAt a = g.labelAt b := by
  simp only [LayoutGraph.labelAt, LayoutGraph.label?, LayoutGraph.swapLabels,
    List.get?_eq_getElem?]
  rw [List.getElem?_set_ne (Ne.symm hab), List.getElem?_set_eq_of_lt _ ha]
  simp

theorem labelAt_swapLabels_right {g : LayoutGraph} {a b : Nat}
    (hb : b < g.nodeCount) :
    (g.swapLabels a b).labelAt b = g.labelAt a := by
  simp only [LayoutGraph.labelAt, LayoutGraph.label?, LayoutGraph.swapLabels,
    List.get?_eq_getElem?]
  rw [List.getElem?_set_eq_of_lt _ (by simpa using hb)]
  simp

theorem labelAt_swapLabels_other {g : LayoutGraph} {a b j : Nat}
    (hja : j ≠ a) (hjb : j ≠ b) :
    (g.swapLabels a b).labelAt j = g.labelAt j := by
  simp only [LayoutGraph.labelAt, LayoutGraph.label?, LayoutGraph.swapLabels,
    List.get?_eq_getElem?]
  rw [List.getElem?_set_ne (Ne.symm hjb), List.getElem?_set_ne (Ne.symm hja)]

theorem mem_leafIndices_lt {g : LayoutGraph} {j : Nat}
    (h : j ∈ g.leafIndices) : j < g.nodeCount := by
  simp only [LayoutGraph.leafIndices, LayoutGraph.indices, List.mem_filter,
    List.mem_range] at h
  exact h.1

theorem WFL.labelAt_leaf {L : Layout} {t : ITree} (hw : WFL L t) {j : Nat}
    (h : j ∈ L.graph.leafIndices) : (L.graph.labelAt j).isLeaf = true := by
  have hm := hw.leafIndices_perm.mem_iff.mp h
  simp only [List.mem_map, List.mem_filter] at hm
  obtain ⟨s, ⟨hs, hleaf⟩, rfl⟩ := hm
  rw [hw.labelAt_eq hs]
  exact hleaf

theorem WFL.mem_logicalBfs {L : Layout} {t : ITree} (hw : WFL L t) {j : Nat}
    (h : j < L.graph.nodeCount) : j ∈ L.logicalBfs := by
  rw [hw.logicalBfs_eq, List.Perm.mem_iff ((treeBfs_perm [t]).map ITree.idx)]
  have hfl : ([t].flatMap ITree.allNodes).map ITree.idx = t.indexList := by
    simp [ITree.indexList]
  rw [hfl]
  exact hw.mem_indexList_iff.mpr h

theorem filter_ne_nonempty {l : List Nat} (hnd : l.Nodup) (h2 : 2 ≤ l.length)
    (a : Nat) : l.filter (fun j => j != a) ≠ [] := by
  intro hnil
  rw [List.filter_eq_nil_iff] at hnil
  rcases l with _ | ⟨x, _ | ⟨y, l⟩⟩
  · simp at h2
  · simp at h2
  · have hx : x = a := by simpa using hnil x (by simp)
    have hy : y = a := by simpa using hnil y (by simp)
    rcases List.nodup_cons.mp hnd with ⟨hxm, -⟩
    exact hxm (by simp [hx, hy])

/-! Construction analysis: the graph built by `Layout::new` is spanned by a
well-ordered tree. -/

theorem posOf_lt_length {l : List Nat} {j : Nat} (h : j ∈ l) :
    posOf l j < l.length := by
  induction l with
  | nil => simp at h
  | cons x l ih =>
    rw [posOf]
    by_cases hx : x = j
    · simp [hx]
    · rcases List.mem_cons.mp h with h | h
      · exact absurd h.symm hx
      · simp [hx, ih h]

theorem get?_posOf {l : List Nat} {j : Nat} (h : j ∈ l) :
    l.get? (posOf l j) = some j := by
  induction l with
  | nil => simp at h
  | cons x l ih =>
    rw [posOf]
    by_cases hx : x = j
    · simp [hx]
    · rcases List.mem_cons.mp h with h | h
      · exact absurd h.symm hx
      · rw [if_neg hx]
        simp only [List.get?_cons_succ]
        exact ih h

theorem posOf_append_left {l r : List Nat} {j : Nat} (h : j ∈ l) :
    posOf (l ++ r) j = posOf l j := by
  induction l with
  | nil => simp at h
  | cons x l ih =>
    rw [List.cons_append, posOf, posOf]
    by_cases hx : x = j
    · simp [hx]
    · rcases List.mem_cons.mp h with h | h
      · exact absurd h.symm hx
      · simp [hx, ih h]

theorem posOf_append_right {l r : List Nat} {j : Nat} (h : j ∉ l) :
    posOf (l ++ r) j = l.length + posOf r j := by
  induction l with
  | nil => simp
  | cons x l ih =>
    have hx : x ≠ j := fun he => h (he ▸ List.mem_cons_self x l)
    have hl : j ∉ l := fun hm => h (List.mem_cons_of_mem x hm)
    rw [List.cons_append, posOf]
    simp only [hx, if_false, ih hl, List.length_cons]
    omega

theorem posOf_of_get? {l : List Nat} (hnd : l.Nodup) {m : Nat} {j : Nat}
    (h : l.get? m = some j) : posOf l j = m := by
  induction l generalizing m with
  | nil => simp at h
  | cons x l ih =>
    rcases List.nodup_cons.mp hnd with ⟨hxm, hnd'⟩
    cases m with
    | zero =>
      simp at h
      rw [posOf, if_pos h]
    | succ m =>
      simp only [List.get?_cons_succ] at h
      have hj : j ∈ l := by
        have := List.get?_eq_some.mp h
        obtain ⟨hm, rfl⟩ := this
        exact List.get_mem _ _ _
      have hx : x ≠ j := fun he => hxm (he ▸ hj)
      rw [posOf, if_neg hx, ih hnd' h]

theorem map_posOf_self (l : List Nat) (hnd : l.Nodup) :
    l.map (posOf l) = List.range l.length := by
  have : ∀ m : Nat, ∀ hm : m < l.length, posOf l (l.get ⟨m, hm⟩) = m := by
    intro m hm
    exact posOf_of_get? hnd (List.get?_eq_get hm)
  apply List.ext_get
  · simp
  · intro m h1 h2
    rw [List.get_map, this m (by simpa using h1)]
    simp [List.get_range]

theorem findIdx?_eq_some_posOf {l : List Nat} {j : Nat} (h : j ∈ l) :
    l.findIdx? (fun x => x == j) = some (posOf l j) := by
  induction l with
  | nil => simp at h
  | cons x l ih =>
    rw [List.findIdx?_cons, posOf]
    by_cases hx : x = j
    · simp [hx]
    · have hmem : j ∈ l := by
        rcases List.mem_cons.mp h with h | h
        · exact absurd h.symm hx
        · exact h
      have hb : (x == j) = false := by simp [hx]
      rw [hb, if_neg hx]
      simp [ih hmem]

theorem filterMap_eq_map_filter {α β : Type} (p : α → Bool) (f : α → β) :
    ∀ l : List α, l.filterMap (fun x => if p x then some (f x) else none) =
      (l.filter p).map f := by
  intro l
  induction l with
  | nil => rfl
  | cons x l ih =>
    rw [List.filterMap_cons, List.filter_cons]
    cases hp : p x <;> simp [hp, ih]

theorem flatMap_filter_of_nil {α β : Type} (p : α → Bool) (f : α → List β)
    (l : List α) (h : ∀ x ∈ l, p x = false → f x = []) :
    (l.filter p).flatMap f = l.flatMap f := by
  induction l with
  | nil => rfl
  | cons x l ih =>
    have hrec := ih (fun y hy => h y (List.mem_cons_of_mem x hy))
    rw [List.filter_cons, List.flatMap_cons]
    cases hp : p x
    · simp [hp, h x (List.mem_cons_self x l) hp, hrec]
    · simp [hp, hrec]

theorem sum_map_add {α : Type} (l : List α) (f g : α → Nat) :
    (l.map (fun x => f x + g x)).sum = (l.map f).sum + (l.map g).sum := by
  induction l with
  | nil => simp
  | cons x l ih => simp [ih]; omega

theorem sum_indicator_range {n j : Nat} (hj : j < n) :
    ((List.range n).map (fun i => if j = i then 1 else 0)).sum = 1 := by
  induction n with
  | zero => omega
  | succ m ih =>
    rw [List.range_succ]
    by_cases h : j = m
    · have hz : ((List.range m).map (fun i => if j = i then 1 else 0)).sum
          = 0 := by
        apply List.sum_eq_zero
        intro x hx
        simp only [List.mem_map, List.mem_range] at hx
        obtain ⟨i, hi, rfl⟩ := hx
        rw [if_neg (by omega)]
      simp only [List.map_append, List.sum_append]
      rw [hz]
      simp [h]
    · have hj' : j < m := by omega
      simp only [List.map_append, List.sum_append]
      rw [ih hj']
      simp [h]

theorem sum_length_filter_fst (n : Nat) :
    ∀ es : List (Nat × Nat), (∀ e ∈ es, e.1 < n) →
    ((List.range n).map
      (fun i => (es.filter (fun e => e.1 == i)).length)).sum = es.length := by
  intro es
  induction es with
  | nil => intro h; simp
  | cons e es ih =>
    intro h
    have hrec := ih (fun x hx => h x (List.mem_cons_of_mem e hx))
    have hsplit : ((List.range n).map
        (fun i => ((e :: es).filter (fun x => x.1 == i)).length)).sum =
        ((List.range n).map (fun i => (if e.1 = i then 1 else 0) +
          (es.filter (fun x => x.1 == i)).length)).sum := by
      congr 1
      apply List.map_congr_left
      intro i _
      rw [List.filter_cons]
      by_cases hi : e.1 = i
      · simp [hi]
        omega
      · simp [hi]
    rw [hsplit, sum_map_add, hrec, sum_indicator_range (h e (by simp))]
    simp
    omega

theorem mem_of_nodup_subset_length {T U : List Nat} (hnd : T.Nodup)
    (hsub : ∀ x ∈ T, x ∈ U) (hlen : U.length ≤ T.length) :
    ∀ x ∈ U, x ∈ T := by
  have hsp : T.Subperm U := List.subperm_of_subset hnd hsub
  have hperm : T.Perm U := hsp.perm_of_length_le hlen
  intro x hx
  exact hperm.mem_iff.mpr hx

theorem posOf_flatMap_block {α : Type} (f : α → List Nat) :
    ∀ (l : List α) (q : Nat) (hq : q < l.length) (j : Nat)
      (hj : j < (f (l.get ⟨q, hq⟩)).length),
      (l.flatMap f).Nodup →
      posOf (l.flatMap f) ((f (l.get ⟨q, hq⟩)).get ⟨j, hj⟩) =
        ((l.take q).map (fun x => (f x).length)).sum + j := by
  intro l
  induction l with
  | nil => intro q hq; simp at hq
  | cons x l ih =>
    intro q hq j hj hnd
    rw [List.flatMap_cons] at hnd ⊢
    rcases List.nodup_append.mp hnd with ⟨hnd1, hnd2, hdisj⟩
    cases q with
    | zero =>
      simp only [List.get] at hj ⊢
      have hmem : (f x).get ⟨j, hj⟩ ∈ f x := List.get_mem _ _ _
      rw [posOf_append_left hmem]
      simp only [List.take_zero, List.map_nil, List.sum_nil, Nat.zero_add]
      exact posOf_of_get? hnd1 (List.get?_eq_get hj)
    | succ q =>
      simp only [List.get] at hj ⊢
      have hql : q < l.length := by simpa using hq
      have hmem : (f (l.get ⟨q, hql⟩)).get ⟨j, hj⟩ ∈ l.flatMap f := by
        rw [List.mem_flatMap]
        exact ⟨l.get ⟨q, hql⟩, List.get_mem _ _ _, List.get_mem _ _ _⟩
      have hnotx : (f (l.get ⟨q, hql⟩)).get ⟨j, hj⟩ ∉ f x :=
        fun hin => hdisj hin hmem
      rw [posOf_append_right hnotx, ih q hql j hj hnd2]
      rw [List.take_succ_cons]
      simp only [List.map_cons, List.sum_cons]
      omega

theorem sum_ge_of_all_ge {l : List Nat} {c : Nat} (h : ∀ x ∈ l, c ≤ x) :
    l.length * c ≤ l.sum := by
  induction l with
  | nil => simp
  | cons x l ih =>
    have := h x (List.mem_cons_self x l)
    have := ih (fun y hy => h y (List.mem_cons_of_mem x hy))
    simp only [List.length_cons, List.sum_cons]
    calc (l.length + 1) * c = l.length * c + c := by ring
    _ ≤ x + l.sum := by omega

theorem label?_mem_of_lt {g : LayoutGraph} {i : Nat} (h : i < g.nodeCount) :
    ∃ l, g.label? i = some l ∧ l ∈ g.nodes := by
  rw [LayoutGraph.label?, List.get?_eq_get h]
  exact ⟨_, rfl, List.get_mem _ _ _⟩

theorem outDeg_eq_filter (g : LayoutGraph) (i : Nat) :
    g.outDeg i = (g.edges.filter (fun e => e.1 == i)).length := rfl

theorem openIndices_ne_nil_of_phase1 {g : LayoutGraph} (h : Phase1Inv g) :
    g.openIndices ≠ [] := by
  obtain ⟨hlab, hbound, hpw, hdeg, hcount⟩ := h
  intro hnil
  rw [LayoutGraph.openIndices, List.filter_eq_nil_iff] at hnil
  have hall : ∀ i, i < g.nodeCount → g.outDeg i = 2 := by
    intro i hi
    obtain ⟨l, hl, hlm⟩ := label?_mem_of_lt hi
    have hint := hlab l hlm
    have hni := hnil i (by simpa [LayoutGraph.indices] using hi)
    have h2 := hdeg i
    rcases Nat.lt_or_ge (g.outDeg i) 2 with hlt | hge
    · exact absurd (by simp [hl, hint, hlt]) hni
    · omega
  have hsum : ((List.range g.nodeCount).map (fun i => g.outDeg i)).sum =
      g.edges.length := by
    simp only [outDeg_eq_filter]
    exact sum_length_filter_fst g.nodeCount g.edges
      (fun e he => lt_trans (hbound e he).1 (hbound e he).2)
  have hge : ((List.range g.nodeCount).map (fun i => g.outDeg i)).length * 2 ≤
      ((List.range g.nodeCount).map (fun i => g.outDeg i)).sum := by
    apply sum_ge_of_all_ge
    intro x hx
    simp only [List.mem_map, List.mem_range] at hx
    obtain ⟨i, hi, rfl⟩ := hx
    rw [hall i hi]
  simp only [List.length_map, List.length_range] at hge
  omega

theorem edges_addNode (g : LayoutGraph) (l : NodeLabel) :
    (g.addNode l).edges = g.edges := rfl

theorem nodes_addNode (g : LayoutGraph) (l : NodeLabel) :
    (g.addNode l).nodes = g.nodes ++ [l] := rfl

theorem mem_openIndices {g : LayoutGraph} {i : Nat}
    (h : i ∈ g.openIndices) : i < g.nodeCount ∧ g.outDeg i < 2 := by
  rw [LayoutGraph.openIndices, List.mem_filter] at h
  obtain ⟨hi, hcond⟩ := h
  simp only [Bool.and_eq_true, decide_eq_true_eq] at hcond
  exact ⟨by simpa [LayoutGraph.indices] using hi, hcond.2⟩

theorem phase1_step {g : LayoutGraph} (h : Phase1Inv g)
    (d : SliceDirection) (pk : Nat) :
    Phase1Inv ((g.addNode (.internal d)).updateEdge
      (chooseFrom g.openIndices pk) g.nodeCount) ∧
    ((g.addNode (.internal d)).updateEdge
      (chooseFrom g.openIndices pk) g.nodeCount).nodeCount =
      g.nodeCount + 1 := by
  obtain ⟨hlab, hbound, hpw, hdeg, hcount⟩ := h
  have hne := openIndices_ne_nil_of_phase1 ⟨hlab, hbound, hpw, hdeg, hcount⟩
  have hp := chooseFrom_mem hne pk
  obtain ⟨hplt, hpdeg⟩ := mem_openIndices hp
  set p := chooseFrom g.openIndices pk
  have hnotmem : (p, g.nodeCount) ∉ (g.addNode (.internal d)).edges := by
    rw [edges_addNode]
    intro hmem
    exact absurd (hbound _ hmem).2 (by simp)
  have hedges : ((g.addNode (.internal d)).updateEdge p g.nodeCount).edges =
      g.edges ++ [(p, g.nodeCount)] := by
    rw [edges_updateEdge_notMem hnotmem, edges_addNode]
  have hnodes : ((g.addNode (.internal d)).updateEdge p g.nodeCount).nodes =
      g.nodes ++ [.internal d] := by
    rw [nodes_updateEdge, nodes_addNode]
  have hnc : ((g.addNode (.internal d)).updateEdge p g.nodeCount).nodeCount =
      g.nodeCount + 1 := by
    rw [LayoutGraph.nodeCount, hnodes]
    simp [LayoutGraph.nodeCount]
  refine ⟨⟨?_, ?_, ?_, ?_, ?_⟩, hnc⟩
  · rw [hnodes]
    intro l hl
    rcases List.mem_append.mp hl with hl | hl
    · exact hlab l hl
    · simp only [List.mem_singleton] at hl
      subst hl
      rfl
  · rw [hedges, hnc]
    intro e he
    rcases List.mem_append.mp he with he | he
    · have := hbound e he
      omega
    · simp only [List.mem_singleton] at he
      subst he
      simp
      omega
  · rw [hedges, List.map_append]
    rw [List.pairwise_append]
    refine ⟨hpw, by simp, ?_⟩
    intro x hx y hy
    simp only [List.map_cons, List.map_nil, List.mem_singleton] at hy
    subst hy
    simp only [List.mem_map] at hx
    obtain ⟨e, he, rfl⟩ := hx
    exact (hbound e he).2
  · intro i
    rw [outDeg_eq_filter, hedges, List.filter_append]
    by_cases hip : p = i
    · subst hip
      have : [(p, g.nodeCount)].filter (fun e => e.1 == p) =
          [(p, g.nodeCount)] := by simp
      rw [this]
      simp only [List.length_append, List.length_singleton]
      have := hpdeg
      rw [outDeg_eq_filter] at this
      omega
    · have : [(p, g.nodeCount)].filter (fun e => e.1 == i) = [] := by
        simp [hip]
      rw [this]
      simp only [List.append_nil]
      exact hdeg i
  · rw [hedges, hnc]
    simp only [List.length_append, List.length_singleton]
    omega

theorem phase1Inv_newPhase1 (o : NewOracle) (steps : Nat) :
    Phase1Inv (newPhase1 o steps) := by
  have hbase : Phase1Inv ⟨[.internal (o.dirs 0)], []⟩ := by
    refine ⟨?_, ?_, ?_, ?_, ?_⟩
    · intro l hl
      simp only [List.mem_singleton] at hl
      subst hl
      rfl
    · intro e he
      simp at he
    · simp
    · intro i
      simp [outDeg_eq_filter]
    · rfl
  have hgen : ∀ (ks : List Nat) (g : LayoutGraph), Phase1Inv g →
      Phase1Inv (ks.foldl (fun g k =>
        let parent := chooseFrom g.openIndices (o.picks k)
        (g.addNode (.internal (o.dirs (k + 1)))).updateEdge parent
          g.nodeCount) g) := by
    intro ks
    induction ks with
    | nil => intro g hg; exact hg
    | cons k ks ih =>
      intro g hg
      exact ih _ (phase1_step hg _ _).1
  exact hgen _ _ hbase

theorem fillEdgesSpec_targets (g : LayoutGraph) :
    ∀ (os : List Nat) (b : Nat),
      (fillEdgesSpec g os b).map Prod.snd =
        List.range' b ((os.map (fun i => 2 - g.outDeg i)).sum) := by
  intro os
  induction os with
  | nil => intro b; simp [fillEdgesSpec]
  | cons i rest ih =>
    intro b
    rw [fillEdgesSpec, List.map_append, ih]
    have hblock : ((List.range (2 - g.outDeg i)).map
        (fun k => (i, b + k))).map Prod.snd =
        List.range' b (2 - g.outDeg i) := by
      rw [List.map_map, List.range'_eq_map_range]
      rfl
    rw [hblock]
    have happ := List.range'_append b (2 - g.outDeg i)
      ((rest.map (fun j => 2 - g.outDeg j)).sum) 1
    simp only [Nat.one_mul] at happ
    rw [happ, List.map_cons, List.sum_cons]
    congr 1
    omega

theorem fillEdgesSpec_mem (g : LayoutGraph) :
    ∀ (os : List Nat) (b : Nat) (e : Nat × Nat), e ∈ fillEdgesSpec g os b →
      e.1 ∈ os ∧ b ≤ e.2 := by
  intro os
  induction os with
  | nil => intro b e he; simp [fillEdgesSpec] at he
  | cons i rest ih =>
    intro b e he
    rw [fillEdgesSpec, List.mem_append] at he
    rcases he with he | he
    · simp only [List.mem_map, List.mem_range] at he
      obtain ⟨k, hk, rfl⟩ := he
      exact ⟨by simp, by simp⟩
    · obtain ⟨h1, h2⟩ := ih _ e he
      exact ⟨by simp [h1], by omega⟩

theorem length_filter_fillEdgesSpec (g : LayoutGraph) :
    ∀ (os : List Nat) (b i : Nat), os.Nodup →
      ((fillEdgesSpec g os b).filter (fun e => e.1 == i)).length =
        if i ∈ os then 2 - g.outDeg i else 0 := by
  intro os
  induction os with
  | nil => intro b i _; simp [fillEdgesSpec]
  | cons j rest ih =>
    intro b i hnd
    rcases List.nodup_cons.mp hnd with ⟨hjm, hnd'⟩
    rw [fillEdgesSpec, List.filter_append, List.length_append, ih _ i hnd']
    by_cases hij : i = j
    · subst hij
      have hfull : ((List.range (2 - g.outDeg i)).map
          (fun k => (i, b + k))).filter (fun e => e.1 == i) =
          (List.range (2 - g.outDeg i)).map (fun k => (i, b + k)) := by
        apply List.filter_eq_self.mpr
        intro a ha
        simp only [List.mem_map] at ha
        obtain ⟨k, -, rfl⟩ := ha
        simp
      rw [hfull]
      simp [hjm]
    · rw [filter_block_ne hij]
      simp [hij]

theorem new_ret_spec {images : List Img} {o : NewOracle} {L : Layout}
    (h : Layout.new images o = .ret L) :
    ∃ g1 : LayoutGraph, Phase1Inv g1 ∧
      L.graph = ⟨g1.nodes ++ ((o.shuffled.take
          ((g1.openIndices.map (fun i => 2 - g1.outDeg i)).sum)).map
          NodeLabel.leaf),
        g1.edges ++ fillEdgesSpec g1 g1.openIndices g1.nodeCount⟩ ∧
      ((g1.openIndices.map (fun i => 2 - g1.outDeg i)).sum) ≤
        o.shuffled.length ∧
      L.canvas_dimensions = o.canvas := by
  rw [Layout.new] at h
  by_cases hlen : images.length < 2
  · rw [if_pos hlen] at h
    exact (PanicOr.noConfusion h)
  · rw [if_neg hlen] at h
    have hinv : Phase1Inv (newPhase1 o (images.length - 2)) :=
      phase1Inv_newPhase1 o _
    have hbound : ∀ e ∈ (newPhase1 o (images.length - 2)).edges,
        e.2 < (newPhase1 o (images.length - 2)).nodeCount :=
      fun e he => (hinv.2.1 e he).2
    have hnodup : (newPhase1 o (images.length - 2)).openIndices.Nodup :=
      (List.nodup_range _).filter _
    obtain ⟨hok, herr⟩ := fillAll_spec
      (newPhase1 o (images.length - 2)).openIndices
      (newPhase1 o (images.length - 2)) o.shuffled hbound hnodup
    by_cases hS : (((newPhase1 o (images.length - 2)).openIndices.map
        (fun i => 2 - (newPhase1 o (images.length - 2)).outDeg i)).sum) ≤
        o.shuffled.length
    · simp only [hok hS] at h
      refine ⟨newPhase1 o (images.length - 2), hinv, ?_, hS, ?_⟩
      · injection h with h'
        rw [← h']
      · injection h with h'
        rw [← h']
    · obtain ⟨e, he⟩ := herr (by omega)
      simp only [he] at h
      exact (PanicOr.noConfusion h)

theorem goodGraph_of_new {images : List Img} {o : NewOracle} {L : Layout}
    (h : Layout.new images o = .ret L) :
    ∃ k, 0 < k ∧ GoodGraph L.graph k := by
  obtain ⟨g1, hinv, hgr, hS, -⟩ := new_ret_spec h
  obtain ⟨hlab, hbound, hpw, hdeg, hcount⟩ := hinv
  refine ⟨g1.nodeCount, by omega, ?_⟩
  have hfet : (fillEdgesSpec g1 g1.openIndices g1.nodeCount).map Prod.snd =
      List.range' g1.nodeCount
        ((g1.openIndices.map (fun i => 2 - g1.outDeg i)).sum) :=
    fillEdgesSpec_targets g1 _ _
  have hfelen : (fillEdgesSpec g1 g1.openIndices g1.nodeCount).length =
      ((g1.openIndices.map (fun i => 2 - g1.outDeg i)).sum) := by
    have := congrArg List.length hfet
    simpa using this
  have hlt : L.graph.nodes =  g1.nodes ++
      ((o.shuffled.take
        ((g1.openIndices.map (fun i => 2 - g1.outDeg i)).sum)).map
        NodeLabel.leaf) := by rw [hgr]
  have hedges : L.graph.edges =
      g1.edges ++ fillEdgesSpec g1 g1.openIndices g1.nodeCount := by
    rw [hgr]
  have hnc : L.graph.nodeCount = g1.nodeCount +
      ((g1.openIndices.map (fun i => 2 - g1.outDeg i)).sum) := by
    rw [LayoutGraph.nodeCount, hlt]
    simp only [List.length_append, List.length_map, List.length_take]
    have : g1.nodes.length = g1.nodeCount := rfl
    omega
  refine ⟨by omega, by omega, ?_, ?_, ?_, ?_⟩
  · rw [hedges, hnc]
    intro e he
    rcases List.mem_append.mp he with he | he
    · have := hbound e he
      omega
    · obtain ⟨hsrc, -⟩ := fillEdgesSpec_mem g1 _ _ e he
      have hsrclt := (mem_openIndices hsrc).1
      have htgt : e.2 ∈ List.range' g1.nodeCount
          ((g1.openIndices.map (fun i => 2 - g1.outDeg i)).sum) := by
        rw [← hfet]
        exact List.mem_map_of_mem Prod.snd he
      rw [List.mem_range'_1] at htgt
      omega
  · rw [hedges, List.map_append, hfet, List.pairwise_append]
    refine ⟨hpw, List.pairwise_lt_range' _ _, ?_⟩
    intro x hx y hy
    simp only [List.mem_map] at hx
    obtain ⟨e, he, rfl⟩ := hx
    rw [List.mem_range'_1] at hy
    have := (hbound e he).2
    omega
  · rw [hedges, hnc, List.length_append, hfelen]
    omega
  · intro i hi
    rw [hnc] at hi
    have houtdeg : L.graph.outDeg i =
        (g1.edges.filter (fun e => e.1 == i)).length +
        ((fillEdgesSpec g1 g1.openIndices g1.nodeCount).filter
          (fun e => e.1 == i)).length := by
      rw [outDeg_eq_filter, hedges, List.filter_append, List.length_append]
    have hfefilter := length_filter_fillEdgesSpec g1 g1.openIndices
      g1.nodeCount i ((List.nodup_range _).filter _)
    have hg1deg : (g1.edges.filter (fun e => e.1 == i)).length =
        g1.outDeg i := rfl
    by_cases hik : i < g1.nodeCount
    · rw [if_pos hik]
      obtain ⟨l, hl?, hlm⟩ := label?_mem_of_lt hik
      have hint := hlab _ hlm
      have hlabL : L.graph.label? i = some l := by
        rw [LayoutGraph.label?, hlt, List.get?_append hik]
        exact hl?
      constructor
      · cases l with
        | internal d => exact ⟨d, hlabL⟩
        | leaf im => simp [NodeLabel.isInternal] at hint
      · rw [houtdeg, hfefilter, hg1deg]
        by_cases hopen : i ∈ g1.openIndices
        · have hlt2 := (mem_openIndices hopen).2
          rw [if_pos hopen]
          omega
        · rw [if_neg hopen]
          have hge2 : ¬ (g1.outDeg i < 2) := by
            intro hlt2
            apply hopen
            rw [LayoutGraph.openIndices, List.mem_filter]
            refine ⟨by simpa [LayoutGraph.indices] using hik, ?_⟩
            simp [hl?, hint, hlt2]
          have h2 := hdeg i
          omega
    · rw [if_neg hik]
      constructor
      · have hIdx : i - g1.nodes.length < (o.shuffled.take
            ((g1.openIndices.map (fun j => 2 - g1.outDeg j)).sum)).length := by
          rw [List.length_take]
          have : g1.nodes.length = g1.nodeCount := rfl
          omega
        have hgetsome : ∃ im, (o.shuffled.take
            ((g1.openIndices.map (fun j => 2 - g1.outDeg j)).sum)).get?
              (i - g1.nodes.length) = some im := by
          rw [List.get?_eq_get hIdx]
          exact ⟨_, rfl⟩
        obtain ⟨im, him⟩ := hgetsome
        refine ⟨im, ?_⟩
        rw [LayoutGraph.label?, hlt,
          List.get?_append_right (by
            have : g1.nodes.length = g1.nodeCount := rfl
            omega)]
        rw [List.get?_map, him]
        rfl
      · rw [houtdeg, hfefilter, hg1deg]
        have hnotmem : i ∉ g1.openIndices := fun hm =>
          absurd (mem_openIndices hm).1 (by omega)
        rw [if_neg hnotmem]
        have hnil : g1.outDeg i = 0 := by
          rw [outDeg_eq_filter, List.length_eq_zero, List.filter_eq_nil_iff]
          intro e he
          have h1 := (hbound e he).2
          have h1b := (hbound e he).1
          simp
          omega
        omega

theorem children_structure {g : LayoutGraph} {i : Nat}
    (hpw : (g.edges.map Prod.snd).Pairwise (· < ·))
    (hbound : ∀ e ∈ g.edges, e.1 < e.2 ∧ e.2 < g.nodeCount)
    (hdeg : g.outDeg i = 2) :
    ∃ l r, g.children? i = some (l, r) ∧ l < r ∧ i < l ∧
      (i, l) ∈ g.edges ∧ (i, r) ∈ g.edges ∧ r < g.nodeCount := by
  rw [LayoutGraph.outDeg] at hdeg
  obtain ⟨e1, e2, he⟩ := List.length_eq_two.mp hdeg
  have hm1 : e1 ∈ g.outEdges i := by rw [he]; simp
  have hm2 : e2 ∈ g.outEdges i := by rw [he]; simp
  have hf1 : e1.1 = i := by simpa using List.of_mem_filter hm1
  have hf2 : e2.1 = i := by simpa using List.of_mem_filter hm2
  have hmem1 : e1 ∈ g.edges := List.mem_of_mem_filter hm1
  have hmem2 : e2 ∈ g.edges := List.mem_of_mem_filter hm2
  have hch : g.children? i = some (e1.2, e2.2) := by
    simp [LayoutGraph.children?, LayoutGraph.neighbors, he]
  have hsub : (g.outEdges i).Sublist g.edges := List.filter_sublist _
  have hpw2 : ((g.outEdges i).map Prod.snd).Pairwise (· < ·) :=
    List.Pairwise.sublist (hsub.map Prod.snd) hpw
  rw [he] at hpw2
  simp only [List.map_cons, List.map_nil, List.pairwise_cons] at hpw2
  have hlr : e1.2 < e2.2 := hpw2.1 e2.2 (by simp)
  have he1 : e1 = (i, e1.2) := Prod.ext hf1 rfl
  have he2 : e2 = (i, e2.2) := Prod.ext hf2 rfl
  refine ⟨e1.2, e2.2, hch, hlr, ?_, he1 ▸ hmem1, he2 ▸ hmem2, ?_⟩
  · have := (hbound e1 hmem1).1
    rw [hf1] at this
    exact this
  · exact (hbound e2 hmem2).2

theorem decode_spans {g : LayoutGraph} {k : Nat} (hg : GoodGraph g k) :
    ∀ (fuel i : Nat), i < g.nodeCount → g.nodeCount - i ≤ fuel →
      ∃ t, decode g fuel i = some t ∧ spansB g t = true ∧ t.idx = i ∧
        t.indexList.Nodup ∧
        (∀ j ∈ t.indexList, i ≤ j ∧ j < g.nodeCount) ∧
        (∀ j ∈ t.indexList, j ≠ i →
          ∃ p, p ∈ t.indexList ∧ (p, j) ∈ g.edges) := by
  obtain ⟨hpos, hk, hbound, hpw, hcount, hnodes⟩ := hg
  intro fuel
  induction fuel with
  | zero => intro i hi hfuel; omega
  | succ f ih =>
    intro i hi hfuel
    have hni := hnodes i hi
    by_cases hik : i < k
    · rw [if_pos hik] at hni
      obtain ⟨⟨d, hd⟩, hdeg2⟩ := hni
      obtain ⟨l, r, hch, hlr, hil, hel, her, hrn⟩ :=
        children_structure hpw hbound hdeg2
      have hln : l < g.nodeCount := (hbound _ hel).2
      have hfl : g.nodeCount - l ≤ f := by omega
      have hfr : g.nodeCount - r ≤ f := by omega
      obtain ⟨tl, htl, hstl, hidl, hndl, hbl, hpl⟩ := ih l hln hfl
      obtain ⟨tr, htr, hstr, hidr, hndr, hbr, hpr⟩ := ih r hrn hfr
      have hinj : ∀ x ∈ g.edges, ∀ y ∈ g.edges, x.2 = y.2 → x = y :=
        List.inj_on_of_nodup_map (hpw.imp (fun h => Nat.ne_of_lt h))
      have hdisj : ∀ j, j ∈ tl.indexList → j ∈ tr.indexList → False := by
        intro j
        induction j using Nat.strong_induction_on with
        | _ j ihj =>
          intro hjl hjr
          by_cases hjL : j = l
          · subst hjL
            have hne : j ≠ r := by omega
            obtain ⟨p, hpmem, hpe⟩ := hpr j hjr hne
            have hpge : r ≤ p := (hbr p hpmem).1
            have hpeq : (p, j) = (i, j) := hinj _ hpe _ hel rfl
            have : p = i := congrArg Prod.fst hpeq
            omega
          · by_cases hjR : j = r
            · subst hjR
              obtain ⟨p, hpmem, hpe⟩ := hpl j hjl (by omega)
              have hpge : l ≤ p := (hbl p hpmem).1
              have hpeq : (p, j) = (i, j) := hinj _ hpe _ her rfl
              have : p = i := congrArg Prod.fst hpeq
              omega
            · obtain ⟨p1, hp1m, hp1e⟩ := hpl j hjl hjL
              obtain ⟨p2, hp2m, hp2e⟩ := hpr j hjr hjR
              have hpeq : (p1, j) = (p2, j) := hinj _ hp1e _ hp2e rfl
              have hp12 : p1 = p2 := congrArg Prod.fst hpeq
              subst hp12
              have hplt : p1 < j := (hbound _ hp1e).1
              exact ihj p1 hplt hp1m hp2m
      refine ⟨.node i d tl tr, ?_, ?_, rfl, ?_, ?_, ?_⟩
      · simp only [decode, hd, hdeg2, beq_self_eq_true, if_true, hch,
          htl, htr]
      · rw [spansB]
        simp [hd, hdeg2, hch, hidl, hidr, hstl, hstr]
      · rw [indexList_node, List.nodup_cons]
        constructor
        · intro hmem
          rcases List.mem_append.mp hmem with hm | hm
          · have := (hbl i hm).1; omega
          · have := (hbr i hm).1; omega
        · rw [List.nodup_append]
          exact ⟨hndl, hndr, fun a hal har => hdisj a hal har⟩
      · rw [indexList_node]
        intro j hj
        rcases List.mem_cons.mp hj with rfl | hj
        · omega
        · rcases List.mem_append.mp hj with hm | hm
          · have := hbl j hm; omega
          · have := hbr j hm; omega
      · rw [indexList_node]
        intro j hj hji
        rcases List.mem_cons.mp hj with rfl | hj
        · exact absurd rfl hji
        · rcases List.mem_append.mp hj with hm | hm
          · by_cases hjl : j = l
            · subst hjl
              exact ⟨i, by simp [indexList_node], hel⟩
            · obtain ⟨p, hp, hpe⟩ := hpl j hm hjl
              exact ⟨p, by simp [indexList_node, hp], hpe⟩
          · by_cases hjr : j = r
            · subst hjr
              exact ⟨i, by simp [indexList_node], her⟩
            · obtain ⟨p, hp, hpe⟩ := hpr j hm hjr
              exact ⟨p, by simp [indexList_node, hp], hpe⟩
    · rw [if_neg hik] at hni
      obtain ⟨⟨im, him⟩, hdeg0⟩ := hni
      refine ⟨.leaf i im, ?_, ?_, rfl, ?_, ?_, ?_⟩
      · simp only [decode, him, hdeg0, beq_self_eq_true, if_true]
      · rw [spansB]
        simp [him, hdeg0]
      · simp [ITree.indexList, ITree.allNodes]
      · intro j hj
        simp [ITree.indexList, ITree.allNodes, ITree.idx] at hj
        omega
      · intro j hj hji
        simp [ITree.indexList, ITree.allNodes, ITree.idx] at hj
        exact absurd hj hji

theorem spans_closed_under_edges {g : LayoutGraph} {t : ITree}
    (hs : spansB g t = true) {p j : Nat}
    (hp : p ∈ t.indexList) (he : (p, j) ∈ g.edges) : j ∈ t.indexList := by
  rw [ITree.indexList, List.mem_map] at hp
  obtain ⟨s, hsm, rfl⟩ := hp
  have hss := spans_of_mem hs hsm
  cases s with
  | leaf a img =>
    have h0 := (spans_leaf hss).2
    have hpos := outDeg_pos_of_edge he
    simp only [ITree.idx_leaf] at hpos
    omega
  | node a d l r =>
    have hout := outEdges_of_spans_node hss
    simp only [ITree.idx_node] at he ⊢
    have hem : ((a : Nat), j) ∈ g.outEdges a := edge_mem_outEdges he
    rw [hout] at hem
    simp only [List.mem_cons, List.mem_singleton, Prod.mk.injEq] at hem
    rcases hem with ⟨-, rfl⟩ | hem
    · exact mem_indexList_of_mem_allNodes
        (ITree.child_mem_allNodes hsm (by simp [ITree.childTrees]))
    · rcases hem with ⟨-, rfl⟩ | h
      · exact mem_indexList_of_mem_allNodes
          (ITree.child_mem_allNodes hsm (by simp [ITree.childTrees]))
      · simp at h

theorem goodGraph_covers {g : LayoutGraph} {k : Nat} (hg : GoodGraph g k)
    {t : ITree} (hs : spansB g t = true) (hroot : t.idx = 0)
    (hall : ∀ j ∈ t.indexList, j < g.nodeCount) :
    ∀ j, j < g.nodeCount → j ∈ t.indexList := by
  obtain ⟨hpos, hk, hbound, hpw, hcount, hnodes⟩ := hg
  have htarget : ∀ j, 1 ≤ j → j < g.nodeCount → ∃ p, (p, j) ∈ g.edges := by
    intro j h1 h2
    have hndT : (g.edges.map Prod.snd).Nodup :=
      hpw.imp (fun h => Nat.ne_of_lt h)
    have hsubT : ∀ x ∈ g.edges.map Prod.snd,
        x ∈ List.range' 1 (g.nodeCount - 1) := by
      intro x hx
      simp only [List.mem_map] at hx
      obtain ⟨e, he, rfl⟩ := hx
      rw [List.mem_range'_1]
      have := hbound e he
      omega
    have hlen : (List.range' 1 (g.nodeCount - 1)).length ≤
        (g.edges.map Prod.snd).length := by
      simp only [List.length_range', List.length_map]
      omega
    have hmem := mem_of_nodup_subset_length hndT hsubT hlen j
      (by rw [List.mem_range'_1]; omega)
    simp only [List.mem_map] at hmem
    obtain ⟨e, he, rfl⟩ := hmem
    exact ⟨e.1, by simpa using he⟩
  intro j
  induction j using Nat.strong_induction_on with
  | _ j ihj =>
    intro hj
    by_cases hj0 : j = 0
    · subst hj0
      rw [← hroot]
      exact mem_indexList_of_mem_allNodes t.mem_allNodes_self
    · obtain ⟨p, hpe⟩ := htarget j (by omega) hj
      have hplt : p < j := (hbound _ hpe).1
      have hpmem := ihj p hplt (by omega)
      exact spans_closed_under_edges hs hpmem hpe

theorem goodOrder_of_goodGraph {g : LayoutGraph} {k : Nat}
    (hg : GoodGraph g k) {t : ITree} (hs : spansB g t = true) :
    t.goodOrder = true := by
  have hparts := hg
  obtain ⟨hpos, hk, hbound, hpw, hcount, hnodes⟩ := hparts
  induction t with
  | leaf i img => rfl
  | node i d l r ihl ihr =>
    obtain ⟨hd, hdeg, hch, hsl, hsr⟩ := spans_node hs
    rw [ITree.goodOrder]
    simp only [Bool.and_eq_true]
    refine ⟨⟨?_, ihl hsl⟩, ihr hsr⟩
    obtain ⟨l', r', hch', hlr', hil', hel', her', hrn'⟩ :=
      children_structure hpw hbound hdeg
    rw [hch] at hch'
    injection hch' with hp
    have hpl : l.idx = l' := congrArg Prod.fst hp
    have hpr : r.idx = r' := congrArg Prod.snd hp
    rw [← hpl, ← hpr] at hlr'
    have hll : l.idx < g.nodeCount := by
      rw [hpl]
      exact (hbound _ hel').2
    have hrr : r.idx < g.nodeCount := by
      rw [hpr]
      exact hrn'
    have hlabl := spans_label hsl
    have hlabr := spans_label hsr
    by_cases hlk : l.idx < k
    · have := hnodes l.idx hll
      rw [if_pos hlk] at this
      obtain ⟨⟨dl, hdl⟩, -⟩ := this
      rw [hlabl] at hdl
      injection hdl with hdl'
      rw [hdl']
      simp [NodeLabel.isLeaf]
    · have hrk : ¬ (r.idx < k) := by omega
      have := hnodes r.idx hrr
      rw [if_neg hrk] at this
      obtain ⟨⟨imr, himr⟩, -⟩ := this
      rw [hlabr] at himr
      injection himr with himr'
      rw [himr']
      simp [NodeLabel.isInternal]

theorem new_WFL {images : List Img} {o : NewOracle} {L : Layout}
    (h : Layout.new images o = .ret L) :
    ∃ t, WFL L t ∧ t.goodOrder = true ∧ t.idx = 0 ∧
      t.labelOf.isInternal = true := by
  obtain ⟨k, hk0, hg⟩ := goodGraph_of_new h
  have hparts := hg
  obtain ⟨hpos, hk, hbound, hpw, hcount, hnodes⟩ := hparts
  obtain ⟨t, hdec, hs, hidx, hnd, hbnd, -⟩ :=
    decode_spans hg L.graph.nodeCount 0 hpos (by omega)
  have hcover := goodGraph_covers hg hs hidx (fun j hj => (hbnd j hj).2)
  have hperm : t.indexList.Perm (List.range L.graph.nodeCount) := by
    rw [List.perm_ext_iff_of_nodup hnd (List.nodup_range _)]
    intro j
    rw [List.mem_range]
    exact ⟨fun hj => (hbnd j hj).2, fun hj => hcover j hj⟩
  refine ⟨t, ⟨hs, hperm, ?_⟩, goodOrder_of_goodGraph hg hs, hidx, ?_⟩
  · intro e he
    have h1 := hbound e he
    exact ⟨by omega, h1.2⟩
  · have hlab := spans_label hs
    rw [hidx] at hlab
    have h0 := hnodes 0 hpos
    rw [if_pos hk0] at h0
    obtain ⟨⟨d0, hd0⟩, -⟩ := h0
    rw [hlab] at hd0
    injection hd0 with hd0'
    rw [hd0']
    rfl

/-! Blueprint characterization. -/

theorem filterMap_congr_mem {α β : Type} {l : List α} {f g : α → Option β}
    (h : ∀ x ∈ l, f x = g x) : l.filterMap f = l.filterMap g := by
  induction l with
  | nil => rfl
  | cons x l ih =>
    rw [List.filterMap_cons, List.filterMap_cons, h x (by simp),
      ih (fun y hy => h y (by simp [hy]))]

theorem map_congr_mem {α β : Type} {l : List α} {f g : α → β}
    (h : ∀ x ∈ l, f x = g x) : l.map f = l.map g :=
  List.map_congr_left h

theorem mem_treeBfs_iff {t s : ITree} : s ∈ treeBfs [t] ↔ s ∈ t.allNodes := by
  rw [(treeBfs_perm [t]).mem_iff]
  simp

theorem mem_allNodes_of_mem_bfsInternals {t s : ITree}
    (h : s ∈ bfsInternals t) : s ∈ t.allNodes := by
  rw [bfsInternals, List.mem_filter] at h
  exact mem_treeBfs_iff.mp h.1

theorem mem_allNodes_of_mem_bfsLeaves {t s : ITree}
    (h : s ∈ bfsLeaves t) : s ∈ t.allNodes := by
  rw [bfsLeaves, List.mem_filter] at h
  exact mem_treeBfs_iff.mp h.1

theorem mem_bfsInternals_of_internal {t s : ITree} (hs : s ∈ t.allNodes)
    (hint : s.labelOf.isInternal = true) : s ∈ bfsInternals t := by
  rw [bfsInternals, List.mem_filter]
  exact ⟨mem_treeBfs_iff.mpr hs, hint⟩

theorem mem_bfsLeaves_of_leaf {t s : ITree} (hs : s ∈ t.allNodes)
    (hleaf : s.labelOf.isLeaf = true) : s ∈ bfsLeaves t := by
  rw [bfsLeaves, List.mem_filter]
  exact ⟨mem_treeBfs_iff.mpr hs, hleaf⟩

theorem to_blueprint_spec {L : Layout} {t : ITree} (hw : WFL L t) :
    L.to_blueprint = ⟨repSpec t, L.canvas_dimensions.width,
      L.canvas_dimensions.height⟩ := by
  rw [Layout.to_blueprint]
  have hbfs : L.graph.bfsFrom L.graph.rootIdx = (treeBfs [t]).map ITree.idx := by
    rw [hw.rootIdx_eq, hw.bfs_eq]
  rw [LayoutGraph.subtreeToBlueprint]
  simp only [hbfs]
  have hbwni : ((treeBfs [t]).map ITree.idx).filterMap (fun i =>
      if ((L.graph.label? i).map NodeLabel.isInternal).getD false then
        some (i, match L.graph.children? i with
                 | some (l, r) => [l, r]
                 | none => [])
      else none) =
      (bfsInternals t).map (fun s => (s.idx, s.childTrees.map ITree.idx)) := by
    rw [List.filterMap_map]
    have hcongr : ∀ s ∈ treeBfs [t],
        ((fun i =>
          if ((L.graph.label? i).map NodeLabel.isInternal).getD false then
            some (i, match L.graph.children? i with
                     | some (l, r) => [l, r]
                     | none => [])
          else none) ∘ ITree.idx) s =
        (fun s => if s.labelOf.isInternal then
          some (s.idx, s.childTrees.map ITree.idx) else none) s := by
      intro s hsm
      have hsa : s ∈ t.allNodes := mem_treeBfs_iff.mp hsm
      have hsp := spans_of_mem hw.1 hsa
      have hlab := spans_label hsp
      simp only [Function.comp, hlab, Option.map_some', Option.getD_some]
      cases s with
      | leaf i img => simp [ITree.labelOf, NodeLabel.isInternal]
      | node i d l r =>
        have hch := (spans_node hsp).2.2.1
        simp [hch, ITree.labelOf, NodeLabel.isInternal, ITree.childTrees,
          ITree.idx]
    rw [filterMap_congr_mem hcongr, filterMap_eq_map_filter]
    rfl
  rw [hbwni]
  congr 1
  rw [List.map_map, repSpec]
  apply map_congr_mem
  intro s hsm
  have hsa : s ∈ t.allNodes := mem_allNodes_of_mem_bfsInternals hsm
  have hsp := spans_of_mem hw.1 hsa
  have hsint : s.labelOf.isInternal = true := by
    rw [bfsInternals, List.mem_filter] at hsm
    exact hsm.2
  cases s with
  | leaf i img => simp [ITree.labelOf, NodeLabel.isInternal] at hsint
  | node i d l r =>
    obtain ⟨hlab, -, hch, -, -⟩ := spans_node hsp
    simp only [Function.comp]
    congr 1
    · show (match L.graph.label? i with
        | some (NodeLabel.internal d) => dirCode d
        | _ => "V") =
        (match (ITree.node i d l r).labelOf with
         | NodeLabel.internal d => dirCode d
         | NodeLabel.leaf _ => "V")
      rw [hlab]
      rfl
    · show (([l, r] : List ITree).map ITree.idx).filterMap (fun c =>
          if ((L.graph.label? c).map NodeLabel.isInternal).getD false then
            some ((((bfsInternals t).map (fun s =>
              (s.idx, s.childTrees.map ITree.idx))).findIdx?
                (fun q => q.1 == c)).getD 0)
          else none) =
        (intChildren (ITree.node i d l r)).map (fun c =>
          posOf ((bfsInternals t).map ITree.idx) c.idx)
      rw [List.filterMap_map]
      refine Eq.trans (filterMap_congr_mem ?_)
        (filterMap_eq_map_filter (fun c => c.labelOf.isInternal)
          (fun c => posOf ((bfsInternals t).map ITree.idx) c.idx) [l, r])
      intro c hcm
      have hca : c ∈ t.allNodes := ITree.child_mem_allNodes hsa hcm
      have hclab := spans_label (spans_of_mem hw.1 hca)
      simp only [Function.comp, hclab, Option.map_some', Option.getD_some]
      by_cases hcint : c.labelOf.isInternal = true
      · rw [if_pos hcint, if_pos hcint]
        have hcI : c ∈ bfsInternals t := mem_bfsInternals_of_internal hca hcint
        have hcidx : c.idx ∈ (bfsInternals t).map ITree.idx :=
          List.mem_map_of_mem ITree.idx hcI
        have hfi2 : ((bfsInternals t).findIdx? ((fun q => q.1 == c.idx) ∘
            (fun s => (s.idx, s.childTrees.map ITree.idx)))) =
            some (posOf ((bfsInternals t).map ITree.idx) c.idx) := by
          have hfi := findIdx?_eq_some_posOf hcidx
          rw [List.findIdx?_map] at hfi
          exact hfi
        rw [List.findIdx?_map, hfi2]
        rfl
      · rw [if_neg hcint, if_neg hcint]

/-! Reconstruction analysis: parsing, edge insertion, and list positions. -/

theorem subtree_indexList_nodup {t : ITree} (hnd : t.indexList.Nodup) :
    ∀ s ∈ t.allNodes, s.indexList.Nodup := by
  induction t with
  | leaf i img =>
    intro s hs
    simp only [ITree.allNodes, List.mem_singleton] at hs
    subst hs
    exact hnd
  | node i d l r ihl ihr =>
    intro s hs
    rw [indexList_node, List.nodup_cons, List.nodup_append] at hnd
    rw [ITree.allNodes, List.mem_cons] at hs
    rcases hs with rfl | hs
    · rw [indexList_node, List.nodup_cons, List.nodup_append]
      exact hnd
    · rcases List.mem_append.mp hs with hs | hs
      · exact ihl hnd.2.1 s hs
      · exact ihr hnd.2.2.1 s hs

theorem child_idx_ne {t : ITree} (hnd : t.indexList.Nodup) {i : Nat}
    {d : SliceDirection} {l r : ITree}
    (hm : ITree.node i d l r ∈ t.allNodes) : l.idx ≠ r.idx := by
  have hs := subtree_indexList_nodup hnd _ hm
  rw [indexList_node, List.nodup_cons, List.nodup_append] at hs
  intro he
  exact hs.2.2.2 (he ▸ mem_indexList_of_mem_allNodes l.mem_allNodes_self)
    (mem_indexList_of_mem_allNodes r.mem_allNodes_self)

theorem nodup_flatMap_of {α β : Type} (f : α → List β) :
    ∀ (l : List α), (∀ x ∈ l, (f x).Nodup) →
      (∀ x ∈ l, ∀ y ∈ l, ∀ b, b ∈ f x → b ∈ f y → x = y) →
      l.Nodup → (l.flatMap f).Nodup := by
  intro l
  induction l with
  | nil => intro _ _ _; simp
  | cons x l ih =>
    intro h1 h2 hnd
    rcases List.nodup_cons.mp hnd with ⟨hxm, hnd'⟩
    rw [List.flatMap_cons, List.nodup_append]
    refine ⟨h1 x (by simp), ?_, ?_⟩
    · exact ih (fun y hy => h1 y (by simp [hy]))
        (fun y hy z hz b hb hb2 => h2 y (by simp [hy]) z (by simp [hz]) b hb hb2)
        hnd'
    · intro b hb hbm
      rw [List.mem_flatMap] at hbm
      obtain ⟨y, hy, hby⟩ := hbm
      have := h2 x (by simp) y (by simp [hy]) b hb hby
      exact hxm (this ▸ hy)

theorem bfs_idx_nodup_nd {t : ITree} (hnd : t.indexList.Nodup) :
    ((treeBfs [t]).map ITree.idx).Nodup := by
  have hperm : ((treeBfs [t]).map ITree.idx).Perm t.indexList := by
    have := (treeBfs_perm [t]).map ITree.idx
    simpa [ITree.indexList] using this
  exact hperm.nodup_iff.mpr hnd

theorem bfsInternals_idx_nodup_nd {t : ITree} (hnd : t.indexList.Nodup) :
    ((bfsInternals t).map ITree.idx).Nodup :=
  (bfs_idx_nodup_nd hnd).sublist ((List.filter_sublist _).map _)

theorem bfsLeaves_idx_nodup_nd {t : ITree} (hnd : t.indexList.Nodup) :
    ((bfsLeaves t).map ITree.idx).Nodup :=
  (bfs_idx_nodup_nd hnd).sublist ((List.filter_sublist _).map _)

theorem WFL.bfs_idx_nodup {L : Layout} {t : ITree} (hw : WFL L t) :
    ((treeBfs [t]).map ITree.idx).Nodup :=
  bfs_idx_nodup_nd hw.nodup

theorem WFL.bfsInternals_idx_nodup {L : Layout} {t : ITree} (hw : WFL L t) :
    ((bfsInternals t).map ITree.idx).Nodup :=
  bfsInternals_idx_nodup_nd hw.nodup

theorem WFL.bfsLeaves_idx_nodup {L : Layout} {t : ITree} (hw : WFL L t) :
    ((bfsLeaves t).map ITree.idx).Nodup :=
  bfsLeaves_idx_nodup_nd hw.nodup

theorem WFL.notMem_internals_idx {L : Layout} {t : ITree} (hw : WFL L t)
    {c : ITree} (hc : c ∈ t.allNodes) (hl : c.labelOf.isLeaf = true) :
    c.idx ∉ (bfsInternals t).map ITree.idx := by
  intro hmem
  rw [List.mem_map] at hmem
  obtain ⟨u, huI, hui⟩ := hmem
  have hua : u ∈ t.allNodes := mem_allNodes_of_mem_bfsInternals huI
  have huint : u.labelOf.isInternal = true := by
    rw [bfsInternals, List.mem_filter] at huI
    exact huI.2
  have : u = c := idx_inj_of_nodup hw.nodup hua hc hui
  subst this
  cases hlab : u.labelOf with
  | internal d => rw [hlab] at hl; simp [NodeLabel.isLeaf] at hl
  | leaf im => rw [hlab] at huint; simp [NodeLabel.isInternal] at huint

theorem piMap_internal {L : Layout} {t : ITree} (hw : WFL L t)
    {c : ITree} (hc : c ∈ t.allNodes) (hl : c.labelOf.isInternal = true) :
    piMap t c.idx = posOf ((bfsInternals t).map ITree.idx) c.idx := by
  rw [piMap, if_pos (List.mem_map_of_mem ITree.idx
    (mem_bfsInternals_of_internal hc hl))]

theorem piMap_leaf {L : Layout} {t : ITree} (hw : WFL L t)
    {c : ITree} (hc : c ∈ t.allNodes) (hl : c.labelOf.isLeaf = true) :
    piMap t c.idx = (bfsInternals t).length +
      posOf ((bfsLeaves t).map ITree.idx) c.idx := by
  rw [piMap, if_neg (hw.notMem_internals_idx hc hl)]

theorem parseLabel_dirCode (d : SliceDirection) :
    parseLabel (dirCode d) = .ok (.internal d) := by
  cases d <;> rfl

theorem isLeaf_eq_not_isInternal (l : NodeLabel) :
    l.isLeaf = !l.isInternal := by
  cases l <;> rfl

theorem parseLabels_repSpec (pos : Nat → Nat) :
    ∀ (I : List ITree), (∀ s ∈ I, s.labelOf.isInternal = true) →
      parseLabels (I.map (fun s =>
        (match s.labelOf with
         | .internal d => dirCode d
         | .leaf _ => "V",
         (intChildren s).map (fun c => pos c.idx)))) =
      .ok (I.map ITree.labelOf) := by
  intro I
  induction I with
  | nil => intro _; rfl
  | cons s rest ih =>
    intro h
    have hs := h s (by simp)
    rw [List.map_cons, parseLabels]
    cases hl : s.labelOf with
    | leaf im =>
      rw [hl] at hs
      simp [NodeLabel.isInternal] at hs
    | internal d =>
      simp only [hl, parseLabel_dirCode,
        ih (fun x hx => h x (by simp [hx])), List.map_cons, hl]

theorem foldl_updateEdge_edges_inner :
    ∀ (cs : List Nat) (g : LayoutGraph) (p : Nat),
      (∀ c ∈ cs, ∀ e ∈ g.edges, e.2 ≠ c) → cs.Nodup →
      (cs.foldl (fun g2 c => g2.updateEdge p c) g).edges =
        g.edges ++ cs.map (fun c => (p, c)) := by
  intro cs
  induction cs with
  | nil => intro g p _ _; simp
  | cons c rest ih =>
    intro g p h hnd
    rcases List.nodup_cons.mp hnd with ⟨hcm, hnd'⟩
    rw [List.foldl_cons]
    have hnotmem : (p, c) ∉ g.edges := by
      intro hmem
      exact h c (by simp) (p, c) hmem rfl
    have hupd : (g.updateEdge p c).edges = g.edges ++ [(p, c)] :=
      edges_updateEdge_notMem hnotmem
    have hcond : ∀ x ∈ rest, ∀ e ∈ (g.updateEdge p c).edges, e.2 ≠ x := by
      intro x hx e he
      rw [hupd, List.mem_append] at he
      rcases he with he | he
      · exact h x (by simp [hx]) e he
      · simp only [List.mem_singleton] at he
        subst he
        intro hc
        have hc2 : c = x := hc
        exact hcm (by rw [hc2]; exact hx)
    rw [ih (g.updateEdge p c) p hcond hnd', hupd, List.map_cons,
      List.append_assoc, List.singleton_append]

theorem addBlueprintEdges_edges_spec :
    ∀ (rep : List (String × List Nat)) (g : LayoutGraph) (s : Nat),
      (∀ e ∈ g.edges, ∀ c ∈ rep.flatMap (fun pc => pc.2), e.2 ≠ c) →
      (rep.flatMap (fun pc => pc.2)).Nodup →
      ((rep.enumFrom s).foldl
        (fun g2 pc => pc.2.2.foldl (fun g3 c => g3.updateEdge pc.1 c) g2)
        g).edges =
      g.edges ++ (rep.enumFrom s).flatMap
        (fun pc => pc.2.2.map (fun c => (pc.1, c))) := by
  intro rep
  induction rep with
  | nil => intro g s _ _; simp
  | cons p rest ih =>
    intro g s h hnd
    rw [List.enumFrom_cons, List.foldl_cons, List.flatMap_cons]
    rw [List.flatMap_cons, List.nodup_append] at hnd
    have hfirst : ∀ c ∈ p.2, ∀ e ∈ g.edges, e.2 ≠ c := by
      intro c hc e he
      apply h e he c
      rw [List.flatMap_cons, List.mem_append]
      exact Or.inl hc
    have hinner := foldl_updateEdge_edges_inner p.2 g s hfirst hnd.1
    have hcond : ∀ e ∈ (p.2.foldl (fun g3 c => g3.updateEdge s c) g).edges,
        ∀ c ∈ rest.flatMap (fun pc => pc.2), e.2 ≠ c := by
      intro e he c hc
      rw [hinner, List.mem_append] at he
      rcases he with he | he
      · apply h e he c
        rw [List.flatMap_cons, List.mem_append]
        exact Or.inr hc
      · rw [List.mem_map] at he
        obtain ⟨c2, hc2, rfl⟩ := he
        intro heq
        have heq2 : c2 = c := heq
        exact hnd.2.2 hc2 (by rw [heq2]; exact hc)
    rw [ih _ (s + 1) hcond hnd.2.1, hinner, List.append_assoc]

theorem addBlueprintEdges_edges_eq (labels : List NodeLabel)
    (rep : List (String × List Nat))
    (hnd : (rep.flatMap (fun pc => pc.2)).Nodup) :
    (addBlueprintEdges ⟨labels, []⟩ rep).edges =
      (rep.enumFrom 0).flatMap
        (fun pc => pc.2.2.map (fun c => (pc.1, c))) := by
  rw [addBlueprintEdges, List.enum_eq_enumFrom]
  have hsp := addBlueprintEdges_edges_spec rep ⟨labels, []⟩ 0
    (fun e he => by simp at he) hnd
  rw [hsp]
  rfl

theorem posOf_inj {lst : List Nat} {a b : Nat} (ha : a ∈ lst) (hb : b ∈ lst)
    (h : posOf lst a = posOf lst b) : a = b := by
  have h1 := get?_posOf ha
  have h2 := get?_posOf hb
  rw [h] at h1
  rw [h1] at h2
  injection h2

theorem bfsLeaves_flatMap {t : ITree} (hroot : t.labelOf.isInternal = true) :
    bfsLeaves t = (bfsInternals t).flatMap leafChildren := by
  rw [bfsLeaves, treeBfs_filter]
  have h1 : (([t] : List ITree).filter (fun s => s.labelOf.isLeaf)) = [] := by
    simp [isLeaf_eq_not_isInternal, hroot]
  rw [h1, List.nil_append, bfsInternals]
  have hcond : ∀ s ∈ treeBfs [t], s.labelOf.isInternal = false →
      leafChildren s = [] := by
    intro s hs hint
    cases s with
    | leaf i img => rfl
    | node i d l r =>
      rw [ITree.labelOf] at hint
      simp [NodeLabel.isInternal] at hint
  rw [flatMap_filter_of_nil (fun s => s.labelOf.isInternal)
    leafChildren _ hcond]
  rfl

theorem length_filter_partition {α : Type} (p : α → Bool) (l : List α) :
    (l.filter p).length + (l.filter (fun x => !(p x))).length = l.length := by
  induction l with
  | nil => rfl
  | cons x l ih =>
    rw [List.filter_cons, List.filter_cons]
    cases hp : p x <;> simp [hp] <;> omega

theorem children_count (i : Nat) (d : SliceDirection) (l r : ITree) :
    (intChildren (ITree.node i d l r)).length +
      (leafChildren (ITree.node i d l r)).length = 2 := by
  rw [intChildren, leafChildren]
  have : (ITree.node i d l r).childTrees.filter
      (fun c => c.labelOf.isLeaf) =
      (ITree.node i d l r).childTrees.filter
      (fun c => !(c.labelOf.isInternal)) := by
    apply List.filter_congr
    intro c _
    rw [isLeaf_eq_not_isInternal]
  rw [this, length_filter_partition]
  rfl

theorem intChildren_idx_nodup {t : ITree} (hnd : t.indexList.Nodup)
    {s : ITree} (hs : s ∈ t.allNodes) :
    ((intChildren s).map ITree.idx).Nodup := by
  cases s with
  | leaf i img => simp [intChildren, ITree.childTrees]
  | node i d l r =>
    have hne : l.idx ≠ r.idx := child_idx_ne hnd hs
    have hsub : ((intChildren (ITree.node i d l r)).map ITree.idx).Sublist
        ([l, r].map ITree.idx) :=
      (List.filter_sublist _).map _
    refine hsub.nodup ?_
    simp [hne]

theorem mem_intChildren {s c : ITree} (hc : c ∈ intChildren s) :
    c ∈ s.childTrees ∧ c.labelOf.isInternal = true := by
  rw [intChildren, List.mem_filter] at hc
  exact hc

theorem mem_leafChildren {s c : ITree} (hc : c ∈ leafChildren s) :
    c ∈ s.childTrees ∧ c.labelOf.isLeaf = true := by
  rw [leafChildren, List.mem_filter] at hc
  exact hc

theorem repSpec_flat_nodup {t : ITree} (hnd : t.indexList.Nodup) :
    (((repSpec t).flatMap (fun pc => pc.2))).Nodup := by
  rw [repSpec, List.flatMap_map]
  have hIal : ∀ s ∈ bfsInternals t, s ∈ t.allNodes :=
    fun s hs => mem_allNodes_of_mem_bfsInternals hs
  apply nodup_flatMap_of
  · intro s hs
    simp only [Function.comp]
    have hndc := intChildren_idx_nodup hnd (hIal s hs)
    refine List.Nodup.map_on ?_ ?_
    · intro c1 hc1 c2 hc2 hpos
      obtain ⟨hc1m, hc1i⟩ := mem_intChildren hc1
      obtain ⟨hc2m, hc2i⟩ := mem_intChildren hc2
      have hc1a : c1 ∈ t.allNodes :=
        ITree.child_mem_allNodes (hIal s hs) hc1m
      have hc2a : c2 ∈ t.allNodes :=
        ITree.child_mem_allNodes (hIal s hs) hc2m
      have h1 : c1.idx ∈ (bfsInternals t).map ITree.idx :=
        List.mem_map_of_mem ITree.idx (mem_bfsInternals_of_internal hc1a hc1i)
      have h2 : c2.idx ∈ (bfsInternals t).map ITree.idx :=
        List.mem_map_of_mem ITree.idx (mem_bfsInternals_of_internal hc2a hc2i)
      exact idx_inj_of_nodup hnd hc1a hc2a (posOf_inj h1 h2 hpos)
    · exact hndc.of_map
  · intro x hx y hy b hbx hby
    simp only [Function.comp, List.mem_map] at hbx hby
    obtain ⟨c1, hc1, rfl⟩ := hbx
    obtain ⟨c2, hc2, hposeq⟩ := hby
    obtain ⟨hc1m, hc1i⟩ := mem_intChildren hc1
    obtain ⟨hc2m, hc2i⟩ := mem_intChildren hc2
    have hc1a : c1 ∈ t.allNodes := ITree.child_mem_allNodes (hIal x hx) hc1m
    have hc2a : c2 ∈ t.allNodes := ITree.child_mem_allNodes (hIal y hy) hc2m
    have h1 : c1.idx ∈ (bfsInternals t).map ITree.idx :=
      List.mem_map_of_mem ITree.idx (mem_bfsInternals_of_internal hc1a hc1i)
    have h2 : c2.idx ∈ (bfsInternals t).map ITree.idx :=
      List.mem_map_of_mem ITree.idx (mem_bfsInternals_of_internal hc2a hc2i)
    have hcc : c2.idx = c1.idx := posOf_inj h2 h1 hposeq
    exact ((child_parent_unique hnd) y (hIal y hy) x (hIal x hx)
      c2 hc2m c1 hc1m hcc).1.symm
  · exact (bfsInternals_idx_nodup_nd hnd).of_map

theorem filter_fst_enumBlocks {α : Type} (f : α → List Nat) :
    ∀ (l : List α) (s q : Nat),
      (((l.enumFrom s).flatMap
        (fun pc => (f pc.2).map (fun c => (pc.1, c)))).filter
        (fun e => e.1 == q)) =
      (if s ≤ q then (((l.get? (q - s)).map f).getD []).map
        (fun c => (q, c)) else []) := by
  intro l
  induction l with
  | nil =>
    intro s q
    simp only [List.enumFrom_nil, List.flatMap_nil, List.filter_nil,
      List.get?_nil, Option.map_none', Option.getD_none, List.map_nil]
    rw [ite_self]
  | cons x l ih =>
    intro s q
    rw [List.enumFrom_cons, List.flatMap_cons, List.filter_append, ih (s + 1) q]
    by_cases hsq : q = s
    · subst hsq
      have hfull : ((f x).map (fun c => (q, c))).filter
          (fun e => e.1 == q) = (f x).map (fun c => (q, c)) := by
        apply List.filter_eq_self.mpr
        intro a ha
        simp only [List.mem_map] at ha
        obtain ⟨c, -, rfl⟩ := ha
        simp
      rw [hfull, if_neg (by omega), if_pos (by omega)]
      simp
    · have hnil : ((f x).map (fun c => (s, c))).filter
          (fun e => e.1 == q) = [] := by
        rw [List.filter_eq_nil_iff]
        intro a ha
        simp only [List.mem_map] at ha
        obtain ⟨c, -, rfl⟩ := ha
        simp
        omega
      rw [hnil, List.nil_append]
      by_cases hle : s ≤ q
      · rw [if_pos (by omega), if_pos hle]
        have : q - s = (q - (s + 1)) + 1 := by omega
        rw [this, List.get?_cons_succ]
      · rw [if_neg (by omega), if_neg hle]

theorem fillEdgesSpec_cons (g : LayoutGraph) (i : Nat) (rest : List Nat)
    (b : Nat) :
    fillEdgesSpec g (i :: rest) b =
      ((List.range (2 - g.outDeg i)).map (fun k => (i, b + k))) ++
        fillEdgesSpec g rest (b + (2 - g.outDeg i)) := rfl

theorem fillEdgesSpec_filter_deg (g : LayoutGraph) :
    ∀ (os : List Nat) (b : Nat),
      fillEdgesSpec g (os.filter (fun i => g.outDeg i < 2)) b =
        fillEdgesSpec g os b := by
  intro os
  induction os with
  | nil => intro b; rfl
  | cons i rest ih =>
    intro b
    by_cases hd : g.outDeg i < 2
    · have hf : (i :: rest).filter (fun j => g.outDeg j < 2) =
          i :: rest.filter (fun j => g.outDeg j < 2) := by
        simp [hd]
      rw [hf, fillEdgesSpec_cons, fillEdgesSpec_cons, ih]
    · have hf : (i :: rest).filter (fun j => g.outDeg j < 2) =
          rest.filter (fun j => g.outDeg j < 2) := by
        simp [hd]
      have hz : 2 - g.outDeg i = 0 := by omega
      rw [hf, ih, fillEdgesSpec_cons, hz]
      simp

theorem sum_map_filter_zero {α : Type} (p : α → Bool) (f : α → Nat) :
    ∀ (l : List α), (∀ x ∈ l, p x = false → f x = 0) →
      ((l.filter p).map f).sum = (l.map f).sum := by
  intro l
  induction l with
  | nil => intro _; rfl
  | cons x l ih =>
    intro h
    have hrec := ih (fun y hy => h y (by simp [hy]))
    cases hp : p x
    · have hf : (x :: l).filter p = l.filter p := by simp [hp]
      rw [hf, hrec, List.map_cons, List.sum_cons, h x (by simp) hp]
      omega
    · have hf : (x :: l).filter p = x :: l.filter p := by simp [hp]
      rw [hf, List.map_cons, List.map_cons, List.sum_cons, List.sum_cons, hrec]

theorem sum_map_range_get {α : Type} (l : List α) (f : α → Nat) :
    ((List.range l.length).map
      (fun q => ((l.get? q).map f).getD 0)).sum = (l.map f).sum := by
  induction l with
  | nil => rfl
  | cons x l ih =>
    have hr : List.range (x :: l).length =
        0 :: (List.range l.length).map Nat.succ := by
      rw [List.length_cons, List.range_succ_eq_map]
    rw [hr, List.map_cons, List.sum_cons, List.map_map]
    have hcomp : ((fun q => (((x :: l).get? q).map f).getD 0) ∘ Nat.succ) =
        (fun q => ((l.get? q).map f).getD 0) := by
      funext q
      simp [Function.comp]
    rw [hcomp, ih]
    simp

theorem openIndices_all_internal {g : LayoutGraph}
    (h : ∀ l ∈ g.nodes, l.isInternal = true) :
    g.openIndices = g.indices.filter (fun i => g.outDeg i < 2) := by
  rw [LayoutGraph.openIndices]
  apply List.filter_congr
  intro i hi
  have hi2 : i < g.nodeCount := by
    simpa [LayoutGraph.indices] using hi
  obtain ⟨l, hl, hlm⟩ := label?_mem_of_lt hi2
  simp [hl, h l hlm]

theorem filter_fst_fillEdgesSpec_range1 (g : LayoutGraph) :
    ∀ (m s b q : Nat),
      (fillEdgesSpec g (List.range' s m) b).filter (fun e => e.1 == q) =
      (if s ≤ q ∧ q < s + m then
        (List.range (2 - g.outDeg q)).map (fun j =>
          (q, b + ((List.range' s (q - s)).map
            (fun p => 2 - g.outDeg p)).sum + j))
      else []) := by
  intro m
  induction m with
  | zero =>
    intro s b q
    rw [if_neg (by omega)]
    rfl
  | succ m ih =>
    intro s b q
    have hr : List.range' s (m + 1) = s :: List.range' (s + 1) m :=
      List.range'_succ s m 1
    rw [hr, fillEdgesSpec_cons, List.filter_append, ih (s + 1)]
    by_cases hsq : q = s
    · subst hsq
      have hfull : ((List.range (2 - g.outDeg q)).map
          (fun k => (q, b + k))).filter (fun e => e.1 == q) =
          (List.range (2 - g.outDeg q)).map (fun k => (q, b + k)) := by
        apply List.filter_eq_self.mpr
        intro a ha
        simp only [List.mem_map] at ha
        obtain ⟨c, -, rfl⟩ := ha
        simp
      rw [hfull, if_neg (by omega), if_pos (by omega)]
      simp
    · rw [filter_block_ne hsq, List.nil_append]
      by_cases hcond : s ≤ q ∧ q < s + (m + 1)
      · rw [if_pos (by omega), if_pos hcond]
        have hq : q - s = (q - (s + 1)) + 1 := by omega
        have hrange : List.range' s (q - s) =
            s :: List.range' (s + 1) (q - (s + 1)) := by
          rw [hq]
          exact List.range'_succ s _ 1
        rw [hrange, List.map_cons, List.sum_cons]
        apply List.map_congr_left
        intro j _
        congr 1
        omega
      · rw [if_neg (by omega), if_neg hcond]

/-! The reconstructed graph spans the relabelled tree. -/

theorem graph_eq_of_fields {g : LayoutGraph} {ns : List NodeLabel}
    {es : List (Nat × Nat)} (h1 : g.nodes = ns) (h2 : g.edges = es) :
    g = ⟨ns, es⟩ := by
  cases g
  simp_all

theorem addBlueprintEdges_repSpec {L : Layout} {t : ITree} (hw : WFL L t) :
    addBlueprintEdges ⟨(bfsInternals t).map ITree.labelOf, []⟩ (repSpec t) =
      reconG1 t :=
  graph_eq_of_fields
    (addBlueprintEdges_nodes ⟨(bfsInternals t).map ITree.labelOf, []⟩
      (repSpec t))
    (addBlueprintEdges_edges_eq ((bfsInternals t).map ITree.labelOf)
      (repSpec t) (repSpec_flat_nodup hw.nodup))

theorem get?_mem_bfs {lst : List ITree} {n : Nat} {u : ITree}
    (h : lst.get? n = some u) : u ∈ lst := by
  have := List.get?_eq_some.mp h
  obtain ⟨hlt, rfl⟩ := this
  exact List.get_mem _ _ _

theorem bfsInternals_get_posOf {t : ITree} (hnd : t.indexList.Nodup)
    {s : ITree} (hs : s ∈ bfsInternals t) :
    (bfsInternals t).get?
      (posOf ((bfsInternals t).map ITree.idx) s.idx) = some s := by
  have hmem : s.idx ∈ (bfsInternals t).map ITree.idx :=
    List.mem_map_of_mem ITree.idx hs
  have h1 := get?_posOf hmem
  rw [List.get?_map] at h1
  cases hu : (bfsInternals t).get?
      (posOf ((bfsInternals t).map ITree.idx) s.idx) with
  | none => rw [hu] at h1; simp at h1
  | some u =>
    rw [hu] at h1
    simp only [Option.map_some', Option.some.injEq] at h1
    have humem : u ∈ bfsInternals t := get?_mem_bfs hu
    have : u = s := idx_inj_of_nodup hnd
      (mem_allNodes_of_mem_bfsInternals humem)
      (mem_allNodes_of_mem_bfsInternals hs) h1
    rw [this]

theorem bfsLeaves_get_posOf {t : ITree} (hnd : t.indexList.Nodup)
    {s : ITree} (hs : s ∈ bfsLeaves t) :
    (bfsLeaves t).get?
      (posOf ((bfsLeaves t).map ITree.idx) s.idx) = some s := by
  have hmem : s.idx ∈ (bfsLeaves t).map ITree.idx :=
    List.mem_map_of_mem ITree.idx hs
  have h1 := get?_posOf hmem
  rw [List.get?_map] at h1
  cases hu : (bfsLeaves t).get?
      (posOf ((bfsLeaves t).map ITree.idx) s.idx) with
  | none => rw [hu] at h1; simp at h1
  | some u =>
    rw [hu] at h1
    simp only [Option.map_some', Option.some.injEq] at h1
    have humem : u ∈ bfsLeaves t := get?_mem_bfs hu
    have : u = s := idx_inj_of_nodup hnd
      (mem_allNodes_of_mem_bfsLeaves humem)
      (mem_allNodes_of_mem_bfsLeaves hs) h1
    rw [this]

theorem repSpec_get? {t : ITree} (hnd : t.indexList.Nodup)
    {s : ITree} (hs : s ∈ bfsInternals t) :
    (repSpec t).get? (posOf ((bfsInternals t).map ITree.idx) s.idx) =
      some (match s.labelOf with
            | .internal d => dirCode d
            | .leaf _ => "V",
        (intChildren s).map (fun c =>
          posOf ((bfsInternals t).map ITree.idx) c.idx)) := by
  rw [repSpec, List.get?_map, bfsInternals_get_posOf hnd hs]
  rfl

theorem reconE1_filter {t : ITree} (hnd : t.indexList.Nodup)
    {s : ITree} (hs : s ∈ bfsInternals t) :
    (reconE1 t).filter (fun e =>
      e.1 == posOf ((bfsInternals t).map ITree.idx) s.idx) =
      (intChildren s).map (fun c =>
        (posOf ((bfsInternals t).map ITree.idx) s.idx,
         posOf ((bfsInternals t).map ITree.idx) c.idx)) := by
  rw [reconE1, filter_fst_enumBlocks Prod.snd (repSpec t) 0
    (posOf ((bfsInternals t).map ITree.idx) s.idx)]
  rw [if_pos (Nat.zero_le _), Nat.sub_zero, repSpec_get? hnd hs]
  rw [Option.map_some', Option.getD_some, List.map_map]
  rfl

theorem reconG1_outDeg {t : ITree} (hnd : t.indexList.Nodup)
    {s : ITree} (hs : s ∈ bfsInternals t) :
    (reconG1 t).outDeg (posOf ((bfsInternals t).map ITree.idx) s.idx) =
      (intChildren s).length := by
  rw [outDeg_eq_filter]
  have : (reconG1 t).edges = reconE1 t := rfl
  rw [this, reconE1_filter hnd hs, List.length_map]

theorem internal_is_node {s : ITree} (h : s.labelOf.isInternal = true) :
    ∃ i d l r, s = ITree.node i d l r := by
  cases s with
  | leaf i img => simp [ITree.labelOf, NodeLabel.isInternal] at h
  | node i d l r => exact ⟨i, d, l, r, rfl⟩

theorem reconG1_slots {t : ITree} (hnd : t.indexList.Nodup)
    {s : ITree} (hs : s ∈ bfsInternals t) :
    2 - (reconG1 t).outDeg (posOf ((bfsInternals t).map ITree.idx) s.idx) =
      (leafChildren s).length := by
  rw [reconG1_outDeg hnd hs]
  have hsint : s.labelOf.isInternal = true := by
    rw [bfsInternals, List.mem_filter] at hs
    exact hs.2
  obtain ⟨i, d, l, r, rfl⟩ := internal_is_node hsint
  have := children_count i d l r
  omega

theorem posOf_lt_length_of_mem_map {lst : List ITree} {s : ITree}
    (hs : s ∈ lst) (f : ITree → Nat) :
    posOf (lst.map f) (f s) < lst.length := by
  have := posOf_lt_length (List.mem_map_of_mem f hs)
  simpa using this

theorem sum_range_slots {t : ITree} (q : Nat)
    (hq : q ≤ (bfsInternals t).length)
    (hALL : ∀ u ∈ bfsInternals t, ∀ p : Nat,
      (bfsInternals t).get? p = some u →
      (reconG1 t).outDeg p = (intChildren u).length) :
    ((List.range' 0 q).map (fun p => 2 - (reconG1 t).outDeg p)).sum =
      (((bfsInternals t).take q).map
        (fun u => (leafChildren u).length)).sum := by
  have hpt : ∀ p ∈ List.range' 0 q,
      2 - (reconG1 t).outDeg p =
        ((((bfsInternals t).take q).get? p).map
          (fun u => (leafChildren u).length)).getD 0 := by
    intro p hp
    rw [List.mem_range'_1] at hp
    have hplt : p < q := by omega
    have hget : ((bfsInternals t).take q).get? p =
        (bfsInternals t).get? p := List.get?_take hplt
    cases hu : (bfsInternals t).get? p with
    | none =>
      rw [List.get?_eq_none] at hu
      omega
    | some u =>
      have humem : u ∈ bfsInternals t := get?_mem_bfs hu
      have hsint : u.labelOf.isInternal = true := by
        rw [bfsInternals, List.mem_filter] at humem
        exact humem.2
      obtain ⟨i, d, l, r, hurw⟩ := internal_is_node hsint
      rw [hget, hu, Option.map_some', Option.getD_some, hALL u humem p hu]
      have := children_count i d l r
      rw [hurw]
      omega
  rw [map_congr_mem hpt]
  have hlen : ((bfsInternals t).take q).length = q := by
    rw [List.length_take]
    omega
  have := sum_map_range_get ((bfsInternals t).take q)
    (fun u => (leafChildren u).length)
  rw [hlen] at this
  rw [← this]
  congr 1
  rw [List.range_eq_range']

theorem reconG1_outDeg_get {t : ITree} (hnd : t.indexList.Nodup)
    {u : ITree} {p : Nat} (hu : (bfsInternals t).get? p = some u) :
    (reconG1 t).outDeg p = (intChildren u).length := by
  have humem := get?_mem_bfs hu
  have hpos : posOf ((bfsInternals t).map ITree.idx) u.idx = p := by
    apply posOf_of_get? (bfsInternals_idx_nodup_nd hnd)
    rw [List.get?_map, hu]
    rfl
  rw [← hpos]
  exact reconG1_outDeg hnd humem

theorem reconE2_filter {L : Layout} {t : ITree} (hw : WFL L t)
    {s : ITree} (hs : s ∈ bfsInternals t) :
    (fillEdgesSpec (reconG1 t) (List.range (bfsInternals t).length)
      (bfsInternals t).length).filter (fun e =>
      e.1 == posOf ((bfsInternals t).map ITree.idx) s.idx) =
      (List.range (leafChildren s).length).map (fun j =>
        (posOf ((bfsInternals t).map ITree.idx) s.idx,
         (bfsInternals t).length +
           (((bfsInternals t).take (posOf ((bfsInternals t).map ITree.idx)
             s.idx)).map (fun u => (leafChildren u).length)).sum + j)) := by
  rw [List.range_eq_range', filter_fst_fillEdgesSpec_range1]
  have hqlt : posOf ((bfsInternals t).map ITree.idx) s.idx <
      (bfsInternals t).length := posOf_lt_length_of_mem_map hs ITree.idx
  rw [if_pos ⟨Nat.zero_le _, by omega⟩]
  simp only [Nat.sub_zero]
  rw [reconG1_slots hw.nodup hs]
  rw [sum_range_slots _ (by omega)
    (fun u hu p hp => reconG1_outDeg_get hw.nodup hp)]

theorem reconGraph_label_int {L : Layout} {t : ITree} (hw : WFL L t)
    {s : ITree} (hs : s ∈ bfsInternals t) :
    (reconGraph t).label?
      (posOf ((bfsInternals t).map ITree.idx) s.idx) = some s.labelOf := by
  rw [LayoutGraph.label?]
  have hshow : (reconGraph t).nodes =
      (bfsInternals t).map ITree.labelOf ++
      (bfsLeaves t).map ITree.labelOf := rfl
  rw [hshow]
  have hlt : posOf ((bfsInternals t).map ITree.idx) s.idx <
      ((bfsInternals t).map ITree.labelOf).length := by
    rw [List.length_map]
    exact posOf_lt_length_of_mem_map hs ITree.idx
  rw [List.get?_append hlt, List.get?_map,
    bfsInternals_get_posOf hw.nodup hs]
  rfl

theorem reconGraph_label_leaf {L : Layout} {t : ITree} (hw : WFL L t)
    {s : ITree} (hs : s ∈ bfsLeaves t) :
    (reconGraph t).label? ((bfsInternals t).length +
      posOf ((bfsLeaves t).map ITree.idx) s.idx) = some s.labelOf := by
  rw [LayoutGraph.label?]
  have hshow : (reconGraph t).nodes =
      (bfsInternals t).map ITree.labelOf ++
      (bfsLeaves t).map ITree.labelOf := rfl
  rw [hshow]
  have hge : ((bfsInternals t).map ITree.labelOf).length ≤
      (bfsInternals t).length +
        posOf ((bfsLeaves t).map ITree.idx) s.idx := by
    rw [List.length_map]
    omega
  rw [List.get?_append_right hge]
  simp only [List.length_map]
  have hidx : (bfsInternals t).length +
      posOf ((bfsLeaves t).map ITree.idx) s.idx -
      (bfsInternals t).length =
      posOf ((bfsLeaves t).map ITree.idx) s.idx := by omega
  rw [hidx, List.get?_map, bfsLeaves_get_posOf hw.nodup hs]
  rfl

theorem reconE1_src_lt {t : ITree} :
    ∀ e ∈ reconE1 t, e.1 < (bfsInternals t).length := by
  intro e he
  rw [reconE1, List.mem_flatMap] at he
  obtain ⟨pc, hpc, hepc⟩ := he
  rw [List.mem_map] at hepc
  obtain ⟨c, -, rfl⟩ := hepc
  have := List.mem_enumFrom hpc
  have hlen : (repSpec t).length = (bfsInternals t).length := by
    rw [repSpec, List.length_map]
  simp only [Nat.zero_add] at this
  omega

theorem reconGraph_outDeg_int {L : Layout} {t : ITree} (hw : WFL L t)
    {s : ITree} (hs : s ∈ bfsInternals t) :
    (reconGraph t).outDeg
      (posOf ((bfsInternals t).map ITree.idx) s.idx) = 2 := by
  rw [outDeg_eq_filter]
  have hshow : (reconGraph t).edges = reconE1 t ++
      fillEdgesSpec (reconG1 t) (List.range (bfsInternals t).length)
        (bfsInternals t).length := rfl
  rw [hshow, List.filter_append, List.length_append,
    reconE1_filter hw.nodup hs,
    reconE2_filter hw hs]
  simp only [List.length_map, List.length_range]
  have hsint : s.labelOf.isInternal = true := by
    rw [bfsInternals, List.mem_filter] at hs
    exact hs.2
  obtain ⟨i, d, l, r, rfl⟩ := internal_is_node hsint
  exact children_count i d l r

theorem reconGraph_outDeg_leaf {L : Layout} {t : ITree} (hw : WFL L t)
    {j : Nat} (hj : (bfsInternals t).length ≤ j) :
    (reconGraph t).outDeg j = 0 := by
  rw [outDeg_eq_filter]
  have hshow : (reconGraph t).edges = reconE1 t ++
      fillEdgesSpec (reconG1 t) (List.range (bfsInternals t).length)
        (bfsInternals t).length := rfl
  rw [hshow, List.length_eq_zero, List.filter_eq_nil_iff]
  intro e he
  rw [List.mem_append] at he
  rcases he with he | he
  · have := reconE1_src_lt e he
    simp
    omega
  · obtain ⟨hsrc, -⟩ := fillEdgesSpec_mem (reconG1 t) _ _ e he
    rw [List.mem_range] at hsrc
    simp
    omega

theorem posOf_in_flatMap {α : Type} (f : α → List Nat) :
    ∀ (l : List α) (q : Nat) (hq : q < l.length) (b : Nat),
      (l.flatMap f).Nodup → b ∈ f (l.get ⟨q, hq⟩) →
      posOf (l.flatMap f) b =
        ((l.take q).map (fun x => (f x).length)).sum +
          posOf (f (l.get ⟨q, hq⟩)) b := by
  intro l
  induction l with
  | nil => intro q hq; simp at hq
  | cons x l ih =>
    intro q hq b hnd hb
    rw [List.flatMap_cons] at hnd ⊢
    rcases List.nodup_append.mp hnd with ⟨hnd1, hnd2, hdisj⟩
    cases q with
    | zero =>
      simp only [List.get] at hb ⊢
      rw [posOf_append_left hb]
      simp
    | succ q =>
      simp only [List.get] at hb ⊢
      have hql : q < l.length := by simpa using hq
      have hmem : b ∈ l.flatMap f := by
        rw [List.mem_flatMap]
        exact ⟨l.get ⟨q, hql⟩, List.get_mem _ _ _, hb⟩
      have hnotx : b ∉ f x := fun hin => hdisj hin hmem
      rw [posOf_append_right hnotx, ih q hql b hnd2 hb]
      rw [List.take_succ_cons]
      simp only [List.map_cons, List.sum_cons]
      omega

theorem bfsInternals_get_posOf2 {L : Layout} {t : ITree} (hw : WFL L t)
    {s : ITree} (hs : s ∈ bfsInternals t)
    (hq : posOf ((bfsInternals t).map ITree.idx) s.idx <
      (bfsInternals t).length) :
    (bfsInternals t).get
      ⟨posOf ((bfsInternals t).map ITree.idx) s.idx, hq⟩ = s := by
  have h := bfsInternals_get_posOf hw.nodup hs
  rw [List.get?_eq_get hq] at h
  injection h

theorem children?_of_outEdges {g : LayoutGraph} {i a b : Nat}
    (h : g.outEdges i = [(i, a), (i, b)]) :
    g.children? i = some (a, b) := by
  rw [LayoutGraph.children?, LayoutGraph.neighbors, h]
  rfl

theorem goodOrder_mem {t : ITree} (hg : t.goodOrder = true) :
    ∀ s ∈ t.allNodes, s.goodOrder = true := by
  induction t with
  | leaf i img =>
    intro s hs
    simp only [ITree.allNodes, List.mem_singleton] at hs
    subst hs
    rfl
  | node i d l r ihl ihr =>
    intro s hs
    rw [ITree.goodOrder] at hg
    simp only [Bool.and_eq_true] at hg
    rw [ITree.allNodes, List.mem_cons] at hs
    rcases hs with rfl | hs
    · rw [ITree.goodOrder]
      simp [hg.1.1, hg.1.2, hg.2]
    · rcases List.mem_append.mp hs with hs | hs
      · exact ihl hg.1.2 s hs
      · exact ihr hg.2 s hs

theorem isInternal_eq_not_isLeaf (l : NodeLabel) :
    l.isInternal = !l.isLeaf := by
  cases l <;> rfl

theorem reconGraph_children {L : Layout} {t : ITree} (hw : WFL L t)
    (hroot : t.labelOf.isInternal = true) (hgood : t.goodOrder = true)
    {i : Nat} {d : SliceDirection} {l r : ITree}
    (hs : ITree.node i d l r ∈ bfsInternals t) :
    (reconGraph t).children?
      (posOf ((bfsInternals t).map ITree.idx) (ITree.node i d l r).idx) =
      some (piMap t l.idx, piMap t r.idx) := by
  have hsa := mem_allNodes_of_mem_bfsInternals hs
  have hla : l ∈ t.allNodes :=
    ITree.child_mem_allNodes hsa (by simp [ITree.childTrees])
  have hra : r ∈ t.allNodes :=
    ITree.child_mem_allNodes hsa (by simp [ITree.childTrees])
  have hlrne : l.idx ≠ r.idx := child_idx_ne hw.nodup hsa
  have houtE : (reconGraph t).outEdges
      (posOf ((bfsInternals t).map ITree.idx) (ITree.node i d l r).idx) =
      (intChildren (ITree.node i d l r)).map (fun c =>
        (posOf ((bfsInternals t).map ITree.idx) (ITree.node i d l r).idx,
         posOf ((bfsInternals t).map ITree.idx) c.idx)) ++
      (List.range (leafChildren (ITree.node i d l r)).length).map (fun j =>
        (posOf ((bfsInternals t).map ITree.idx) (ITree.node i d l r).idx,
         (bfsInternals t).length +
           (((bfsInternals t).take (posOf ((bfsInternals t).map ITree.idx)
             (ITree.node i d l r).idx)).map
             (fun u => (leafChildren u).length)).sum + j)) := by
    rw [LayoutGraph.outEdges]
    have hshow : (reconGraph t).edges = reconE1 t ++
        fillEdgesSpec (reconG1 t) (List.range (bfsInternals t).length)
          (bfsInternals t).length := rfl
    rw [hshow, List.filter_append, reconE1_filter hw.nodup hs,
      reconE2_filter hw hs]
  have hq : posOf ((bfsInternals t).map ITree.idx)
      (ITree.node i d l r).idx < (bfsInternals t).length :=
    posOf_lt_length_of_mem_map hs ITree.idx
  have hVfm : (bfsLeaves t).map ITree.idx =
      (bfsInternals t).flatMap
        (fun u => (leafChildren u).map ITree.idx) := by
    rw [bfsLeaves_flatMap hroot, List.map_flatMap]
  have hVnd : ((bfsInternals t).flatMap
      (fun u => (leafChildren u).map ITree.idx)).Nodup := by
    rw [← hVfm]
    exact hw.bfsLeaves_idx_nodup
  have hget2 := bfsInternals_get_posOf2 hw hs hq
  have hleafpos : ∀ b,
      b ∈ (leafChildren (ITree.node i d l r)).map ITree.idx →
      posOf ((bfsLeaves t).map ITree.idx) b =
      (((bfsInternals t).take (posOf ((bfsInternals t).map ITree.idx)
        (ITree.node i d l r).idx)).map
        (fun u => (leafChildren u).length)).sum +
      posOf ((leafChildren (ITree.node i d l r)).map ITree.idx) b := by
    intro b hb
    rw [hVfm]
    have hkey := posOf_in_flatMap (fun u => (leafChildren u).map ITree.idx)
      (bfsInternals t) _ hq b hVnd (by rw [hget2]; exact hb)
    rw [hget2] at hkey
    simp only [List.length_map] at hkey
    exact hkey
  have hgs := goodOrder_mem hgood _ hsa
  rw [ITree.goodOrder] at hgs
  simp only [Bool.and_eq_true] at hgs
  have hexc := hgs.1.1
  by_cases hll : l.labelOf.isLeaf = true
  · have hrl : r.labelOf.isLeaf = true := by
      by_contra hrn
      have hri : r.labelOf.isInternal = true := by
        rw [isInternal_eq_not_isLeaf]
        cases hx : r.labelOf.isLeaf
        · rfl
        · exact absurd hx hrn
      rw [hll, hri] at hexc
      simp at hexc
    have hInt : intChildren (ITree.node i d l r) = [] := by
      rw [intChildren]
      have h1 : l.labelOf.isInternal = false := by
        rw [isInternal_eq_not_isLeaf, hll]
        rfl
      have h2 : r.labelOf.isInternal = false := by
        rw [isInternal_eq_not_isLeaf, hrl]
        rfl
      simp [ITree.childTrees, h1, h2]
    have hLeaf : leafChildren (ITree.node i d l r) = [l, r] := by
      rw [leafChildren]
      simp [ITree.childTrees, hll, hrl]
    rw [hInt, hLeaf] at houtE
    have houtE2 : (reconGraph t).outEdges
        (posOf ((bfsInternals t).map ITree.idx)
          (ITree.node i d l r).idx) =
        [(posOf ((bfsInternals t).map ITree.idx) (ITree.node i d l r).idx,
          (bfsInternals t).length +
           (((bfsInternals t).take (posOf ((bfsInternals t).map ITree.idx)
             (ITree.node i d l r).idx)).map
             (fun u => (leafChildren u).length)).sum + 0),
         (posOf ((bfsInternals t).map ITree.idx) (ITree.node i d l r).idx,
          (bfsInternals t).length +
           (((bfsInternals t).take (posOf ((bfsInternals t).map ITree.idx)
             (ITree.node i d l r).idx)).map
             (fun u => (leafChildren u).length)).sum + 1)] := by
      rw [houtE]
      rfl
    rw [children?_of_outEdges houtE2]
    have hposl : posOf ((leafChildren (ITree.node i d l r)).map ITree.idx)
        l.idx = 0 := by
      rw [hLeaf]
      simp [posOf]
    have hposr : posOf ((leafChildren (ITree.node i d l r)).map ITree.idx)
        r.idx = 1 := by
      rw [hLeaf]
      simp [posOf, hlrne]
    have h1 : piMap t l.idx = (bfsInternals t).length +
        (((bfsInternals t).take (posOf ((bfsInternals t).map ITree.idx)
          (ITree.node i d l r).idx)).map
          (fun u => (leafChildren u).length)).sum + 0 := by
      rw [piMap_leaf hw hla hll,
        hleafpos l.idx (by rw [hLeaf]; simp), hposl]
      omega
    have h2 : piMap t r.idx = (bfsInternals t).length +
        (((bfsInternals t).take (posOf ((bfsInternals t).map ITree.idx)
          (ITree.node i d l r).idx)).map
          (fun u => (leafChildren u).length)).sum + 1 := by
      rw [piMap_leaf hw hra hrl,
        hleafpos r.idx (by rw [hLeaf]; simp), hposr]
      omega
    rw [h1, h2]
  · have hli : l.labelOf.isInternal = true := by
      rw [isInternal_eq_not_isLeaf]
      cases hx : l.labelOf.isLeaf
      · rfl
      · exact absurd hx hll
    by_cases hrl : r.labelOf.isLeaf = true
    · have hInt : intChildren (ITree.node i d l r) = [l] := by
        rw [intChildren]
        have h2 : r.labelOf.isInternal = false := by
          rw [isInternal_eq_not_isLeaf, hrl]
          rfl
        simp [ITree.childTrees, hli, h2]
      have hLeaf : leafChildren (ITree.node i d l r) = [r] := by
        rw [leafChildren]
        have h1 : l.labelOf.isLeaf = false := by
          cases hx : l.labelOf.isLeaf
          · rfl
          · exact absurd hx hll
        simp [ITree.childTrees, h1, hrl]
      rw [hInt, hLeaf] at houtE
      have houtE2 : (reconGraph t).outEdges
          (posOf ((bfsInternals t).map ITree.idx)
            (ITree.node i d l r).idx) =
          [(posOf ((bfsInternals t).map ITree.idx) (ITree.node i d l r).idx,
            posOf ((bfsInternals t).map ITree.idx) l.idx),
           (posOf ((bfsInternals t).map ITree.idx) (ITree.node i d l r).idx,
            (bfsInternals t).length +
             (((bfsInternals t).take (posOf ((bfsInternals t).map ITree.idx)
               (ITree.node i d l r).idx)).map
               (fun u => (leafChildren u).length)).sum + 0)] := by
        rw [houtE]
        rfl
      rw [children?_of_outEdges houtE2]
      have hposr : posOf ((leafChildren (ITree.node i d l r)).map ITree.idx)
          r.idx = 0 := by
        rw [hLeaf]
        simp [posOf]
      have h1 : piMap t l.idx =
          posOf ((bfsInternals t).map ITree.idx) l.idx :=
        piMap_internal hw hla hli
      have h2 : piMap t r.idx = (bfsInternals t).length +
          (((bfsInternals t).take (posOf ((bfsInternals t).map ITree.idx)
            (ITree.node i d l r).idx)).map
            (fun u => (leafChildren u).length)).sum + 0 := by
        rw [piMap_leaf hw hra hrl,
          hleafpos r.idx (by rw [hLeaf]; simp), hposr]
        omega
      rw [h1, h2]
    · have hri : r.labelOf.isInternal = true := by
        rw [isInternal_eq_not_isLeaf]
        cases hx : r.labelOf.isLeaf
        · rfl
        · exact absurd hx hrl
      have hInt : intChildren (ITree.node i d l r) = [l, r] := by
        rw [intChildren]
        simp [ITree.childTrees, hli, hri]
      have hLeaf : leafChildren (ITree.node i d l r) = [] := by
        rw [leafChildren]
        have h1 : l.labelOf.isLeaf = false := by
          cases hx : l.labelOf.isLeaf
          · rfl
          · exact absurd hx hll
        have h2 : r.labelOf.isLeaf = false := by
          cases hx : r.labelOf.isLeaf
          · rfl
          · exact absurd hx hrl
        simp [ITree.childTrees, h1, h2]
      rw [hInt, hLeaf] at houtE
      have houtE2 : (reconGraph t).outEdges
          (posOf ((bfsInternals t).map ITree.idx)
            (ITree.node i d l r).idx) =
          [(posOf ((bfsInternals t).map ITree.idx) (ITree.node i d l r).idx,
            posOf ((bfsInternals t).map ITree.idx) l.idx),
           (posOf ((bfsInternals t).map ITree.idx) (ITree.node i d l r).idx,
            posOf ((bfsInternals t).map ITree.idx) r.idx)] := by
        rw [houtE]
        rfl
      rw [children?_of_outEdges houtE2]
      rw [piMap_internal hw hla hli, piMap_internal hw hra hri]

theorem childTrees_reindex (f : Nat → Nat) (t : ITree) :
    (t.reindex f).childTrees = t.childTrees.map (ITree.reindex f) := by
  cases t <;> simp [ITree.reindex, ITree.childTrees]

theorem allNodes_reindex (f : Nat → Nat) (t : ITree) :
    (t.reindex f).allNodes = t.allNodes.map (ITree.reindex f) := by
  induction t with
  | leaf i img => simp [ITree.reindex, ITree.allNodes]
  | node i d l r ihl ihr =>
    simp [ITree.reindex, ITree.allNodes, ihl, ihr]

theorem treeBfs_reindex (f : Nat → Nat) :
    ∀ q : List ITree,
      treeBfs (q.map (ITree.reindex f)) = (treeBfs q).map (ITree.reindex f) := by
  intro q
  induction q using treeBfs.induct with
  | case1 => simp [treeBfs_nil]
  | case2 t q ih =>
    rw [List.map_cons, treeBfs_cons, treeBfs_cons, List.map_cons]
    congr 1
    rw [← ih, List.map_append, childTrees_reindex]

theorem reconGraph_spans {L : Layout} {t : ITree} (hw : WFL L t)
    (hroot : t.labelOf.isInternal = true) (hgood : t.goodOrder = true) :
    ∀ s ∈ t.allNodes, spansB (reconGraph t) (s.reindex (piMap t)) = true := by
  intro s
  induction s with
  | leaf i img =>
    intro hs
    have hsl : (ITree.leaf i img) ∈ bfsLeaves t :=
      mem_bfsLeaves_of_leaf hs (by rfl)
    have hlab := reconGraph_label_leaf hw hsl
    have hpi : piMap t i = (bfsInternals t).length +
        posOf ((bfsLeaves t).map ITree.idx) (ITree.leaf i img).idx :=
      piMap_leaf hw hs (by rfl)
    rw [ITree.reindex, spansB, hpi]
    have hdeg := reconGraph_outDeg_leaf hw
      (Nat.le_add_right (bfsInternals t).length
        (posOf ((bfsLeaves t).map ITree.idx) (ITree.leaf i img).idx))
    simp only [ITree.idx_leaf] at hlab hpi hdeg ⊢
    rw [hlab, hdeg]
    simp [ITree.labelOf]
  | node i d l r ihl ihr =>
    intro hs
    have hsI : ITree.node i d l r ∈ bfsInternals t :=
      mem_bfsInternals_of_internal hs (by rfl)
    have hla : l ∈ t.allNodes :=
      ITree.child_mem_allNodes hs (by simp [ITree.childTrees])
    have hra : r ∈ t.allNodes :=
      ITree.child_mem_allNodes hs (by simp [ITree.childTrees])
    have hpi : piMap t i =
        posOf ((bfsInternals t).map ITree.idx) (ITree.node i d l r).idx :=
      piMap_internal hw hs (by rfl)
    have hlab := reconGraph_label_int hw hsI
    have hdeg := reconGraph_outDeg_int hw hsI
    have hch := reconGraph_children hw hroot hgood hsI
    rw [ITree.reindex, spansB]
    simp only [ITree.idx_node] at hpi hlab hdeg hch ⊢
    rw [hpi, hlab, hdeg, hch]
    simp only [ITree.idx_reindex]
    rw [ihl hla, ihr hra]
    simp [ITree.labelOf]

theorem sum_slots_total {t : ITree} (hnd : t.indexList.Nodup)
    (hroot : t.labelOf.isInternal = true) :
    ((List.range (bfsInternals t).length).map
      (fun p => 2 - (reconG1 t).outDeg p)).sum = (bfsLeaves t).length := by
  have h := sum_range_slots (bfsInternals t).length (le_refl _)
    (fun u hu p hp => reconG1_outDeg_get hnd hp)
  rw [List.range_eq_range', h, List.take_length]
  rw [bfsLeaves_flatMap hroot, List.length_flatMap]
  rfl

theorem reconGraph_nodeCount (t : ITree) :
    (reconGraph t).nodeCount =
      (bfsInternals t).length + (bfsLeaves t).length := by
  simp [reconGraph, LayoutGraph.nodeCount]

theorem reconE1_tgt_lt {L : Layout} {t : ITree} (hw : WFL L t) :
    ∀ e ∈ reconE1 t, e.2 < (bfsInternals t).length := by
  intro e he
  rw [reconE1, List.mem_flatMap] at he
  obtain ⟨pc, hpc, hepc⟩ := he
  rw [List.mem_map] at hepc
  obtain ⟨c, hc, rfl⟩ := hepc
  have hget := (List.mem_enumFrom hpc).2.2
  have hqlt : pc.1 - 0 < (repSpec t).length := by
    have h2 := (List.mem_enumFrom hpc).2.1
    omega
  have hmem2 : pc.2 ∈ repSpec t := by
    rw [hget]
    exact List.getElem_mem hqlt
  simp only [repSpec, List.mem_map] at hmem2
  obtain ⟨s, hsI, hentry⟩ := hmem2
  have h2 : pc.2.2 = (intChildren s).map (fun c =>
      posOf ((bfsInternals t).map ITree.idx) c.idx) := by
    rw [← hentry]
  rw [h2, List.mem_map] at hc
  obtain ⟨c2, hc2, rfl⟩ := hc
  obtain ⟨hc2m, hc2i⟩ := mem_intChildren hc2
  have hc2a : c2 ∈ t.allNodes :=
    ITree.child_mem_allNodes (mem_allNodes_of_mem_bfsInternals hsI) hc2m
  have hin : c2.idx ∈ (bfsInternals t).map ITree.idx :=
    List.mem_map_of_mem ITree.idx (mem_bfsInternals_of_internal hc2a hc2i)
  have := posOf_lt_length hin
  simpa using this

theorem reconWFL {L : Layout} {t : ITree} (hw : WFL L t)
    (hroot : t.labelOf.isInternal = true) (hgood : t.goodOrder = true)
    (canvas : Dimensions) :
    WFL ⟨reconGraph t, canvas⟩ (t.reindex (piMap t)) := by
  have hsplit : (treeBfs [t]).Perm (bfsInternals t ++ bfsLeaves t) := by
    have hfp := List.filter_append_perm
      (fun s => s.labelOf.isInternal) (treeBfs [t])
    have hcong : (treeBfs [t]).filter (fun s => !(s.labelOf.isInternal)) =
        bfsLeaves t := by
      rw [bfsLeaves]
      apply List.filter_congr
      intro s _
      rw [isLeaf_eq_not_isInternal]
    rw [hcong] at hfp
    exact hfp.symm
  have hil : t.indexList.Perm ((treeBfs [t]).map ITree.idx) := by
    have h2 := (treeBfs_perm [t]).map ITree.idx
    have h3 : ([t].flatMap ITree.allNodes).map ITree.idx = t.indexList := by
      simp [ITree.indexList]
    rw [h3] at h2
    exact h2.symm
  refine ⟨?_, ?_, ?_⟩
  · exact reconGraph_spans hw hroot hgood t t.mem_allNodes_self
  · have hidx : (t.reindex (piMap t)).indexList =
        t.indexList.map (piMap t) := by
      rw [ITree.indexList, allNodes_reindex, ITree.indexList, List.map_map,
        List.map_map]
      apply map_congr_mem
      intro s _
      simp [Function.comp, ITree.idx_reindex]
    rw [hidx]
    have hn : (⟨reconGraph t, canvas⟩ : Layout).graph.nodeCount =
        (bfsInternals t).length + (bfsLeaves t).length :=
      reconGraph_nodeCount t
    rw [hn]
    have hp1 : (t.indexList.map (piMap t)).Perm
        (((bfsInternals t ++ bfsLeaves t).map ITree.idx).map (piMap t)) :=
      (hil.trans (hsplit.map ITree.idx)).map (piMap t)
    refine hp1.trans (List.Perm.of_eq ?_)
    rw [List.map_append, List.map_append, List.map_map, List.map_map]
    have hIside : (bfsInternals t).map (piMap t ∘ ITree.idx) =
        List.range (bfsInternals t).length := by
      have hc : ∀ s ∈ bfsInternals t, (piMap t ∘ ITree.idx) s =
          posOf ((bfsInternals t).map ITree.idx) s.idx := by
        intro s hsm
        have hsint : s.labelOf.isInternal = true := by
          rw [bfsInternals, List.mem_filter] at hsm
          exact hsm.2
        exact piMap_internal hw (mem_allNodes_of_mem_bfsInternals hsm) hsint
      rw [map_congr_mem hc]
      have : (bfsInternals t).map
          (fun s => posOf ((bfsInternals t).map ITree.idx) s.idx) =
          ((bfsInternals t).map ITree.idx).map
            (posOf ((bfsInternals t).map ITree.idx)) := by
        rw [List.map_map]
        rfl
      rw [this, map_posOf_self _ hw.bfsInternals_idx_nodup]
      simp
    have hVside : (bfsLeaves t).map (piMap t ∘ ITree.idx) =
        (List.range (bfsLeaves t).length).map
          ((bfsInternals t).length + ·) := by
      have hc : ∀ s ∈ bfsLeaves t, (piMap t ∘ ITree.idx) s =
          (bfsInternals t).length +
            posOf ((bfsLeaves t).map ITree.idx) s.idx := by
        intro s hsm
        have hsl : s.labelOf.isLeaf = true := by
          rw [bfsLeaves, List.mem_filter] at hsm
          exact hsm.2
        exact piMap_leaf hw (mem_allNodes_of_mem_bfsLeaves hsm) hsl
      rw [map_congr_mem hc]
      have h4 : (bfsLeaves t).map
          (fun s => (bfsInternals t).length +
            posOf ((bfsLeaves t).map ITree.idx) s.idx) =
          (((bfsLeaves t).map ITree.idx).map
            (posOf ((bfsLeaves t).map ITree.idx))).map
              ((bfsInternals t).length + ·) := by
        rw [List.map_map, List.map_map]
        rfl
      rw [h4, map_posOf_self _ hw.bfsLeaves_idx_nodup]
      simp
    rw [hIside, hVside, List.range_add]
  · intro e he
    have hne : (⟨reconGraph t, canvas⟩ : Layout).graph.edges =
        reconE1 t ++ fillEdgesSpec (reconG1 t)
          (List.range (bfsInternals t).length)
          (bfsInternals t).length := rfl
    rw [hne] at he
    have hn : (⟨reconGraph t, canvas⟩ : Layout).graph.nodeCount =
        (bfsInternals t).length + (bfsLeaves t).length :=
      reconGraph_nodeCount t
    rw [hn]
    rcases List.mem_append.mp he with he | he
    · have h1 := reconE1_src_lt e he
      have h2 := reconE1_tgt_lt hw e he
      omega
    · obtain ⟨hsrc, -⟩ := fillEdgesSpec_mem (reconG1 t) _ _ e he
      rw [List.mem_range] at hsrc
      have htgt : e.2 ∈ (fillEdgesSpec (reconG1 t)
          (List.range (bfsInternals t).length)
          (bfsInternals t).length).map Prod.snd :=
        List.mem_map_of_mem Prod.snd he
      rw [fillEdgesSpec_targets, sum_slots_total hw.nodup hroot,
        List.mem_range'_1] at htgt
      omega

/-! Round-trip assembly: images, fill, and logical equality. -/

theorem imagesOf_spec {L : Layout} {t : ITree} (hw : WFL L t) :
    L.imagesOf = (bfsLeaves t).map leafImgOf := by
  rw [Layout.imagesOf, hw.logicalBfs_eq, List.filterMap_map]
  have hcongr : ∀ s ∈ treeBfs [t],
      ((fun i => match L.graph.label? i with
        | some (.leaf img) => some img
        | _ => none) ∘ ITree.idx) s =
      (fun s => if s.labelOf.isLeaf then some (leafImgOf s) else none) s := by
    intro s hsm
    have hsa := mem_treeBfs_iff.mp hsm
    have hlab := spans_label (spans_of_mem hw.1 hsa)
    simp only [Function.comp, hlab]
    cases s with
    | leaf i img => rfl
    | node i d l r => rfl
  rw [filterMap_congr_mem hcongr, filterMap_eq_map_filter]
  rfl

theorem leafmap_spec {L : Layout} {t : ITree} (hw : WFL L t) :
    L.imagesOf.map NodeLabel.leaf = (bfsLeaves t).map ITree.labelOf := by
  rw [imagesOf_spec hw, List.map_map]
  apply map_congr_mem
  intro s hsm
  have hsl : s.labelOf.isLeaf = true := by
    rw [bfsLeaves, List.mem_filter] at hsm
    exact hsm.2
  cases s with
  | leaf i img => rfl
  | node i d l r => simp [ITree.labelOf, NodeLabel.isLeaf] at hsl

theorem from_blueprint_roundtrip {L : Layout} {t : ITree} (hw : WFL L t)
    (hroot : t.labelOf.isInternal = true) (hgood : t.goodOrder = true) :
    Layout.from_blueprint L.to_blueprint L.imagesOf =
      .ret (.ok ⟨reconGraph t, L.canvas_dimensions⟩) := by
  rw [to_blueprint_spec hw]
  have hIint : ∀ s ∈ bfsInternals t, s.labelOf.isInternal = true := by
    intro s hs
    rw [bfsInternals, List.mem_filter] at hs
    exact hs.2
  have hparse : parseLabels (repSpec t) =
      .ok ((bfsInternals t).map ITree.labelOf) := by
    rw [repSpec]
    exact parseLabels_repSpec
      (fun j => posOf ((bfsInternals t).map ITree.idx) j)
      (bfsInternals t) hIint
  have hall : (repSpec t).all (fun pc => pc.2.all
      (fun c => c < ((bfsInternals t).map ITree.labelOf).length)) = true := by
    rw [List.all_eq_true]
    intro pc hpc
    rw [List.all_eq_true]
    intro c hc
    simp only [repSpec, List.mem_map] at hpc
    obtain ⟨s, hsI, rfl⟩ := hpc
    simp only [List.mem_map] at hc
    obtain ⟨c2, hc2, rfl⟩ := hc
    obtain ⟨hc2m, hc2i⟩ := mem_intChildren hc2
    have hc2a : c2 ∈ t.allNodes :=
      ITree.child_mem_allNodes (mem_allNodes_of_mem_bfsInternals hsI) hc2m
    have hin : c2.idx ∈ (bfsInternals t).map ITree.idx :=
      List.mem_map_of_mem ITree.idx (mem_bfsInternals_of_internal hc2a hc2i)
    have := posOf_lt_length hin
    simp only [List.length_map] at this ⊢
    simpa using this
  rw [from_blueprint_reduce _ _ _ hparse hall]
  rw [addBlueprintEdges_repSpec hw]
  have hintNodes : ∀ lb ∈ (reconG1 t).nodes, lb.isInternal = true := by
    intro lb hlb
    have hshow : (reconG1 t).nodes = (bfsInternals t).map ITree.labelOf := rfl
    rw [hshow, List.mem_map] at hlb
    obtain ⟨s, hsm, rfl⟩ := hlb
    exact hIint s hsm
  have hind : (reconG1 t).indices = List.range (bfsInternals t).length := by
    simp [LayoutGraph.indices, reconG1, LayoutGraph.nodeCount]
  have hop : (reconG1 t).openIndices =
      (List.range (bfsInternals t).length).filter
        (fun q => (reconG1 t).outDeg q < 2) := by
    rw [openIndices_all_internal hintNodes, hind]
  have htb : ∀ e ∈ (reconG1 t).edges, e.2 < (reconG1 t).nodeCount := by
    intro e he
    have hshow : (reconG1 t).edges = reconE1 t := rfl
    rw [hshow] at he
    have := reconE1_tgt_lt hw e he
    have hshow2 : (reconG1 t).nodeCount = (bfsInternals t).length := by
      simp [reconG1, LayoutGraph.nodeCount]
    omega
  have hnodup : (reconG1 t).openIndices.Nodup := by
    rw [hop]
    exact (List.nodup_range _).filter _
  obtain ⟨hok, -⟩ := fillAll_spec (reconG1 t).openIndices (reconG1 t)
    L.imagesOf htb hnodup
  have hsum : (((reconG1 t).openIndices.map
      (fun i => 2 - (reconG1 t).outDeg i)).sum) = (bfsLeaves t).length := by
    rw [hop, sum_map_filter_zero (fun q => decide ((reconG1 t).outDeg q < 2))
      (fun i => 2 - (reconG1 t).outDeg i) _ ?_]
    · exact sum_slots_total hw.nodup hroot
    · intro q hq hfalse
      simp only [decide_eq_false_iff_not, Nat.not_lt] at hfalse
      show 2 - (reconG1 t).outDeg q = 0
      omega
  have himg : L.imagesOf.length = (bfsLeaves t).length := by
    rw [imagesOf_spec hw, List.length_map]
  rw [hok (by rw [hsum, himg])]
  have hns : (reconG1 t).nodes ++
      ((L.imagesOf.take (((reconG1 t).openIndices.map
        (fun i => 2 - (reconG1 t).outDeg i)).sum)).map NodeLabel.leaf) =
      (reconGraph t).nodes := by
    have htake : L.imagesOf.take (((reconG1 t).openIndices.map
        (fun i => 2 - (reconG1 t).outDeg i)).sum) = L.imagesOf := by
      rw [hsum, ← himg, List.take_length]
    rw [htake, leafmap_spec hw]
    rfl
  have hes : (reconG1 t).edges ++
      fillEdgesSpec (reconG1 t) (reconG1 t).openIndices
        (reconG1 t).nodeCount = (reconGraph t).edges := by
    have hshow2 : (reconG1 t).nodeCount = (bfsInternals t).length := by
      simp [reconG1, LayoutGraph.nodeCount]
    rw [hop, hshow2, fillEdgesSpec_filter_deg]
    rfl
  have hgr : (⟨(reconG1 t).nodes ++
      ((L.imagesOf.take (((reconG1 t).openIndices.map
        (fun i => 2 - (reconG1 t).outDeg i)).sum)).map NodeLabel.leaf),
      (reconG1 t).edges ++ fillEdgesSpec (reconG1 t)
        (reconG1 t).openIndices (reconG1 t).nodeCount⟩ : LayoutGraph) =
      reconGraph t :=
    (graph_eq_of_fields hns.symm hes.symm).symm
  rw [hgr]

theorem sum_two_filter {α : Type} (p : α → Bool) :
    ∀ l : List α,
      (l.map (fun x => if p x then 2 else 0)).sum =
        2 * (l.filter p).length := by
  intro l
  induction l with
  | nil => rfl
  | cons x l ih =>
    rw [List.map_cons, List.sum_cons, ih]
    cases hp : p x
    · have hf : (x :: l).filter p = l.filter p := by simp [hp]
      rw [hf]
      show (0 : Nat) + 2 * (l.filter p).length = 2 * (l.filter p).length
      omega
    · have hf : (x :: l).filter p = x :: l.filter p := by simp [hp]
      rw [hf]
      show (2 : Nat) + 2 * (l.filter p).length =
        2 * (x :: l.filter p).length
      rw [List.length_cons]
      omega

theorem WFL.edges_length {L : Layout} {t : ITree} (hw : WFL L t) :
    L.graph.edges.length = 2 * (bfsInternals t).length := by
  have hsrc : ∀ e ∈ L.graph.edges, e.1 < L.graph.nodeCount :=
    fun e he => (hw.2.2 e he).1
  have h1 : ((List.range L.graph.nodeCount).map
      (fun i => L.graph.outDeg i)).sum = L.graph.edges.length := by
    simp only [outDeg_eq_filter]
    exact sum_length_filter_fst L.graph.nodeCount L.graph.edges hsrc
  have hperm : (t.indexList.map (fun i => L.graph.outDeg i)).Perm
      ((List.range L.graph.nodeCount).map (fun i => L.graph.outDeg i)) :=
    hw.2.1.map _
  have h2 : (t.indexList.map (fun i => L.graph.outDeg i)).sum =
      L.graph.edges.length := by
    rw [hperm.sum_eq]
    exact h1
  have h3 : t.indexList.map (fun i => L.graph.outDeg i) =
      t.allNodes.map (fun s => if s.labelOf.isInternal then 2 else 0) := by
    rw [ITree.indexList, List.map_map]
    apply map_congr_mem
    intro s hsm
    have hsp := spans_of_mem hw.1 hsm
    cases s with
    | leaf i img =>
      simp [Function.comp, (spans_leaf hsp).2, ITree.labelOf,
        NodeLabel.isInternal, ITree.idx]
    | node i d l r =>
      simp [Function.comp, (spans_node hsp).2.1, ITree.labelOf,
        NodeLabel.isInternal, ITree.idx]
  rw [← h2, h3, sum_two_filter]
  congr 1
  have hbp : (treeBfs [t]).Perm t.allNodes := by
    simpa using treeBfs_perm [t]
  rw [bfsInternals]
  exact ((hbp.filter (fun s => s.labelOf.isInternal)).length_eq).symm

theorem bfsInternals_reindex (f : Nat → Nat) (t : ITree) :
    bfsInternals (t.reindex f) = (bfsInternals t).map (ITree.reindex f) := by
  rw [bfsInternals, bfsInternals]
  have hB : treeBfs [t.reindex f] = (treeBfs [t]).map (ITree.reindex f) := by
    have := treeBfs_reindex f [t]
    simpa using this
  rw [hB, List.filter_map]
  have hfc : (treeBfs [t]).filter
      ((fun s => s.labelOf.isInternal) ∘ ITree.reindex f) =
      (treeBfs [t]).filter (fun s => s.labelOf.isInternal) :=
    List.filter_congr
      (fun s _ => by simp [Function.comp, ITree.labelOf_reindex])
  rw [hfc]

theorem WFL.labelPair_node {L : Layout} {t : ITree} (hw : WFL L t)
    {i : Nat} {d : SliceDirection} {l r : ITree}
    (hs : ITree.node i d l r ∈ t.allNodes) :
    L.graph.labelPair? i = some (l.labelOf, r.labelOf) := by
  have hsp := spans_of_mem hw.1 hs
  obtain ⟨-, -, hch, hsl, hsr⟩ := spans_node hsp
  rw [LayoutGraph.labelPair?, hch]
  have h1 := spans_label hsl
  have h2 := spans_label hsr
  simp [h1, h2]

theorem WFL.labelPair_leaf {L : Layout} {t : ITree} (hw : WFL L t)
    {i : Nat} {img : Img} (hs : ITree.leaf i img ∈ t.allNodes) :
    L.graph.labelPair? i = none := by
  have hsp := spans_of_mem hw.1 hs
  have h0 := (spans_leaf hsp).2
  rw [LayoutGraph.labelPair?, children_none_of_outDeg_zero h0]
  rfl

theorem logical_eq_of_reindex {L Lr : Layout} {t : ITree} (hw : WFL L t)
    (hwr : WFL Lr (t.reindex (piMap t)))
    (hcanvas : Lr.canvas_dimensions = L.canvas_dimensions) :
    Lr.logical_eq L = true := by
  have hBr : treeBfs [t.reindex (piMap t)] =
      (treeBfs [t]).map (ITree.reindex (piMap t)) := by
    have := treeBfs_reindex (piMap t) [t]
    simpa using this
  have hsa : Lr.logicalBfs =
      (treeBfs [t]).map (fun s => (s.reindex (piMap t)).idx) := by
    rw [hwr.logicalBfs_eq, hBr, List.map_map]
    rfl
  have hsb := hw.logicalBfs_eq
  rw [Layout.logical_eq]
  simp only [Bool.and_eq_true, beq_iff_eq]
  refine ⟨⟨⟨⟨⟨hcanvas, ?_⟩, ?_⟩, ?_⟩, ?_⟩, ?_⟩
  · rw [← hwr.size_eq, ← hw.size_eq, ITree.size_reindex]
  · rw [hwr.edges_length, hw.edges_length, bfsInternals_reindex,
      List.length_map]
  · have hha : Lr.logicalBfs.head? = some ((t.reindex (piMap t)).idx) := by
      rw [hsa, treeBfs_cons]
      rfl
    have hhb : L.logicalBfs.head? = some t.idx := by
      rw [hsb, treeBfs_cons]
      rfl
    have h1 : Lr.graph.label? ((t.reindex (piMap t)).idx) =
        some t.labelOf := by
      rw [spans_label hwr.1, ITree.labelOf_reindex]
    have h2 : L.graph.label? t.idx = some t.labelOf := spans_label hw.1
    simp only [hha, hhb, h1, h2]
    simp
  · rw [hsa, hsb, List.length_map, List.length_map]
  · rw [hsa, hsb, List.zip_map', List.all_eq_true]
    intro p hp
    rw [List.mem_map] at hp
    obtain ⟨s, hsm, rfl⟩ := hp
    have hsmem : s ∈ t.allNodes := mem_treeBfs_iff.mp hsm
    cases s with
    | leaf i img =>
      have hmem2 : ITree.leaf (piMap t i) img ∈
          (t.reindex (piMap t)).allNodes := by
        rw [allNodes_reindex]
        exact List.mem_map_of_mem _ hsmem
      have h1 := hwr.labelPair_leaf hmem2
      have h2 := hw.labelPair_leaf hsmem
      simp [ITree.idx_leaf, ITree.reindex, h1, h2]
    | node i d l r =>
      have hmem2 : ITree.node (piMap t i) d (l.reindex (piMap t))
          (r.reindex (piMap t)) ∈ (t.reindex (piMap t)).allNodes := by
        rw [allNodes_reindex]
        exact List.mem_map_of_mem _ hsmem
      have h1 := hwr.labelPair_node hmem2
      have h2 := hw.labelPair_node hsmem
      simp [ITree.idx_node, ITree.reindex, h1, h2, ITree.labelOf_reindex]

/-! Crossover analysis: node and edge bookkeeping for `swap_subtree`. -/

theorem nodes_removeEdge (g : LayoutGraph) (a b : Nat) :
    (g.removeEdge a b).nodes = g.nodes := rfl

theorem nodes_swap_order (g : LayoutGraph) (i : Nat) :
    (g.swap_order_of_children i).nodes = g.nodes := by
  rw [LayoutGraph.swap_order_of_children]
  cases g.children? i with
  | none => rfl
  | some c =>
    cases c with
    | mk c0 c1 => simp [nodes_updateEdge, nodes_removeEdge]

theorem foldl_addNode_acc {α : Type} (f : α → NodeLabel) :
    ∀ (l : List α) (g : LayoutGraph),
      l.foldl (fun g2 p => g2.addNode (f p)) g =
        { g with nodes := g.nodes ++ l.map f } := by
  intro l
  induction l with
  | nil => intro g; simp
  | cons x l ih =>
    intro g
    rw [List.foldl_cons, ih]
    simp [LayoutGraph.addNode]

theorem foldl_edgeAdd_nodes :
    ∀ (lst : List (Nat × String × List Nat)) (g : LayoutGraph),
      (lst.foldl (fun g2 pc =>
        pc.2.2.foldl (fun g3 c => g3.updateEdge pc.1 c) g2) g).nodes =
        g.nodes := by
  intro lst
  induction lst with
  | nil => intro g; rfl
  | cons p rest ih =>
    intro g
    rw [List.foldl_cons, ih, foldl_updateEdge_nodes_inner]

theorem skeleton_fold_eq (base : Nat) :
    ∀ (bp : List (String × List Nat)) (s : Nat) (g : LayoutGraph),
      (bp.enumFrom s).foldl (fun g2 p =>
          p.2.2.foldl (fun g3 c => g3.updateEdge (base + p.1) (base + c)) g2)
        g =
      ((bp.map (fun pc => (pc.1, pc.2.map (fun c => base + c)))).enumFrom
          (base + s)).foldl (fun g2 pc =>
          pc.2.2.foldl (fun g3 c => g3.updateEdge pc.1 c) g2) g := by
  intro bp
  induction bp with
  | nil => intro s g; rfl
  | cons p rest ih =>
    intro s g
    rw [List.map_cons, List.enumFrom_cons, List.enumFrom_cons,
      List.foldl_cons, List.foldl_cons]
    have hhead : (p.2.map (fun c => base + c)).foldl
        (fun g3 c => g3.updateEdge (base + s) c) g =
        p.2.foldl (fun g3 c => g3.updateEdge (base + s) (base + c)) g := by
      rw [List.foldl_map]
    rw [hhead]
    have harith : base + s + 1 = base + (s + 1) := by omega
    rw [harith, ih]

theorem enumFrom_shift_flatMap (base : Nat) :
    ∀ (rep : List (String × List Nat)) (s : Nat),
      ((rep.map (fun pc => (pc.1, pc.2.map (fun c => base + c)))).enumFrom
          (base + s)).flatMap (fun pc => pc.2.2.map (fun c => (pc.1, c))) =
      ((rep.enumFrom s).flatMap
          (fun pc => pc.2.2.map (fun c => (pc.1, c)))).map
        (fun e => (base + e.1, base + e.2)) := by
  intro rep
  induction rep with
  | nil => intro s; rfl
  | cons p rest ih =>
    intro s
    rw [List.map_cons, List.enumFrom_cons, List.enumFrom_cons,
      List.flatMap_cons, List.flatMap_cons, List.map_append]
    have harith : base + s + 1 = base + (s + 1) := by omega
    rw [harith, ih]
    congr 1
    rw [List.map_map, List.map_map]
    rfl

theorem outDeg_updateEdge_self {g : LayoutGraph} {i lf : Nat}
    (h : (i, lf) ∉ g.edges) :
    (g.updateEdge i lf).outDeg i = g.outDeg i + 1 := by
  rw [outDeg_eq_filter, outDeg_eq_filter, edges_updateEdge_notMem h,
    List.filter_append, List.length_append]
  simp

theorem outDeg_edges_append {g g' : LayoutGraph} {es : List (Nat × Nat)}
    (hed : g'.edges = g.edges ++ es) {j : Nat} (h : ∀ e ∈ es, e.1 ≠ j) :
    g'.outDeg j = g.outDeg j := by
  have hnil : es.filter (fun e => e.1 == j) = [] := by
    rw [List.filter_eq_nil_iff]
    intro e he
    simp only [beq_iff_eq]
    exact h e he
  rw [outDeg_eq_filter, outDeg_eq_filter, hed, List.filter_append, hnil,
    List.append_nil]

theorem fillNodeWith_spec :
    ∀ (lfs : List Nat) (g : LayoutGraph) (i : Nat),
      (∀ lf ∈ lfs, (i, lf) ∉ g.edges) → lfs.Nodup →
      2 - g.outDeg i ≤ lfs.length →
      fillNodeWith g i lfs = .ok
        (⟨g.nodes, g.edges ++ (lfs.take (2 - g.outDeg i)).map
          (fun lf => (i, lf))⟩, lfs.drop (2 - g.outDeg i)) := by
  intro lfs
  induction lfs with
  | nil =>
    intro g i hni hnd hle
    have hz : 2 - g.outDeg i = 0 := by simpa using hle
    have hnl : ¬ (g.outDeg i < 2) := by omega
    rw [fillNodeWith, if_neg hnl]
    simp [hz]
  | cons lf rest ih =>
    intro g i hni hnd hle
    by_cases hlt : g.outDeg i < 2
    · have hnotmem : (i, lf) ∉ g.edges := hni lf (by simp)
      have hedges : (g.updateEdge i lf).edges = g.edges ++ [(i, lf)] :=
        edges_updateEdge_notMem hnotmem
      have hdeg : (g.updateEdge i lf).outDeg i = g.outDeg i + 1 :=
        outDeg_updateEdge_self hnotmem
      have hni2 : ∀ lf2 ∈ rest, (i, lf2) ∉ (g.updateEdge i lf).edges := by
        intro lf2 hlf2 hmem
        rw [hedges, List.mem_append] at hmem
        rcases hmem with hmem | hmem
        · exact hni lf2 (by simp [hlf2]) hmem
        · simp only [List.mem_singleton, Prod.mk.injEq] at hmem
          exact (List.nodup_cons.mp hnd).1 (hmem.2 ▸ hlf2)
      have hle2 : 2 - (g.updateEdge i lf).outDeg i ≤ rest.length := by
        rw [hdeg]
        simp only [List.length_cons] at hle
        omega
      have hk : 2 - g.outDeg i = (2 - (g.outDeg i + 1)) + 1 := by omega
      rw [fillNodeWith, if_pos hlt,
        ih (g.updateEdge i lf) i hni2 (List.nodup_cons.mp hnd).2 hle2]
      rw [nodes_updateEdge, hedges, hdeg, hk]
      rw [List.take_succ_cons, List.drop_succ_cons, List.map_cons,
        List.append_assoc, List.singleton_append]
    · have hz : 2 - g.outDeg i = 0 := by omega
      rw [fillNodeWith, if_neg hlt]
      simp [hz]

theorem fillAllWith_ok :
    ∀ (os : List Nat) (g : LayoutGraph) (lfs : List Nat),
      os.Nodup → lfs.Nodup →
      (∀ i ∈ os, ∀ lf ∈ lfs, (i, lf) ∉ g.edges) →
      (os.map (fun i => 2 - g.outDeg i)).sum ≤ lfs.length →
      ∃ g' rest, fillAllWith g os lfs = .ok (g', rest) ∧
        g'.nodes = g.nodes := by
  intro os
  induction os with
  | nil =>
    intro g lfs _ _ _ _
    exact ⟨g, lfs, rfl, rfl⟩
  | cons i os ih =>
    intro g lfs hosnd hnd hni hsum
    have hd : 2 - g.outDeg i ≤ lfs.length := by
      rw [List.map_cons, List.sum_cons] at hsum
      omega
    have h1 := fillNodeWith_spec lfs g i
      (fun lf hlf => hni i (by simp) lf hlf) hnd hd
    have hg1e : (⟨g.nodes, g.edges ++ (lfs.take (2 - g.outDeg i)).map
        (fun lf => (i, lf))⟩ : LayoutGraph).edges =
        g.edges ++ (lfs.take (2 - g.outDeg i)).map (fun lf => (i, lf)) := rfl
    have hni2 : ∀ j ∈ os, ∀ lf ∈ lfs.drop (2 - g.outDeg i),
        (j, lf) ∉ (⟨g.nodes, g.edges ++ (lfs.take (2 - g.outDeg i)).map
          (fun lf => (i, lf))⟩ : LayoutGraph).edges := by
      intro j hj lf hlf hmem
      rw [hg1e, List.mem_append] at hmem
      rcases hmem with hmem | hmem
      · exact hni j (by simp [hj]) lf (List.drop_subset _ _ hlf) hmem
      · rw [List.mem_map] at hmem
        obtain ⟨lf2, -, heq⟩ := hmem
        have hij : i = j := congrArg Prod.fst heq
        exact (List.nodup_cons.mp hosnd).1 (by rw [hij]; exact hj)
    have hdegs : ∀ j ∈ os,
        (⟨g.nodes, g.edges ++ (lfs.take (2 - g.outDeg i)).map
          (fun lf => (i, lf))⟩ : LayoutGraph).outDeg j = g.outDeg j := by
      intro j hj
      refine outDeg_edges_append hg1e ?_
      intro e he
      rw [List.mem_map] at he
      obtain ⟨lf2, -, heq⟩ := he
      rw [← heq]
      intro hij
      have hij2 : i = j := hij
      exact (List.nodup_cons.mp hosnd).1 (by rw [hij2]; exact hj)
    have hsum2 : (os.map (fun j =>
        2 - (⟨g.nodes, g.edges ++ (lfs.take (2 - g.outDeg i)).map
          (fun lf => (i, lf))⟩ : LayoutGraph).outDeg j)).sum ≤
        (lfs.drop (2 - g.outDeg i)).length := by
      rw [map_congr_mem (fun j hj => by rw [hdegs j hj])]
      rw [List.map_cons, List.sum_cons] at hsum
      rw [List.length_drop]
      omega
    obtain ⟨g', rest, hok, hn⟩ := ih _ (lfs.drop (2 - g.outDeg i))
      (List.nodup_cons.mp hosnd).2 (hnd.sublist (List.drop_sublist _ _))
      hni2 hsum2
    refine ⟨g', rest, ?_, hn⟩
    rw [fillAllWith, h1]
    exact hok

theorem map_get?_range {α : Type} (l : List α) (d : α) :
    (List.range l.length).map (fun i => (l.get? i).getD d) = l := by
  induction l with
  | nil => rfl
  | cons x l ih =>
    have hr : List.range (x :: l).length =
        0 :: (List.range l.length).map Nat.succ := by
      rw [List.length_cons, List.range_succ_eq_map]
    rw [hr, List.map_cons, List.map_map]
    have hcomp : ((fun i => (((x :: l).get? i).getD d)) ∘ Nat.succ) =
        (fun i => ((l.get? i).getD d)) := by
      funext i
      simp
    rw [hcomp, ih]
    rfl

theorem filterMap_filter_none {α β : Type} (p : α → Bool) (F : α → Option β) :
    ∀ (l : List α), (∀ x ∈ l, p x = false → F x = none) →
      (l.filter p).filterMap F = l.filterMap F := by
  intro l
  induction l with
  | nil => intro _; rfl
  | cons x l ih =>
    intro h
    cases hp : p x with
    | true =>
      have hfc : (x :: l).filter p = x :: l.filter p := by simp [hp]
      rw [hfc, List.filterMap_cons, List.filterMap_cons,
        ih (fun y hy => h y (by simp [hy]))]
    | false =>
      have hfx : F x = none := h x (by simp) hp
      have hfc : (x :: l).filter p = l.filter p := by simp [hp]
      rw [hfc, List.filterMap_cons, hfx,
        ih (fun y hy => h y (by simp [hy]))]

theorem children?_congr {g g' : LayoutGraph} {i : Nat}
    (h : g'.outEdges i = g.outEdges i) : g'.children? i = g.children? i := by
  rw [LayoutGraph.children?, LayoutGraph.children?, LayoutGraph.neighbors,
    LayoutGraph.neighbors, h]

theorem outDeg_congr {g g' : LayoutGraph} {i : Nat}
    (h : g'.outEdges i = g.outEdges i) : g'.outDeg i = g.outDeg i := by
  rw [LayoutGraph.outDeg, LayoutGraph.outDeg, h]

theorem spansB_extend {g g' : LayoutGraph} {n : Nat}
    (hlab : ∀ i, i < n → g'.label? i = g.label? i)
    (hoe : ∀ i, i < n → g'.outEdges i = g.outEdges i) :
    ∀ {s : ITree}, spansB g s = true →
      (∀ u ∈ s.allNodes, u.idx < n) → spansB g' s = true := by
  intro s
  induction s with
  | leaf i img =>
    intro hsp hlt
    obtain ⟨h1, h2⟩ := spans_leaf hsp
    have hi : i < n := hlt (.leaf i img) (ITree.mem_allNodes_self _)
    rw [spansB, hlab i hi, outDeg_congr (hoe i hi), h1, h2]
    simp
  | node i d l r ihl ihr =>
    intro hsp hlt
    obtain ⟨h1, h2, h3, hl, hr⟩ := spans_node hsp
    have hi : i < n := hlt (.node i d l r) (ITree.mem_allNodes_self _)
    have hcl : ∀ u ∈ l.allNodes, u.idx < n := by
      intro u hu
      exact hlt u (by simp [ITree.allNodes, hu])
    have hcr : ∀ u ∈ r.allNodes, u.idx < n := by
      intro u hu
      exact hlt u (by simp [ITree.allNodes, hu])
    rw [spansB, hlab i hi, outDeg_congr (hoe i hi),
      children?_congr (hoe i hi), h1, h2, h3, ihl hl hcl, ihr hr hcr]
    simp

theorem bfsFrom_eq_of_spans {g : LayoutGraph} {s : ITree}
    (hsp : spansB g s = true) (hsz : s.size ≤ g.nodeCount) :
    g.bfsFrom s.idx = (treeBfs [s]).map ITree.idx := by
  have h := bfsAux_agree g [s] (g.nodeCount + 1)
    (by intro u hu; simp at hu; subst hu; exact hsp)
    (by simp [qsize]; omega)
  simpa [LayoutGraph.bfsFrom] using h

theorem bfs_filter_isLeaf {g : LayoutGraph} {s : ITree}
    (hsp : spansB g s = true)
    (hbfs : g.bfsFrom s.idx = (treeBfs [s]).map ITree.idx) :
    (g.bfsFrom s.idx).filter (fun i =>
      ((g.label? i).map NodeLabel.isLeaf).getD false) =
      (bfsLeaves s).map ITree.idx := by
  rw [hbfs, List.filter_map]
  rw [bfsLeaves]
  congr 1
  apply List.filter_congr
  intro u hu
  have hua : u ∈ s.allNodes := mem_treeBfs_iff.mp hu
  have hlab := spans_label (spans_of_mem hsp hua)
  simp [Function.comp, hlab]

theorem subtreeLeafCount_spec {g : LayoutGraph} {s : ITree}
    (hsp : spansB g s = true) (hsz : s.size ≤ g.nodeCount) :
    g.subtreeLeafCount s.idx = (bfsLeaves s).length := by
  rw [LayoutGraph.subtreeLeafCount,
    bfs_filter_isLeaf hsp (bfsFrom_eq_of_spans hsp hsz), List.length_map]

theorem subtreeToBlueprint_spec {g : LayoutGraph} {t : ITree}
    (hsp : spansB g t = true)
    (hbfs : g.bfsFrom t.idx = (treeBfs [t]).map ITree.idx) :
    g.subtreeToBlueprint t.idx = repSpec t := by
  rw [LayoutGraph.subtreeToBlueprint]
  simp only [hbfs]
  have hbwni : ((treeBfs [t]).map ITree.idx).filterMap (fun i =>
      if ((g.label? i).map NodeLabel.isInternal).getD false then
        some (i, match g.children? i with
                 | some (l, r) => [l, r]
                 | none => [])
      else none) =
      (bfsInternals t).map (fun s => (s.idx, s.childTrees.map ITree.idx)) := by
    rw [List.filterMap_map]
    have hcongr : ∀ s ∈ treeBfs [t],
        ((fun i =>
          if ((g.label? i).map NodeLabel.isInternal).getD false then
            some (i, match g.children? i with
                     | some (l, r) => [l, r]
                     | none => [])
          else none) ∘ ITree.idx) s =
        (fun s => if s.labelOf.isInternal then
          some (s.idx, s.childTrees.map ITree.idx) else none) s := by
      intro s hsm
      have hsa : s ∈ t.allNodes := mem_treeBfs_iff.mp hsm
      have hsp2 := spans_of_mem hsp hsa
      have hlab := spans_label hsp2
      simp only [Function.comp, hlab, Option.map_some', Option.getD_some]
      cases s with
      | leaf i img => simp [ITree.labelOf, NodeLabel.isInternal]
      | node i d l r =>
        have hch := (spans_node hsp2).2.2.1
        simp [hch, ITree.labelOf, NodeLabel.isInternal, ITree.childTrees,
          ITree.idx]
    rw [filterMap_congr_mem hcongr, filterMap_eq_map_filter]
    rfl
  rw [hbwni]
  rw [List.map_map, repSpec]
  apply map_congr_mem
  intro s hsm
  have hsa : s ∈ t.allNodes := mem_allNodes_of_mem_bfsInternals hsm
  have hsp2 := spans_of_mem hsp hsa
  have hsint : s.labelOf.isInternal = true := by
    rw [bfsInternals, List.mem_filter] at hsm
    exact hsm.2
  cases s with
  | leaf i img => simp [ITree.labelOf, NodeLabel.isInternal] at hsint
  | node i d l r =>
    obtain ⟨hlab, -, hch, -, -⟩ := spans_node hsp2
    simp only [Function.comp]
    congr 1
    · show (match g.label? i with
        | some (NodeLabel.internal d) => dirCode d
        | _ => "V") =
        (match (ITree.node i d l r).labelOf with
         | NodeLabel.internal d => dirCode d
         | NodeLabel.leaf _ => "V")
      rw [hlab]
      rfl
    · show (([l, r] : List ITree).map ITree.idx).filterMap (fun c =>
          if ((g.label? c).map NodeLabel.isInternal).getD false then
            some ((((bfsInternals t).map (fun s =>
              (s.idx, s.childTrees.map ITree.idx))).findIdx?
                (fun q => q.1 == c)).getD 0)
          else none) =
        (intChildren (ITree.node i d l r)).map (fun c =>
          posOf ((bfsInternals t).map ITree.idx) c.idx)
      rw [List.filterMap_map]
      refine Eq.trans (filterMap_congr_mem ?_)
        (filterMap_eq_map_filter (fun c => c.labelOf.isInternal)
          (fun c => posOf ((bfsInternals t).map ITree.idx) c.idx) [l, r])
      intro c hcm
      have hca : c ∈ t.allNodes := ITree.child_mem_allNodes hsa hcm
      have hclab := spans_label (spans_of_mem hsp hca)
      simp only [Function.comp, hclab, Option.map_some', Option.getD_some]
      by_cases hcint : c.labelOf.isInternal = true
      · rw [if_pos hcint, if_pos hcint]
        have hcI : c ∈ bfsInternals t := mem_bfsInternals_of_internal hca hcint
        have hcidx : c.idx ∈ (bfsInternals t).map ITree.idx :=
          List.mem_map_of_mem ITree.idx hcI
        have hfi2 : ((bfsInternals t).findIdx? ((fun q => q.1 == c.idx) ∘
            (fun s => (s.idx, s.childTrees.map ITree.idx)))) =
            some (posOf ((bfsInternals t).map ITree.idx) c.idx) := by
          have hfi := findIdx?_eq_some_posOf hcidx
          rw [List.findIdx?_map] at hfi
          exact hfi
        rw [List.findIdx?_map, hfi2]
        rfl
      · rw [if_neg hcint, if_neg hcint]

theorem mem_subtrees {L : Layout} {i c : Nat} (h : (i, c) ∈ L.subtrees) :
    i ∈ L.graph.internalIndices ∧ c = L.graph.subtreeLeafCount i ∧ 3 ≤ c := by
  rw [Layout.subtrees, List.mem_filterMap] at h
  obtain ⟨j, hj, heq⟩ := h
  simp only at heq
  by_cases h3 : 3 ≤ L.graph.subtreeLeafCount j
  · rw [if_pos h3] at heq
    have hji : j = i ∧ L.graph.subtreeLeafCount j = c := by
      simpa using heq
    obtain ⟨rfl, hc⟩ := hji
    exact ⟨hj, hc.symm, hc ▸ h3⟩
  · rw [if_neg h3] at heq
    exact absurd heq (by simp)

theorem exists_subtree_at {L : Layout} {t : ITree} (hw : WFL L t) {i : Nat}
    (hi : i ∈ L.graph.internalIndices) :
    ∃ s ∈ t.allNodes, s.idx = i ∧ s.labelOf.isInternal = true := by
  rw [LayoutGraph.internalIndices, List.mem_filter] at hi
  have hilt : i < L.graph.nodeCount := by
    simpa [LayoutGraph.indices] using hi.1
  obtain ⟨s, hs, rfl⟩ := hw.exists_node_of_lt hilt
  refine ⟨s, hs, rfl, ?_⟩
  have hdeg : L.graph.outDeg s.idx = 2 := by simpa using hi.2
  cases s with
  | leaf j img =>
    have h0 := (spans_leaf (spans_of_mem hw.1 hs)).2
    have hdeg2 : L.graph.outDeg j = 2 := hdeg
    exact absurd h0 (by omega)
  | node j d l r => simp [ITree.labelOf, NodeLabel.isInternal]

theorem label?_congr {g g' : LayoutGraph} (h : g'.nodes = g.nodes) (i : Nat) :
    g'.label? i = g.label? i := by
  rw [LayoutGraph.label?, LayoutGraph.label?, h]

theorem leafImgs_filterMapGraph {g : LayoutGraph} {keep : Nat → Bool}
    (h : ∀ i, keep i = false → ∃ d, g.label? i = some (.internal d)) :
    (g.filterMapGraph keep).nodes.filterMap leafImg? =
      g.nodes.filterMap leafImg? := by
  rw [LayoutGraph.filterMapGraph]
  have hstep : ((g.indices.filter keep).map
      (fun i => (g.label? i).getD (.internal .vertical))).filterMap leafImg? =
      (g.indices.filter keep).filterMap
        (fun i => leafImg? ((g.label? i).getD (.internal .vertical))) := by
    rw [List.filterMap_map]
    rfl
  show ((g.indices.filter keep).map
      (fun i => (g.label? i).getD (.internal .vertical))).filterMap leafImg? =
      g.nodes.filterMap leafImg?
  rw [hstep, filterMap_filter_none _ _ _ ?hnone]
  case hnone =>
    intro i hi hkeep
    obtain ⟨d, hd⟩ := h i hkeep
    rw [hd]
    rfl
  have hmapid : g.indices.map
      (fun i => (g.label? i).getD (.internal .vertical)) = g.nodes := by
    have : g.indices = List.range g.nodes.length := rfl
    rw [this]
    exact map_get?_range g.nodes _
  have h2 : (g.indices.map
      (fun i => (g.label? i).getD (.internal .vertical))).filterMap leafImg? =
      g.indices.filterMap
        (fun i => leafImg? ((g.label? i).getD (.internal .vertical))) := by
    rw [List.filterMap_map]
    rfl
  rw [← h2, hmapid]

theorem flatMap_snd_mapped (base : Nat) (rep : List (String × List Nat)) :
    (rep.map (fun pc => (pc.1, pc.2.map (fun c => base + c)))).flatMap
      (fun pc => pc.2) =
      (rep.flatMap (fun pc => pc.2)).map (fun c => base + c) := by
  induction rep with
  | nil => rfl
  | cons p rest ih =>
    rw [List.map_cons, List.flatMap_cons, List.flatMap_cons, List.map_append,
      ih]

theorem swap_fold_eq (L other : Layout) (oi : Nat) {s2 : ITree}
    (hbp : other.graph.subtreeToBlueprint oi = repSpec s2)
    (hnd2 : s2.indexList.Nodup)
    (hbound : ∀ e ∈ L.graph.edges, e.2 < L.graph.nodeCount) :
    List.foldl (fun g p => List.foldl (fun g' c =>
        g'.updateEdge (L.graph.nodeCount + p.1) (L.graph.nodeCount + c))
        g p.2.2)
      (List.foldl (fun g p => g.addNode (.internal
        (if p.1 == "H" then .horizontal else .vertical)))
        L.graph (other.graph.subtreeToBlueprint oi))
      (other.graph.subtreeToBlueprint oi).enum = spliceG2 L s2 := by
  rw [hbp]
  rw [foldl_addNode_acc (fun p => NodeLabel.internal
    (if p.1 == "H" then SliceDirection.horizontal else
      SliceDirection.vertical)) (repSpec s2) L.graph]
  rw [List.enum_eq_enumFrom]
  rw [skeleton_fold_eq L.graph.nodeCount (repSpec s2) 0]
  have hflat : ((repSpec s2).map (fun pc =>
      (pc.1, pc.2.map (fun c => L.graph.nodeCount + c)))).flatMap
      (fun pc => pc.2) =
      ((repSpec s2).flatMap (fun pc => pc.2)).map
        (fun c => L.graph.nodeCount + c) :=
    flatMap_snd_mapped L.graph.nodeCount (repSpec s2)
  have hfresh : ∀ e ∈ (⟨L.graph.nodes ++
      (repSpec s2).map (fun p => NodeLabel.internal
        (if p.1 == "H" then SliceDirection.horizontal else
          SliceDirection.vertical)), L.graph.edges⟩ : LayoutGraph).edges,
      ∀ c ∈ ((repSpec s2).map (fun pc =>
        (pc.1, pc.2.map (fun c => L.graph.nodeCount + c)))).flatMap
        (fun pc => pc.2), e.2 ≠ c := by
    intro e he c hc
    have he2 : e ∈ L.graph.edges := he
    rw [hflat, List.mem_map] at hc
    obtain ⟨c0, -, rfl⟩ := hc
    have := (hbound e he2)
    omega
  have hndflat : (((repSpec s2).map (fun pc =>
      (pc.1, pc.2.map (fun c => L.graph.nodeCount + c)))).flatMap
      (fun pc => pc.2)).Nodup := by
    rw [hflat]
    exact (repSpec_flat_nodup hnd2).map
      (fun a b h => Nat.add_left_cancel h)
  have hedges := addBlueprintEdges_edges_spec
    ((repSpec s2).map (fun pc =>
      (pc.1, pc.2.map (fun c => L.graph.nodeCount + c))))
    (⟨L.graph.nodes ++ (repSpec s2).map (fun p => NodeLabel.internal
        (if p.1 == "H" then SliceDirection.horizontal else
          SliceDirection.vertical)), L.graph.edges⟩ : LayoutGraph)
    (L.graph.nodeCount + 0) hfresh hndflat
  have hnodes := foldl_edgeAdd_nodes
    (((repSpec s2).map (fun pc =>
      (pc.1, pc.2.map (fun c => L.graph.nodeCount + c)))).enumFrom
      (L.graph.nodeCount + 0))
    (⟨L.graph.nodes ++ (repSpec s2).map (fun p => NodeLabel.internal
        (if p.1 == "H" then SliceDirection.horizontal else
          SliceDirection.vertical)), L.graph.edges⟩ : LayoutGraph)
  refine graph_eq_of_fields ?_ ?_
  · rw [hnodes]
  · rw [hedges, enumFrom_shift_flatMap L.graph.nodeCount (repSpec s2) 0]
    rfl

theorem spliceG2_nodeCount (L : Layout) (s2 : ITree) :
    (spliceG2 L s2).nodeCount = L.graph.nodeCount + (repSpec s2).length := by
  simp [spliceG2, LayoutGraph.nodeCount]

theorem spliceG2_label_low {L : Layout} {s2 : ITree} {i : Nat}
    (h : i < L.graph.nodeCount) :
    (spliceG2 L s2).label? i = L.graph.label? i := by
  rw [LayoutGraph.label?, LayoutGraph.label?]
  show (L.graph.nodes ++ _).get? i = _
  rw [List.get?_append h]

theorem spliceG2_outEdges_low {L : Layout} {s2 : ITree} {i : Nat}
    (h : i < L.graph.nodeCount) :
    (spliceG2 L s2).outEdges i = L.graph.outEdges i := by
  rw [LayoutGraph.outEdges, LayoutGraph.outEdges]
  show (L.graph.edges ++ _).filter _ = _
  rw [List.filter_append]
  have hnil : (((reconE1 s2).map (fun e =>
      (L.graph.nodeCount + e.1, L.graph.nodeCount + e.2))).filter
      (fun e => e.1 == i)) = [] := by
    rw [List.filter_eq_nil_iff]
    intro e he
    rw [List.mem_map] at he
    obtain ⟨e0, -, rfl⟩ := he
    simp only [beq_iff_eq]
    omega
  rw [hnil, List.append_nil]

theorem spliceG2_outDeg_high {L : Layout} {s2 : ITree} {j : Nat}
    (hbound : ∀ e ∈ L.graph.edges, e.1 < L.graph.nodeCount) :
    (spliceG2 L s2).outDeg (L.graph.nodeCount + j) =
      (reconG1 s2).outDeg j := by
  rw [outDeg_eq_filter, outDeg_eq_filter]
  show ((L.graph.edges ++ _).filter _).length = _
  rw [List.filter_append, List.length_append]
  have h1 : (L.graph.edges.filter
      (fun e => e.1 == L.graph.nodeCount + j)) = [] := by
    rw [List.filter_eq_nil_iff]
    intro e he
    have := hbound e he
    simp only [beq_iff_eq]
    omega
  have h2 : (((reconE1 s2).map (fun e =>
      (L.graph.nodeCount + e.1, L.graph.nodeCount + e.2))).filter
      (fun e => e.1 == L.graph.nodeCount + j)) =
      ((reconE1 s2).filter (fun e => e.1 == j)).map (fun e =>
        (L.graph.nodeCount + e.1, L.graph.nodeCount + e.2)) := by
    rw [List.filter_map]
    congr 1
    apply List.filter_congr
    intro e he
    show (L.graph.nodeCount + e.1 == L.graph.nodeCount + j) = (e.1 == j)
    by_cases heq : e.1 = j
    · simp [heq]
    · have hne : ¬ (L.graph.nodeCount + e.1 = L.graph.nodeCount + j) := by
        omega
      simp [heq, hne]
  rw [h1, h2, List.length_map]
  simp
  rfl

theorem spliceG2_label_high {L : Layout} {s2 : ITree} {j : Nat}
    (hj : j < (repSpec s2).length) :
    ∃ d, (spliceG2 L s2).label? (L.graph.nodeCount + j) =
      some (.internal d) := by
  rw [LayoutGraph.label?]
  show ∃ d, (L.graph.nodes ++ (repSpec s2).map (fun p => NodeLabel.internal
      (if p.1 == "H" then SliceDirection.horizontal else
        SliceDirection.vertical))).get? (L.graph.nodeCount + j) =
      some (.internal d)
  have hge : L.graph.nodes.length ≤ L.graph.nodeCount + j := by
    show L.graph.nodes.length ≤ L.graph.nodes.length + j
    omega
  rw [List.get?_append_right hge]
  have hidx : L.graph.nodeCount + j - L.graph.nodes.length = j := by
    show L.graph.nodes.length + j - L.graph.nodes.length = j
    omega
  rw [hidx, List.get?_map]
  obtain ⟨row, hrow⟩ : ∃ row, (repSpec s2).get? j = some row :=
    ⟨_, List.get?_eq_get hj⟩
  rw [hrow]
  exact ⟨_, rfl⟩

theorem spliceG2_openIndices {L : Layout} {t : ITree} (hw : WFL L t)
    (s2 : ITree) :
    (spliceG2 L s2).openIndices =
      ((List.range (repSpec s2).length).filter
        (fun j => (reconG1 s2).outDeg j < 2)).map
        (fun j => L.graph.nodeCount + j) := by
  rw [LayoutGraph.openIndices, LayoutGraph.indices, spliceG2_nodeCount,
    List.range_add, List.filter_append]
  have hlow : ((List.range L.graph.nodeCount).filter (fun i =>
      (((spliceG2 L s2).label? i).map NodeLabel.isInternal).getD false &&
      (spliceG2 L s2).outDeg i < 2)) = [] := by
    rw [List.filter_eq_nil_iff]
    intro i hi
    rw [List.mem_range] at hi
    rw [spliceG2_label_low hi]
    cases hla : L.graph.label? i with
    | none => simp
    | some lab =>
      cases lab with
      | leaf im => simp [NodeLabel.isInternal]
      | internal d =>
        obtain ⟨u, hu, rfl⟩ := hw.exists_node_of_lt hi
        have hlab := spans_label (spans_of_mem hw.1 hu)
        rw [hla] at hlab
        cases u with
        | leaf k im =>
          exact absurd hlab.symm (by simp [ITree.labelOf])
        | node k d2 lc rc =>
          have hdeg := (spans_node (spans_of_mem hw.1 hu)).2.1
          have hdeg2 : (spliceG2 L s2).outDeg (ITree.node k d2 lc rc).idx =
              2 := by
            rw [outDeg_congr (spliceG2_outEdges_low hi)]
            exact hdeg
          rw [hdeg2]
          simp
  rw [hlow, List.nil_append]
  rw [List.filter_map]
  congr 1
  apply List.filter_congr
  intro j hj
  rw [List.mem_range] at hj
  show ((((spliceG2 L s2).label? (L.graph.nodeCount + j)).map
      NodeLabel.isInternal).getD false &&
      decide ((spliceG2 L s2).outDeg (L.graph.nodeCount + j) < 2)) =
      decide ((reconG1 s2).outDeg j < 2)
  obtain ⟨d, hd⟩ := @spliceG2_label_high L s2 j hj
  rw [hd, spliceG2_outDeg_high (fun e he => (hw.2.2 e he).1)]
  simp [NodeLabel.isInternal]

theorem spliceG2_slotsum {L : Layout} {t : ITree} (hw : WFL L t) {s2 : ITree}
    (hnd2 : s2.indexList.Nodup) (hs2int : s2.labelOf.isInternal = true) :
    ((spliceG2 L s2).openIndices.map
      (fun i => 2 - (spliceG2 L s2).outDeg i)).sum =
      (bfsLeaves s2).length := by
  rw [spliceG2_openIndices hw s2, List.map_map]
  have hcongr : ∀ j ∈ (List.range (repSpec s2).length).filter
      (fun j => (reconG1 s2).outDeg j < 2),
      ((fun i => 2 - (spliceG2 L s2).outDeg i) ∘
        (fun j => L.graph.nodeCount + j)) j =
      (fun j => 2 - (reconG1 s2).outDeg j) j := by
    intro j hj
    show 2 - (spliceG2 L s2).outDeg (L.graph.nodeCount + j) =
      2 - (reconG1 s2).outDeg j
    rw [spliceG2_outDeg_high (fun e he => (hw.2.2 e he).1)]
  rw [map_congr_mem hcongr]
  rw [sum_map_filter_zero (fun j => decide ((reconG1 s2).outDeg j < 2))
    (fun j => 2 - (reconG1 s2).outDeg j) _ ?_]
  · have hK : (repSpec s2).length = (bfsInternals s2).length := by
      rw [repSpec, List.length_map]
    rw [hK]
    exact sum_slots_total hnd2 hs2int
  · intro q hq hfalse
    simp only [decide_eq_false_iff_not, Nat.not_lt] at hfalse
    show 2 - (reconG1 s2).outDeg q = 0
    omega

theorem spliceG2_spans {L : Layout} {t : ITree} (hw : WFL L t) {s1 : ITree}
    (hs1 : s1 ∈ t.allNodes) (s2 : ITree) :
    spansB (spliceG2 L s2) s1 = true :=
  spansB_extend (fun i hi => spliceG2_label_low hi)
    (fun i hi => spliceG2_outEdges_low hi) (spans_of_mem hw.1 hs1)
    (fun u hu => hw.idx_lt (ITree.mem_allNodes_of_mem_allNodes hs1 hu))

theorem spliceG2_bfs {L : Layout} {t : ITree} (hw : WFL L t) {s1 : ITree}
    (hs1 : s1 ∈ t.allNodes) (s2 : ITree) :
    (spliceG2 L s2).bfsFrom s1.idx = (treeBfs [s1]).map ITree.idx := by
  apply bfsFrom_eq_of_spans (spliceG2_spans hw hs1 s2)
  have h1 : s1.size ≤ t.size := ITree.size_le_of_mem_allNodes hs1
  have h2 : t.size = L.graph.nodeCount := hw.size_eq
  rw [spliceG2_nodeCount]
  omega

theorem spliceG2_leafIdcs {L : Layout} {t : ITree} (hw : WFL L t)
    {s1 : ITree} (hs1 : s1 ∈ t.allNodes) (s2 : ITree) :
    ((spliceG2 L s2).bfsFrom s1.idx).filter (fun i =>
      (((spliceG2 L s2).label? i).map NodeLabel.isLeaf).getD false) =
      (bfsLeaves s1).map ITree.idx :=
  bfs_filter_isLeaf (spliceG2_spans hw hs1 s2) (spliceG2_bfs hw hs1 s2)

theorem spliceG2_fill {L : Layout} {t : ITree} (hw : WFL L t) {s1 s2 : ITree}
    (hs1 : s1 ∈ t.allNodes) (hnd2 : s2.indexList.Nodup)
    (hs2int : s2.labelOf.isInternal = true)
    (hcount : (bfsLeaves s1).length = (bfsLeaves s2).length) :
    ∃ g3 rest, fillAllWith (spliceG2 L s2) (spliceG2 L s2).openIndices
      ((bfsLeaves s1).map ITree.idx) = .ok (g3, rest) ∧
      g3.nodes = (spliceG2 L s2).nodes := by
  have hnd1 : s1.indexList.Nodup := subtree_indexList_nodup hw.nodup s1 hs1
  have hodup : (spliceG2 L s2).openIndices.Nodup := by
    rw [spliceG2_openIndices hw s2]
    exact ((List.nodup_range _).filter _).map
      (fun a b h => Nat.add_left_cancel h)
  have hldup : ((bfsLeaves s1).map ITree.idx).Nodup :=
    bfsLeaves_idx_nodup_nd hnd1
  have hni : ∀ i ∈ (spliceG2 L s2).openIndices,
      ∀ lf ∈ (bfsLeaves s1).map ITree.idx,
      (i, lf) ∉ (spliceG2 L s2).edges := by
    intro i hi lf hlf hmem
    rw [spliceG2_openIndices hw s2, List.mem_map] at hi
    obtain ⟨j, -, rfl⟩ := hi
    rw [List.mem_map] at hlf
    obtain ⟨u, hu, rfl⟩ := hlf
    have hua : u ∈ t.allNodes := ITree.mem_allNodes_of_mem_allNodes hs1
      (mem_allNodes_of_mem_bfsLeaves hu)
    have hlf_lt : u.idx < L.graph.nodeCount := hw.idx_lt hua
    have hmem2 : (L.graph.nodeCount + j, u.idx) ∈ L.graph.edges ++
        (reconE1 s2).map (fun e =>
          (L.graph.nodeCount + e.1, L.graph.nodeCount + e.2)) := hmem
    rw [List.mem_append] at hmem2
    rcases hmem2 with h | h
    · have h2 : L.graph.nodeCount + j < L.graph.nodeCount :=
        (hw.2.2 _ h).1
      omega
    · rw [List.mem_map] at h
      obtain ⟨e0, -, heq⟩ := h
      have h2 : L.graph.nodeCount + e0.2 = u.idx := congrArg Prod.snd heq
      omega
  have hsum := spliceG2_slotsum hw hnd2 hs2int
  have hle : ((spliceG2 L s2).openIndices.map
      (fun i => 2 - (spliceG2 L s2).outDeg i)).sum ≤
      ((bfsLeaves s1).map ITree.idx).length := by
    rw [hsum, List.length_map, hcount]
  exact fillAllWith_ok _ _ _ hodup hldup hni hle

theorem swap_subtree_ok {L other : Layout} {t t2 : ITree} (hw : WFL L t)
    (hw2 : WFL other t2) {s1 s2 : ITree}
    (hs1 : s1 ∈ t.allNodes) (hs2 : s2 ∈ t2.allNodes)
    (hs2int : s2.labelOf.isInternal = true)
    (hcount : (bfsLeaves s1).length = (bfsLeaves s2).length) :
    ∃ L', L.swap_subtree other s1.idx s2.idx = PanicOr.ret L' ∧
      L'.leafImgs = L.leafImgs ∧
      L'.canvas_dimensions = L.canvas_dimensions := by
  have hnd2 : s2.indexList.Nodup := subtree_indexList_nodup hw2.nodup s2 hs2
  have hsp2 : spansB other.graph s2 = true := spans_of_mem hw2.1 hs2
  have hsz2 : s2.size ≤ other.graph.nodeCount :=
    le_trans (ITree.size_le_of_mem_allNodes hs2) (le_of_eq hw2.size_eq)
  have hbp : other.graph.subtreeToBlueprint s2.idx = repSpec s2 :=
    subtreeToBlueprint_spec hsp2 (bfsFrom_eq_of_spans hsp2 hsz2)
  obtain ⟨g3, rest, hfill, hg3n⟩ := spliceG2_fill hw hs1 hnd2 hs2int hcount
  have hfinal : g3.nodes.filterMap leafImg? =
      L.graph.nodes.filterMap leafImg? := by
    rw [hg3n]
    show (L.graph.nodes ++ (repSpec s2).map (fun p => NodeLabel.internal
      (if p.1 == "H" then SliceDirection.horizontal else
        SliceDirection.vertical))).filterMap leafImg? =
      L.graph.nodes.filterMap leafImg?
    rw [List.filterMap_append]
    have hnil : ((repSpec s2).map (fun p => NodeLabel.internal
        (if p.1 == "H" then SliceDirection.horizontal else
          SliceDirection.vertical))).filterMap leafImg? = [] := by
      rw [List.filterMap_eq_nil]
      intro a ha
      rw [List.mem_map] at ha
      obtain ⟨p, -, rfl⟩ := ha
      rfl
    rw [hnil, List.append_nil]
  have hkeep3 : ∀ i, (!(((spliceG2 L s2).bfsFrom s1.idx).filter (fun i =>
      (((spliceG2 L s2).label? i).map NodeLabel.isInternal).getD
        false)).contains i) = false →
      ∃ d, g3.label? i = some (NodeLabel.internal d) := by
    intro i h
    have hcont : (((spliceG2 L s2).bfsFrom s1.idx).filter (fun i =>
        (((spliceG2 L s2).label? i).map NodeLabel.isInternal).getD
          false)).contains i = true := by
      simpa using h
    have hmem : i ∈ ((spliceG2 L s2).bfsFrom s1.idx).filter (fun i =>
        (((spliceG2 L s2).label? i).map NodeLabel.isInternal).getD
          false) := by
      simpa [List.contains] using hcont
    have hpred := (List.mem_filter.mp hmem).2
    have hlabeq : g3.label? i = (spliceG2 L s2).label? i :=
      label?_congr hg3n i
    cases hla : (spliceG2 L s2).label? i with
    | none => rw [hla] at hpred; simp at hpred
    | some lab =>
      cases lab with
      | leaf im =>
        rw [hla] at hpred
        simp [NodeLabel.isInternal] at hpred
      | internal d =>
        exact ⟨d, hlabeq.trans hla⟩
  simp only [Layout.swap_subtree]
  rw [swap_fold_eq L other s2.idx hbp hnd2 (fun e he => (hw.2.2 e he).2)]
  rw [spliceG2_leafIdcs hw hs1 s2]
  rw [hfill]
  refine ⟨_, rfl, ?_, rfl⟩
  simp only [Layout.leafImgs]
  split
  · split
    · rw [nodes_swap_order]
      rename_i p hpar
      rw [leafImgs_filterMapGraph ?_]
      · show List.filterMap leafImg?
            (g3.updateEdge p L.graph.nodeCount).nodes =
          List.filterMap leafImg? L.graph.nodes
        rw [nodes_updateEdge]
        exact hfinal
      · intro i hkf
        obtain ⟨d, hd⟩ := hkeep3 i hkf
        refine ⟨d, ?_⟩
        show (g3.updateEdge p L.graph.nodeCount).label? i =
          some (NodeLabel.internal d)
        exact (label?_congr (nodes_updateEdge g3 p L.graph.nodeCount) i).trans
          hd
    · rename_i hpar
      rw [leafImgs_filterMapGraph ?_]
      · show List.filterMap leafImg? g3.nodes =
          List.filterMap leafImg? L.graph.nodes
        exact hfinal
      · intro i hkf
        obtain ⟨d, hd⟩ := hkeep3 i hkf
        refine ⟨d, ?_⟩
        show g3.label? i = some (NodeLabel.internal d)
        exact hd
  · rw [leafImgs_filterMapGraph ?_]
    · have hn4 : (match g3.parent? s1.idx with
          | some p => g3.updateEdge p L.graph.nodeCount
          | none => g3).nodes = g3.nodes := by
        cases g3.parent? s1.idx with
        | none => rfl
        | some q => exact nodes_updateEdge g3 q L.graph.nodeCount
      rw [hn4]
      exact hfinal
    · intro i hkf
      obtain ⟨d, hd⟩ := hkeep3 i hkf
      refine ⟨d, ?_⟩
      have hn4 : (match g3.parent? s1.idx with
          | some p => g3.updateEdge p L.graph.nodeCount
          | none => g3).nodes = g3.nodes := by
        cases g3.parent? s1.idx with
        | none => rfl
        | some q => exact nodes_updateEdge g3 q L.graph.nodeCount
      exact (label?_congr hn4 i).trans hd

theorem mem_subtree_pairs {L other : Layout} {p : (Nat × Nat) × (Nat × Nat)}
    (h : p ∈ L.subtree_pairs other) :
    p.1 ∈ L.subtrees ∧ p.2 ∈ other.subtrees ∧ p.1.2 = p.2.2 := by
  rw [Layout.subtree_pairs, List.mem_filter] at h
  obtain ⟨hmem, hbeq⟩ := h
  rw [List.mem_flatMap] at hmem
  obtain ⟨a, ha, hmem2⟩ := hmem
  rw [List.mem_map] at hmem2
  obtain ⟨b, hb, rfl⟩ := hmem2
  exact ⟨ha, hb, by simpa using hbeq⟩

theorem subtree_node_of_mem {L : Layout} {t : ITree} (hw : WFL L t)
    {i c : Nat} (h : (i, c) ∈ L.subtrees) :
    ∃ s ∈ t.allNodes, s.idx = i ∧ s.labelOf.isInternal = true ∧
      (bfsLeaves s).length = c := by
  obtain ⟨hint, hc, h3⟩ := mem_subtrees h
  obtain ⟨s, hs, rfl, hsint⟩ := exists_subtree_at hw hint
  refine ⟨s, hs, rfl, hsint, ?_⟩
  have hsp : spansB L.graph s = true := spans_of_mem hw.1 hs
  have hsz : s.size ≤ L.graph.nodeCount :=
    le_trans (ITree.size_le_of_mem_allNodes hs) (le_of_eq hw.size_eq)
  rw [hc]
  exact (subtreeLeafCount_spec hsp hsz).symm

/-! Theorems. -/

/-- C5: for every layout, the fitness driving selection equals
`|leaves| * scale_factor + coverage_deficit` (the `cost` functional), and it
differs from the legacy alternative `scale_factor + |leaves| * coverage_deficit`
on some layout, so the legacy formula does not drive selection. -/
theorem C5_cost_formula_drives_fitness :
    (∀ L : Layout, FitnessCalc.fitness_of L =
      (L.graph.leafIndices.length : ℚ) * L.scale_factor +
        L.coverage_of_canvas_area) ∧
    ∃ L : Layout, FitnessCalc.fitness_of L ≠ L.old_cost := by
  refine ⟨fun L => rfl, ⟨⟨⟨[], []⟩, ⟨1, 1⟩⟩, ?_⟩⟩
  simp only [FitnessCalc.fitness_of, Layout.cost, Layout.old_cost,
    Layout.scale_factor, Layout.coverage_of_canvas_area,
    LayoutGraph.leafIndices, LayoutGraph.indices, LayoutGraph.nodeCount]
  norm_num

/-- C7 counterexample: `randomize_width` casts `w + Δ` back to `u32` with a
wrapping cast, so for the canvas `(1, 2^31)` and the in-range draw
`Δ = 2^32 - 1` the resulting width is `0`, not at least `1` as claimed. -/
theorem C7_randomize_width_counterexample :
    (-((1 : Int) - 1) ≤ (2 ^ 32 - 1 : Int) ∧
      (2 ^ 32 - 1 : Int) ≤ 2 * ((2 ^ 31 : Nat) : Int)) ∧
    (Layout.randomize_width ⟨⟨[], []⟩, ⟨1, 2 ^ 31⟩⟩ (2 ^ 32 - 1)
      ).canvas_dimensions.width = 0 := by
  refine ⟨⟨by decide, by decide⟩, by decide⟩

/-- C7 (amended): when `w + 2h < 2^32` (so the wrapping `i64 → u32` cast is
the identity), `randomize_width` with an in-range draw
`Δ ∈ [-(w-1), 2h]` sets the width to `w + Δ`, which lies in `[1, w + 2h]`,
and changes no other field. -/
theorem C7_randomize_width_amended (L : Layout) (delta : Int)
    (hw : 1 ≤ L.canvas_dimensions.width)
    (hlo : -((L.canvas_dimensions.width : Int) - 1) ≤ delta)
    (hhi : delta ≤ 2 * (L.canvas_dimensions.height : Int))
    (hnoovf : (L.canvas_dimensions.width : Int) +
      2 * (L.canvas_dimensions.height : Int) < 2 ^ 32) :
    ((L.randomize_width delta).canvas_dimensions.width : Int) =
      (L.canvas_dimensions.width : Int) + delta ∧
    1 ≤ (L.randomize_width delta).canvas_dimensions.width ∧
    ((L.randomize_width delta).canvas_dimensions.width : Int) ≤
      (L.canvas_dimensions.width : Int) +
        2 * (L.canvas_dimensions.height : Int) ∧
    (L.randomize_width delta).canvas_dimensions.height =
      L.canvas_dimensions.height ∧
    (L.randomize_width delta).graph = L.graph := by
  have h1 : (1 : Int) ≤ (L.canvas_dimensions.width : Int) + delta := by omega
  have h2 : (L.canvas_dimensions.width : Int) + delta < 2 ^ 32 := by omega
  have hmod : ((L.canvas_dimensions.width : Int) + delta) % (2 ^ 32 : Int) =
      (L.canvas_dimensions.width : Int) + delta :=
    Int.emod_eq_of_lt (by omega) h2
  refine ⟨?_, ?_, ?_, rfl, rfl⟩
  · simp only [Layout.randomize_width, hmod]
    omega
  · simp only [Layout.randomize_width, hmod]
    omega
  · simp only [Layout.randomize_width, hmod]
    omega

theorem C7_randomize_width_amended_witness :
    (1 ≤ (⟨⟨[], []⟩, ⟨10, 7⟩⟩ : Layout).canvas_dimensions.width ∧
      -((((⟨⟨[], []⟩, ⟨10, 7⟩⟩ : Layout).canvas_dimensions.width : Int)) - 1) ≤ (5 : Int) ∧
      (5 : Int) ≤ 2 * ((⟨⟨[], []⟩, ⟨10, 7⟩⟩ : Layout).canvas_dimensions.height : Int) ∧
      ((⟨⟨[], []⟩, ⟨10, 7⟩⟩ : Layout).canvas_dimensions.width : Int) +
        2 * ((⟨⟨[], []⟩, ⟨10, 7⟩⟩ : Layout).canvas_dimensions.height : Int) < 2 ^ 32) ∧
    1 ≤ ((⟨⟨[], []⟩, ⟨10, 7⟩⟩ : Layout).randomize_width 5).canvas_dimensions.width := by
  refine ⟨⟨by decide, by decide, by decide, by decide⟩, ?_⟩
  exact (C7_randomize_width_amended ⟨⟨[], []⟩, ⟨10, 7⟩⟩ 5 (by decide) (by decide)
    (by decide) (by decide)).2.1

/-- C9 counterexample: on fewer than two images the layout-construction entry
points do not return a descriptive error value — they panic (abort):
`Layout::new` panics, and the `generate_layout` dispatch in lib.rs panics. -/
theorem C9_less_than_two_images_counterexample :
    Layout.new [] ⟨⟨0, 0⟩, [], fun _ => .vertical, fun _ => 0⟩ =
      .panicked "Attempted to create a layout with less than two images" ∧
    generateLayoutDispatch [] = .sliceBoundsPanic :=
  ⟨rfl, rfl⟩

/-- C9 (amended): for every input with fewer than two images, the
layout-construction entry points abort with a panic instead of surfacing an
error value: `Layout::new` panics with its own message, and the
`generate_layout` dispatch panics inside `images.split_at_mut(2)` with the
standard library's bounds assertion, the crate's own
`panic!("Less than two images received")` being dead code. -/
theorem C9_less_than_two_images_panics (images : List Img) (o : NewOracle)
    (h : images.length < 2) :
    Layout.new images o =
      .panicked "Attempted to create a layout with less than two images" ∧
    generateLayoutDispatch images = .sliceBoundsPanic := by
  constructor
  · simp [Layout.new, h]
  · have h2 : ¬ images.length > 2 := by omega
    simp [generateLayoutDispatch, h2, h]

theorem C9_less_than_two_images_panics_witness :
    ([] : List Img).length < 2 ∧
    Layout.new [] ⟨⟨0, 0⟩, [], fun _ => .vertical, fun _ => 0⟩ =
      .panicked "Attempted to create a layout with less than two images" :=
  ⟨by decide,
   (C9_less_than_two_images_panics []
     ⟨⟨0, 0⟩, [], fun _ => .vertical, fun _ => 0⟩ (by decide)).1⟩

/-- C10: `randomize_dimensions_by_equal_factor` truncates `dimension * f`
toward zero with no lower bound, so both dimensions follow the truncation
formula, and a canvas of height `1` scaled by the in-range factor `1/2`
becomes `0`. -/
theorem C10_equal_factor_can_zero :
    (∀ (L : Layout) (f : ℚ),
      (L.randomize_dimensions_by_equal_factor f).canvas_dimensions =
        ⟨ratToU32 ((L.canvas_dimensions.width : ℚ) * f),
         ratToU32 ((L.canvas_dimensions.height : ℚ) * f)⟩) ∧
    ∃ (L : Layout) (f : ℚ), 1 / 2 ≤ f ∧ f ≤ 3 / 2 ∧
      (L.randomize_dimensions_by_equal_factor f).canvas_dimensions.height = 0 := by
  refine ⟨fun L f => rfl, ⟨⟨⟨[], []⟩, ⟨4, 1⟩⟩, 1 / 2, ?_, ?_, ?_⟩⟩
  · norm_num
  · norm_num
  · show ratToU32 ((1 : ℚ) * (1 / 2)) = 0
    norm_num [ratToU32]

/-- C3: on a well-formed layout the aspect ratio follows the structural
recursion: a leaf referencing an image `(w, h)` has aspect ratio `w / h`, a
Vertical internal node has `AR(left) + AR(right)`, and a Horizontal internal
node has `1 / (1/AR(left) + 1/AR(right))`. -/
theorem C3_aspect_ratio_recursion (L : Layout) (t : ITree) (hw : WFL L t) :
    (∀ i img, ITree.leaf i img ∈ t.allNodes →
      L.aspectRatAt i = (img.width : ℚ) / (img.height : ℚ)) ∧
    (∀ i l r, ITree.node i SliceDirection.vertical l r ∈ t.allNodes →
      L.aspectRatAt i = L.aspectRatAt l.idx + L.aspectRatAt r.idx) ∧
    (∀ i l r, ITree.node i SliceDirection.horizontal l r ∈ t.allNodes →
      L.aspectRatAt i =
        1 / (1 / L.aspectRatAt l.idx + 1 / L.aspectRatAt r.idx)) := by
  have key : ∀ s ∈ t.allNodes, L.aspectRatAt s.idx = arT s := by
    intro s hs
    refine aspectRat_spec s (spans_of_mem hw.1 hs) _ ?_
    have h1 := ITree.size_le_of_mem_allNodes hs
    have h2 := hw.size_eq
    omega
  refine ⟨?_, ?_, ?_⟩
  · intro i img hm
    have h := key _ hm
    simpa [ITree.idx_leaf, arT] using h
  · intro i l r hm
    have h := key _ hm
    have hl := key l (ITree.child_mem_allNodes hm (by simp [ITree.childTrees]))
    have hr := key r (ITree.child_mem_allNodes hm (by simp [ITree.childTrees]))
    simp only [ITree.idx_node, arT] at h
    rw [h, hl, hr]
  · intro i l r hm
    have h := key _ hm
    have hl := key l (ITree.child_mem_allNodes hm (by simp [ITree.childTrees]))
    have hr := key r (ITree.child_mem_allNodes hm (by simp [ITree.childTrees]))
    simp only [ITree.idx_node, arT] at h
    rw [h, hl, hr]

theorem C3_aspect_ratio_recursion_witness :
    WFL ⟨⟨[.internal .vertical, .leaf ⟨1, 2, 0⟩, .leaf ⟨3, 4, 0⟩],
          [(0, 1), (0, 2)]⟩, ⟨10, 10⟩⟩
        (ITree.node 0 .vertical (.leaf 1 ⟨1, 2, 0⟩) (.leaf 2 ⟨3, 4, 0⟩)) ∧
    (⟨⟨[.internal .vertical, .leaf ⟨1, 2, 0⟩, .leaf ⟨3, 4, 0⟩],
       [(0, 1), (0, 2)]⟩, ⟨10, 10⟩⟩ : Layout).aspectRatAt 0 =
      (⟨⟨[.internal .vertical, .leaf ⟨1, 2, 0⟩, .leaf ⟨3, 4, 0⟩],
         [(0, 1), (0, 2)]⟩, ⟨10, 10⟩⟩ : Layout).aspectRatAt 1 +
      (⟨⟨[.internal .vertical, .leaf ⟨1, 2, 0⟩, .leaf ⟨3, 4, 0⟩],
         [(0, 1), (0, 2)]⟩, ⟨10, 10⟩⟩ : Layout).aspectRatAt 2 := by
  have hw : WFL ⟨⟨[.internal .vertical, .leaf ⟨1, 2, 0⟩, .leaf ⟨3, 4, 0⟩],
      [(0, 1), (0, 2)]⟩, ⟨10, 10⟩⟩
      (ITree.node 0 .vertical (.leaf 1 ⟨1, 2, 0⟩) (.leaf 2 ⟨3, 4, 0⟩)) := by
    refine ⟨by decide, by decide, by decide⟩
  refine ⟨hw, ?_⟩
  exact (C3_aspect_ratio_recursion _ _ hw).2.1 0
    (.leaf 1 ⟨1, 2, 0⟩) (.leaf 2 ⟨3, 4, 0⟩) (by decide)

/-- C4: on a well-formed layout the rectangle of every node is derived
top-down from its parent's rectangle (the root using `canvas_dimensions`):
`width = min(parent.width, floor(AR * parent.height))` and
`height = floor(width / AR)`, truncating toward zero. -/
theorem C4_dimensions_topdown (L : Layout) (t : ITree) (hw : WFL L t) :
    ((L.nodeDimsAt t.idx).width =
       min L.canvas_dimensions.width
         (ratToU32 (L.aspectRatAt t.idx * (L.canvas_dimensions.height : ℚ))) ∧
     (L.nodeDimsAt t.idx).height =
       ratToU32 ((((L.nodeDimsAt t.idx).width : Nat) : ℚ) /
         L.aspectRatAt t.idx)) ∧
    (∀ i d l r, ITree.node i d l r ∈ t.allNodes →
      ∀ c ∈ (ITree.node i d l r).childTrees,
        (L.nodeDimsAt c.idx).width =
          min (L.nodeDimsAt i).width
            (ratToU32 (L.aspectRatAt c.idx *
              ((L.nodeDimsAt i).height : ℚ))) ∧
        (L.nodeDimsAt c.idx).height =
          ratToU32 ((((L.nodeDimsAt c.idx).width : Nat) : ℚ) /
            L.aspectRatAt c.idx)) := by
  constructor
  · have hunfold := @nodeDims_succ_none L.graph L.canvas_dimensions
      L.graph.nodeCount t.idx hw.parent_root
    constructor
    · rw [Layout.nodeDimsAt, hunfold]
      rfl
    · rw [Layout.nodeDimsAt, hunfold]
      rfl
  · intro i d l r hm c hc
    obtain ⟨dep, hd⟩ := exists_atDepth hm
    have hsize := hd.size_le
    have hn := hw.size_eq
    have hlp := l.size_pos
    have hrp := r.size_pos
    have hsz3 : 3 ≤ (ITree.node i d l r).size := by
      simp [ITree.size]
      omega
    have hp : L.graph.parent? c.idx = some i := hw.parent_eq hm hc
    have hstab := nodeDims_stable hw hd L.graph.nodeCount
      (L.graph.nodeCount + 1) (by simp [ITree.size] at hsize; omega)
      (by simp [ITree.size] at hsize; omega)
    simp only [ITree.idx_node] at hstab
    have hunfold := @nodeDims_succ_some L.graph L.canvas_dimensions
      L.graph.nodeCount c.idx i hp
    constructor
    · rw [Layout.nodeDimsAt, hunfold, hstab]
      rfl
    · rw [Layout.nodeDimsAt, hunfold, hstab]
      rfl

theorem C4_dimensions_topdown_witness :
    WFL ⟨⟨[.internal .vertical, .leaf ⟨1, 2, 0⟩, .leaf ⟨3, 4, 0⟩],
          [(0, 1), (0, 2)]⟩, ⟨10, 10⟩⟩
        (ITree.node 0 .vertical (.leaf 1 ⟨1, 2, 0⟩) (.leaf 2 ⟨3, 4, 0⟩)) ∧
    ((⟨⟨[.internal .vertical, .leaf ⟨1, 2, 0⟩, .leaf ⟨3, 4, 0⟩],
        [(0, 1), (0, 2)]⟩, ⟨10, 10⟩⟩ : Layout).nodeDimsAt 0).width =
      min 10
        (ratToU32 ((⟨⟨[.internal .vertical, .leaf ⟨1, 2, 0⟩, .leaf ⟨3, 4, 0⟩],
          [(0, 1), (0, 2)]⟩, ⟨10, 10⟩⟩ : Layout).aspectRatAt 0 * (10 : ℚ))) := by
  have hw : WFL ⟨⟨[.internal .vertical, .leaf ⟨1, 2, 0⟩, .leaf ⟨3, 4, 0⟩],
      [(0, 1), (0, 2)]⟩, ⟨10, 10⟩⟩
      (ITree.node 0 .vertical (.leaf 1 ⟨1, 2, 0⟩) (.leaf 2 ⟨3, 4, 0⟩)) := by
    refine ⟨by decide, by decide, by decide⟩
  exact ⟨hw, (C4_dimensions_topdown _ _ hw).1.1⟩

/-- C2 counterexample: `from_blueprint` accepts a surplus of images without an
error.  The blueprint `[("V", [])]` has two empty slots, yet three supplied
images produce `Ok` (the extra image is silently ignored), refuting the
claimed "if and only if" on the too-many side. -/
theorem C2_from_blueprint_counterexample :
    (3 : Nat) ≠ blueprintSlots ⟨[("V", [])], 10, 10⟩ ∧
    Layout.from_blueprint ⟨[("V", [])], 10, 10⟩
        [⟨1, 1, 0⟩, ⟨2, 2, 0⟩, ⟨3, 3, 0⟩] =
      .ret (.ok ⟨⟨[.internal .vertical, .leaf ⟨1, 1, 0⟩, .leaf ⟨2, 2, 0⟩],
        [(0, 1), (0, 2)]⟩, ⟨10, 10⟩⟩) := by
  constructor
  · decide
  · rfl

/-- C2 (amended): for a blueprint with valid direction codes and in-range
child indices, `from_blueprint` returns an error exactly when fewer images
are supplied than the blueprint's empty leaf slots; when the images suffice,
it returns `Ok` (surplus images are ignored, not rejected). -/
theorem C2_from_blueprint_error_iff (bp : LayoutBlueprint) (images : List Img)
    (labels : List NodeLabel)
    (hparse : parseLabels bp.graph_representation = .ok labels)
    (hin : ∀ pc ∈ bp.graph_representation, ∀ c ∈ pc.2, c < labels.length) :
    ((∃ e, Layout.from_blueprint bp images = .ret (.error e)) ↔
      images.length < blueprintSlots bp) ∧
    (blueprintSlots bp ≤ images.length →
      ∃ L, Layout.from_blueprint bp images = .ret (.ok L)) := by
  have hall : bp.graph_representation.all
      (fun pc => pc.2.all (fun c => c < labels.length)) = true := by
    simp only [List.all_eq_true, decide_eq_true_eq]
    exact hin
  have hnodes := addBlueprintEdges_nodes ⟨labels, []⟩ bp.graph_representation
  have hb : ∀ e ∈ (addBlueprintEdges ⟨labels, []⟩
        bp.graph_representation).edges,
      e.2 < (addBlueprintEdges ⟨labels, []⟩
        bp.graph_representation).nodeCount := by
    intro e he
    have hcount : (addBlueprintEdges ⟨labels, []⟩
        bp.graph_representation).nodeCount = labels.length := by
      rw [LayoutGraph.nodeCount, hnodes]
    rw [hcount]
    refine addBlueprintEdges_bound (fun e => e.2 < labels.length)
      bp.graph_representation ⟨labels, []⟩ (by simp) ?_ e he
    intro pc hpc c hc
    exact hin pc.2 (snd_mem_of_mem_enum hpc) c hc
  have hnd : (addBlueprintEdges ⟨labels, []⟩
      bp.graph_representation).openIndices.Nodup :=
    (List.nodup_range _).filter _
  obtain ⟨fok, ferr⟩ := fillAll_spec
    (addBlueprintEdges ⟨labels, []⟩ bp.graph_representation).openIndices
    (addBlueprintEdges ⟨labels, []⟩ bp.graph_representation) images hb hnd
  have hslots : blueprintSlots bp =
      (((addBlueprintEdges ⟨labels, []⟩
          bp.graph_representation).openIndices).map
        (fun i => 2 - (addBlueprintEdges ⟨labels, []⟩
          bp.graph_representation).outDeg i)).sum := by
    simp only [blueprintSlots, hparse]
    rfl
  have hfb := from_blueprint_reduce bp images labels hparse hall
  constructor
  · constructor
    · rintro ⟨e, he⟩
      by_contra hnot
      push_neg at hnot
      rw [hslots] at hnot
      have hok := fok hnot
      rw [hfb, hok] at he
      exact absurd he (by simp)
    · intro hlt
      rw [hslots] at hlt
      obtain ⟨e, he⟩ := ferr hlt
      refine ⟨e, ?_⟩
      rw [hfb, he]
  · intro hle
    rw [hslots] at hle
    have hok := fok hle
    exact ⟨_, by rw [hfb, hok]⟩

theorem C2_from_blueprint_error_iff_witness :
    parseLabels ([("V", [])] : List (String × List Nat)) =
      .ok [.internal .vertical] ∧
    (∀ pc ∈ ([("V", [])] : List (String × List Nat)), ∀ c ∈ pc.2,
      c < ([NodeLabel.internal .vertical] : List NodeLabel).length) ∧
    ∃ L, Layout.from_blueprint ⟨[("V", [])], 10, 10⟩
      [⟨1, 1, 0⟩, ⟨2, 2, 0⟩] = .ret (.ok L) := by
  refine ⟨rfl, by decide, ?_⟩
  exact (C2_from_blueprint_error_iff ⟨[("V", [])], 10, 10⟩
    [⟨1, 1, 0⟩, ⟨2, 2, 0⟩] [.internal .vertical] rfl (by decide)).2
    (by decide)

/-- C8 (amended): when every internal node carries the same slice direction,
`swap_with_random_node` on an internal node falls back to swapping the labels
of two distinct leaf nodes; whenever the leaf labels are pairwise distinct the
breadth-first leaf-label sequence changes, for every random source. -/
theorem C8_swap_fallback_leaf_swap (L : Layout) (t : ITree) (hw : WFL L t)
    (i : Nat) (d0 : SliceDirection)
    (hi : L.graph.label? i = some (.internal d0))
    (hsame : ∀ j ∈ L.graph.internalIndices,
      L.graph.label? j = L.graph.label? i)
    (hleaf2 : 2 ≤ L.graph.leafIndices.length)
    (pI pF pL : Nat) :
    ∃ a b, a ∈ L.graph.leafIndices ∧ b ∈ L.graph.leafIndices ∧ a ≠ b ∧
      L.swap_with_random_node pI pF pL i =
        { L with graph := L.graph.swapLabels a b } ∧
      (L.leafLabels.Nodup →
        (L.swap_with_random_node pI pF pL i).bfsLeafLabels ≠
          L.bfsLeafLabels) := by
  have hcands : L.graph.internalIndices.filter
      (fun j => L.graph.label? j != L.graph.label? i) = [] := by
    rw [List.filter_eq_nil_iff]
    intro j hj
    simp [hsame j hj]
  have hlne : L.graph.leafIndices ≠ [] := by
    intro h; rw [h] at hleaf2; simp at hleaf2
  have hndL : L.graph.leafIndices.Nodup := (List.nodup_range _).filter _
  set a := chooseFrom L.graph.leafIndices pF with ha_def
  have ha : a ∈ L.graph.leafIndices := chooseFrom_mem hlne pF
  have hfne : L.graph.leafIndices.filter (fun j => j != a) ≠ [] :=
    filter_ne_nonempty hndL hleaf2 a
  set b := chooseFrom (L.graph.leafIndices.filter (fun j => j != a)) pL
    with hb_def
  have hbmem := chooseFrom_mem hfne pL
  rw [List.mem_filter] at hbmem
  have hb : b ∈ L.graph.leafIndices := hbmem.1
  have hba : b ≠ a := by simpa using hbmem.2
  have hres : L.swap_with_random_node pI pF pL i =
      { L with graph := L.graph.swapLabels a b } := by
    rw [hi] at hcands
    rw [ha_def, hb_def]
    simp only [Layout.swap_with_random_node, hi, hcands, List.isEmpty_nil,
      if_true, Layout.swapLeafBranch]
  refine ⟨a, b, ha, hb, Ne.symm hba, hres, ?_⟩
  intro hndl heq
  have haN : a < L.graph.nodeCount := mem_leafIndices_lt ha
  have hbN : b < L.graph.nodeCount := mem_leafIndices_lt hb
  have hla : (L.graph.labelAt a).isLeaf = true := hw.labelAt_leaf ha
  have hlb : (L.graph.labelAt b).isLeaf = true := hw.labelAt_leaf hb
  rw [hres] at heq
  have hLb : ({ L with graph := L.graph.swapLabels a b } : Layout).logicalBfs
      = L.logicalBfs := logicalBfs_swapLabels L a b
  have hswA : (L.graph.swapLabels a b).labelAt a = L.graph.labelAt b :=
    labelAt_swapLabels_left haN (Ne.symm hba)
  have hswB : (L.graph.swapLabels a b).labelAt b = L.graph.labelAt a :=
    labelAt_swapLabels_right hbN
  have hlsame : ∀ j, ((L.graph.swapLabels a b).labelAt j).isLeaf =
      (L.graph.labelAt j).isLeaf := by
    intro j
    by_cases hja : j = a
    · subst hja; rw [hswA, hla, hlb]
    · by_cases hjb : j = b
      · subst hjb; rw [hswB, hla, hlb]
      · rw [labelAt_swapLabels_other hja hjb]
  simp only [Layout.bfsLeafLabels, hLb] at heq
  have hfilt : L.logicalBfs.filter
      (fun j => ((L.graph.swapLabels a b).labelAt j).isLeaf) =
      L.logicalBfs.filter (fun j => (L.graph.labelAt j).isLeaf) :=
    List.filter_congr (fun j _ => hlsame j)
  rw [hfilt] at heq
  have hmem : a ∈ L.logicalBfs.filter
      (fun j => (L.graph.labelAt j).isLeaf) :=
    List.mem_filter.mpr ⟨hw.mem_logicalBfs haN, hla⟩
  have hat := (List.map_inj_left.mp heq) a hmem
  rw [hswA] at hat
  have hinj : ∀ x ∈ L.graph.leafIndices, ∀ y ∈ L.graph.leafIndices,
      L.graph.labelAt x = L.graph.labelAt y → x = y :=
    List.inj_on_of_nodup_map hndl
  exact hba (hinj b hb a ha hat)

theorem C8_swap_fallback_leaf_swap_witness :
    ∃ a b, a ∈ threeLeafLayout.graph.leafIndices ∧
      b ∈ threeLeafLayout.graph.leafIndices ∧ a ≠ b ∧
      threeLeafLayout.swap_with_random_node 0 0 0 0 =
        { threeLeafLayout with
            graph := threeLeafLayout.graph.swapLabels a b } ∧
      (threeLeafLayout.leafLabels.Nodup →
        (threeLeafLayout.swap_with_random_node 0 0 0 0).bfsLeafLabels ≠
          threeLeafLayout.bfsLeafLabels) :=
  C8_swap_fallback_leaf_swap threeLeafLayout threeLeafTree ⟨by decide, by decide, by decide⟩
    0 .vertical (by decide) (by decide) (by decide) 0 0 0

/-- C8 counterexample: on a layout whose two leaves hold the same image the
fallback leaf swap leaves the breadth-first leaf-label sequence unchanged on
the concrete random source below (and every other one), so the change does
not happen "with probability 1" over the random source. -/
theorem C8_duplicate_leaves_counterexample :
    (dupLeafLayout.swap_with_random_node 0 0 0 0).bfsLeafLabels =
      dupLeafLayout.bfsLeafLabels := by
  decide

/-- C1: for every layout produced by `Layout::new`, reconstructing via
`from_blueprint (to_blueprint L) (images_of L)` succeeds and the result is
logically equal to `L`: same canvas, same node and edge counts, same root
label, and the same ordered child-label pair along the lockstep breadth-first
traversals. -/
theorem C1_blueprint_roundtrip (images : List Img) (o : NewOracle)
    (L : Layout) (h : Layout.new images o = .ret L) :
    ∃ Lr : Layout,
      Layout.from_blueprint L.to_blueprint L.imagesOf = .ret (.ok Lr) ∧
      Lr.logical_eq L = true := by
  obtain ⟨t, hw, hgood, hidx, hroot⟩ := new_WFL h
  refine ⟨⟨reconGraph t, L.canvas_dimensions⟩,
    from_blueprint_roundtrip hw hroot hgood, ?_⟩
  exact logical_eq_of_reindex hw
    (reconWFL hw hroot hgood L.canvas_dimensions) rfl

theorem C1_blueprint_roundtrip_witness :
    ∃ Lr : Layout,
      Layout.from_blueprint (Layout.to_blueprint ⟨⟨[.internal .vertical,
        .leaf ⟨1, 2, 0⟩, .leaf ⟨3, 4, 0⟩], [(0, 1), (0, 2)]⟩, ⟨10, 10⟩⟩)
        (Layout.imagesOf ⟨⟨[.internal .vertical, .leaf ⟨1, 2, 0⟩,
          .leaf ⟨3, 4, 0⟩], [(0, 1), (0, 2)]⟩, ⟨10, 10⟩⟩) =
        .ret (.ok Lr) ∧
      Lr.logical_eq ⟨⟨[.internal .vertical, .leaf ⟨1, 2, 0⟩,
        .leaf ⟨3, 4, 0⟩], [(0, 1), (0, 2)]⟩, ⟨10, 10⟩⟩ = true :=
  C1_blueprint_roundtrip [⟨1, 2, 0⟩, ⟨3, 4, 0⟩]
    ⟨⟨10, 10⟩, [⟨1, 2, 0⟩, ⟨3, 4, 0⟩], fun _ => .vertical, fun _ => 0⟩
    ⟨⟨[.internal .vertical, .leaf ⟨1, 2, 0⟩, .leaf ⟨3, 4, 0⟩],
      [(0, 1), (0, 2)]⟩, ⟨10, 10⟩⟩ (by rfl)

/-- C6: on well-formed layouts, `crossover_random_subtrees` either is a
no-op on both parents (when no pair of eligible subtrees with equal leaf
count and at least three leaves exists, `subtree_pairs` is empty and both
layouts are returned unchanged) or returns two offspring whose leaf-image
lists -- hence leaf multisets -- and canvas dimensions equal those of the
corresponding parents, only the internal skeleton being rebuilt. -/
theorem C6_crossover_leaf_preservation (L other : Layout) (t t2 : ITree)
    (hw : WFL L t) (hw2 : WFL other t2) (pick : Nat) :
    (L.subtree_pairs other = [] ∧
      L.crossover_random_subtrees other pick = .ret (L, other)) ∨
    ∃ L' other',
      L.crossover_random_subtrees other pick = .ret (L', other') ∧
      L'.leafImgs = L.leafImgs ∧
      L'.canvas_dimensions = L.canvas_dimensions ∧
      other'.leafImgs = other.leafImgs ∧
      other'.canvas_dimensions = other.canvas_dimensions := by
  cases hprs : L.subtree_pairs other with
  | nil =>
    left
    refine ⟨rfl, ?_⟩
    simp only [Layout.crossover_random_subtrees, hprs]
    rfl
  | cons p0 ps =>
    right
    have hlen : 0 < (L.subtree_pairs other).length := by
      rw [hprs]
      simp
    obtain ⟨p, hp⟩ : ∃ p, (L.subtree_pairs other).get?
        (pick % (L.subtree_pairs other).length) = some p :=
      ⟨_, List.get?_eq_get (Nat.mod_lt _ hlen)⟩
    have hpmem : p ∈ L.subtree_pairs other := List.get?_mem hp
    obtain ⟨⟨si, c1⟩, oi, c2⟩ := p
    obtain ⟨hpa, hpb, hpc⟩ := mem_subtree_pairs hpmem
    simp only at hpa hpb hpc
    obtain ⟨s1, hs1, rfl, hs1int, hc1⟩ := subtree_node_of_mem hw hpa
    obtain ⟨s2, hs2, rfl, hs2int, hc2⟩ := subtree_node_of_mem hw2 hpb
    have hcount : (bfsLeaves s1).length = (bfsLeaves s2).length := by
      rw [hc1, hc2, hpc]
    obtain ⟨L', hL', hLleaf, hLcanvas⟩ :=
      swap_subtree_ok hw hw2 hs1 hs2 hs2int hcount
    obtain ⟨other', hO', hOleaf, hOcanvas⟩ :=
      swap_subtree_ok hw2 hw hs2 hs1 hs1int hcount.symm
    refine ⟨L', other', ?_, hLleaf, hLcanvas, hOleaf, hOcanvas⟩
    simp only [Layout.crossover_random_subtrees]
    rw [hp]
    simp only [Layout.crossover_subtrees]
    rw [hL', hO']

theorem C6_crossover_leaf_preservation_witness :
    WFL twoLeafLayout twoLeafTree ∧
    ((twoLeafLayout.subtree_pairs twoLeafLayout = [] ∧
      twoLeafLayout.crossover_random_subtrees twoLeafLayout 0 =
        .ret (twoLeafLayout, twoLeafLayout)) ∨
     ∃ L' other',
       twoLeafLayout.crossover_random_subtrees twoLeafLayout 0 =
         .ret (L', other') ∧
       L'.leafImgs = twoLeafLayout.leafImgs ∧
       L'.canvas_dimensions = twoLeafLayout.canvas_dimensions ∧
       other'.leafImgs = twoLeafLayout.leafImgs ∧
       other'.canvas_dimensions = twoLeafLayout.canvas_dimensions) := by
  have hw : WFL twoLeafLayout twoLeafTree := ⟨by decide, by decide, by decide⟩
  exact ⟨hw, C6_crossover_leaf_preservation twoLeafLayout twoLeafLayout
    twoLeafTree twoLeafTree hw hw 0⟩

end Collage
